import Mathlib

/-!
Verification of the jsonrescue repository (src/json_parser.py) against its
specification.  The Python code is shallowly embedded: Python values become
the inductive type `PyVal`, Python exceptions become `PyExc`, fallible code
returns `Except PyExc _`, and every operation of the source file
(`Schema.validated`, the five repair passes, candidate extraction via the
recursive bracket regex, strict JSON decoding, and `JSONParser.parse`) is a
computable Lean function.  Recursion is fuel-based throughout so that all
definitions reduce in the kernel; each top-level entry point supplies fuel
derived from the input length, proved sufficient where theorems need it.
-/

set_option maxRecDepth 100000
set_option maxHeartbeats 1000000

namespace JR

/-- Python runtime values, as produced by `json.loads` and handled by
`Schema.validated`.  `float` carries an exact rational: CPython floats are
IEEE doubles, but no claim below depends on rounding, only on the
int/float/bool type distinctions, which the constructors preserve
(`bool` is separate from `int`; the bool-is-an-int subtyping of Python is
modelled in `isinstanceNum` below, not in the value type). -/
inductive PyVal where
  | none
  | bool (b : Bool)
  | int (n : Int)
  | float (q : Rat)
  | str (s : String)
  | list (l : List PyVal)
  | dict (d : List (String × PyVal))

/-- The Python exceptions that matter to `JSONParser.parse`:
`json.JSONDecodeError` (a subclass of `ValueError`, caught by `parse`) and
plain `ValueError` / `TypeError` (not caught by `parse`). -/
inductive PyExc where
  | jsonDecodeError (msg : String)
  | valueError (msg : String)
  | typeError (msg : String)
deriving DecidableEq, Repr

/-- The `Schema` dataclass: `type`, `properties` (a Python dict, i.e. an
insertion-ordered association list), `items`, `required`. -/
inductive Schema where
  | mk (type : String) (properties : List (String × Schema))
       (items : Option Schema) (required : List String)

def Schema.type : Schema → String
  | .mk t _ _ _ => t

def Schema.properties : Schema → List (String × Schema)
  | .mk _ p _ _ => p

def Schema.items : Schema → Option Schema
  | .mk _ _ i _ => i

def Schema.required : Schema → List String
  | .mk _ _ _ r => r

/-- Python truthiness (`bool(x)`) on the values we model:
`None`, `False`, `0`, `0.0`, `""`, `[]`, `{}` are falsy. -/
def pyTruthy : PyVal → Bool
  | .none => false
  | .bool b => b
  | .int n => n ≠ 0
  | .float q => q ≠ 0
  | .str s => s ≠ ""
  | .list l => ¬ l.isEmpty
  | .dict d => ¬ d.isEmpty

/-- `isinstance(v, str)`. -/
def isinstanceStr : PyVal → Bool
  | .str _ => true
  | _ => false

/-- `isinstance(v, (int, float))`.  Crucially `bool` is a subclass of `int`
in Python, so booleans pass this check. -/
def isinstanceNum : PyVal → Bool
  | .int _ => true
  | .float _ => true
  | .bool _ => true
  | _ => false

/-- `isinstance(v, bool)`. -/
def isinstanceBool : PyVal → Bool
  | .bool _ => true
  | _ => false

/-- `isinstance(v, type(None))`. -/
def isinstanceNone : PyVal → Bool
  | .none => true
  | _ => false

/-- Characters Python's `str.strip()` / `str.isspace()` and the regex class
`\s` treat as whitespace (ASCII part, which is all our inputs use). -/
def isPySpace (c : Char) : Bool :=
  c = ' ' ∨ c = '\t' ∨ c = '\n' ∨ c = '\r' ∨ c = '\x0b' ∨ c = '\x0c'

def isAsciiDigit (c : Char) : Bool :=
  '0' ≤ c ∧ c ≤ '9'

/-- `int(s)` for a string argument: strip whitespace, optional sign, a
nonempty digit run.  (CPython additionally allows underscore separators and
non-ASCII digits; no input in this development uses either.)  A malformed
literal raises `ValueError` — not `TypeError`; this distinction is what
claim C1 is about. -/
def pyIntOfString (s : String) : Except PyExc Int :=
  let cs := (s.data.dropWhile isPySpace).reverse.dropWhile isPySpace |>.reverse
  let fail : Except PyExc Int :=
    .error (.valueError ("invalid literal for int() with base 10: " ++ s))
  let core : List Char → Except PyExc Int := fun ds =>
    if ds = [] ∨ ¬ ds.all isAsciiDigit then fail
    else .ok (ds.foldl (fun a c => a * 10 + ((c.toNat - '0'.toNat : Nat) : Int)) 0)
  match cs with
  | '-' :: ds => (core ds).map (fun n => -n)
  | '+' :: ds => core ds
  | ds => core ds

/-- `float(s)` for a string argument: strip whitespace, optional sign,
digits with an optional fractional part and optional exponent.  The value
is kept as an exact rational (CPython rounds to the nearest IEEE double;
no claim depends on the rounded value).  Malformed input raises
`ValueError`. -/
def pyFloatOfString (s : String) : Except PyExc Rat :=
  let cs := (s.data.dropWhile isPySpace).reverse.dropWhile isPySpace |>.reverse
  let fail : Except PyExc Rat :=
    .error (.valueError ("could not convert string to float: " ++ s))
  let digitsVal : List Char → Nat := fun ds =>
    ds.foldl (fun a c => a * 10 + (c.toNat - '0'.toNat)) 0
  let core : List Char → Except PyExc Rat := fun ds =>
    let ip := ds.takeWhile isAsciiDigit
    let rest1 := ds.drop ip.length
    let frest :=
      match rest1 with
      | '.' :: r => (r.takeWhile isAsciiDigit, r.drop (r.takeWhile isAsciiDigit).length)
      | _ => ([], rest1)
    let fp := frest.1
    let rest2 := frest.2
    if ip = [] ∧ fp = [] then fail
    else
      let mant : Rat := (digitsVal ip : Rat) + (digitsVal fp : Rat) / ((10 : Rat) ^ fp.length)
      match rest2 with
      | [] => .ok mant
      | 'e' :: r | 'E' :: r =>
        let sr : Int × List Char :=
          match r with
          | '-' :: tl => (-1, tl)
          | '+' :: tl => (1, tl)
          | _ => (1, r)
        let sgn := sr.1
        let r1 := sr.2
        let eds := r1.takeWhile isAsciiDigit
        if eds = [] ∨ r1.drop eds.length ≠ [] then fail
        else .ok (mant * (10 : Rat) ^ (sgn * (digitsVal eds : Int)))
      | _ => fail
  match cs with
  | '-' :: ds => (core ds).map (fun q => -q)
  | '+' :: ds => core ds
  | ds => core ds

/-- Membership of a key in a Python dict (`key in data`). -/
def dictHasKey (d : List (String × PyVal)) (k : String) : Bool :=
  d.any (fun kv => kv.1 = k)

/-- Lookup (`data[key]`), first match. -/
def dictGet (d : List (String × PyVal)) (k : String) : Option PyVal :=
  (d.find? (fun kv => kv.1 = k)).map (·.2)

/-- Assignment `data[key] = value`: replace in place if the key exists
(keeping its position, as CPython dicts do), else append. -/
def dictSet (d : List (String × PyVal)) (k : String) (v : PyVal) :
    List (String × PyVal) :=
  match d with
  | [] => [(k, v)]
  | (k', v') :: r => if k' = k then (k', v) :: r else (k', v') :: dictSet r k v

/-- The coercion attempt inside `Schema.validated`'s basic-type branch:
`accepted_type(data)` under `try/except TypeError`, where `accepted_type`
has been overridden to `int`/`float` for `number`.  Returns the converted
value, or the exception it raises.  `type(None)(s)` and `object(s)` raise
`TypeError`; `bool(s)` is truthiness of the string; `str(s)` is `s`. -/
def coerceCall (ty : String) (s : String) : Except PyExc PyVal :=
  if ty = "number" then
    if s.data.contains '.' then (pyFloatOfString s).map .float
    else (pyIntOfString s).map .int
  else if ty = "string" then .ok (.str s)
  else if ty = "boolean" then .ok (.bool (s ≠ ""))
  else if ty = "null" then .error (.typeError "NoneType takes no arguments")
  else .error (.typeError "object() takes no arguments")

/-- `isinstance(data, accepted_type)` where `accepted_type` is
`type_map.get(self.type, object)`. -/
def acceptedInstance (ty : String) (v : PyVal) : Bool :=
  if ty = "string" then isinstanceStr v
  else if ty = "number" then isinstanceNum v
  else if ty = "boolean" then isinstanceBool v
  else if ty = "null" then isinstanceNone v
  else true

/-- The basic-type (non-object, non-array) branch of `Schema.validated`.
Mirrors the source exactly: if the value is not an instance of the accepted
type AND is a string, attempt the coercion call, catching only `TypeError`
(caught → the failure sentinel `None`); every other exception — notably the
`ValueError` raised by `int()`/`float()` on a bad literal — propagates.
Otherwise (instance of the accepted type, or not a string) the value is
returned unchanged. -/
def basicValidated (ty : String) (v : PyVal) : Except PyExc PyVal :=
  if ¬ acceptedInstance ty v ∧ isinstanceStr v then
    match v with
    | .str s =>
      match coerceCall ty s with
      | .ok w => .ok w
      | .error (.typeError _) => .ok .none
      | .error e => .error e
    | _ => .ok v
  else .ok v

mutual

/-- `Schema.validated(data)`.  Fuel-indexed so the recursion is structural;
`validatedFuel` below always supplies enough fuel for the schemas that
appear in the claims.  Out of fuel returns the failure sentinel (never hit
at the fuel bounds used).  The object branch threads the in-place dict
mutations `data[key] = value` through the fold state; the loop stops (and
its result is decided) at the first failing or raising property, exactly as
the early `return None` / uncaught exception do in Python. -/
def validated : Nat → Schema → PyVal → Except PyExc PyVal
  | 0, _, _ => .ok .none
  | f + 1, sch, data =>
    if sch.type = "object" then
      -- `if isinstance(data, list): if not data: return None; data = data[0]`
      let unwrapped : Option PyVal :=
        match data with
        | .list [] => Option.none
        | .list (x :: _) => some x
        | _ => some data
      match unwrapped with
      | Option.none => .ok .none
      | some d1 =>
        match d1 with
        | .dict d =>
          if sch.required ≠ [] then
            if sch.required.all (fun k => dictHasKey d k) then
              validatedProps f sch.properties d
            else .ok .none
          else
            if sch.properties.any (fun kv => dictHasKey d kv.1) then
              validatedProps f sch.properties d
            else .ok .none
        | _ => .ok .none
    else if sch.type = "array" then
      let unwrapped : Option PyVal :=
        match data with
        | .dict [] => Option.none
        | .dict (kv :: _) => some kv.2
        | _ => some data
      match unwrapped with
      | Option.none => .ok .none
      | some d1 =>
        match d1 with
        | .list l =>
          match sch.items with
          | Option.none => .ok (.list l)
          | some it =>
            match validatedItems f it l with
            | .error e => .error e
            | .ok true => .ok (.list l)
            | .ok false => .ok .none
        | _ => .ok .none
    else basicValidated sch.type data

/-- The property loop of the object branch:
`for key, sub_schema in self.properties.items(): …`.  Fuel is consumed per
step (purely so the mutual recursion is structural on the fuel); it never
runs out when the top-level fuel exceeds schema size plus dict size. -/
def validatedProps : Nat → List (String × Schema) → List (String × PyVal) →
    Except PyExc PyVal
  | 0, _, _ => .ok .none
  | _ + 1, [], d => .ok (.dict d)
  | f + 1, (k, sub) :: rest, d =>
    match dictGet d k with
    | Option.none => validatedProps f rest d
    | some v =>
      match validated f sub v with
      | .error e => .error e
      | .ok .none => .ok .none
      | .ok w => validatedProps f rest (dictSet d k w)

/-- The item loop of the array branch:
`for item in data: if not self.items.validated(item): return None`.
The check is Python truthiness of the validated value. -/
def validatedItems : Nat → Schema → List PyVal → Except PyExc Bool
  | 0, _, _ => .ok true
  | _ + 1, _, [] => .ok true
  | f + 1, it, x :: xs =>
    match validated f it x with
    | .error e => .error e
    | .ok v => if pyTruthy v then validatedItems f it xs else .ok false

end

/-! ### The repair passes

Each textual pass of `JSONParser` is embedded as a character-list scanner.
The `re.sub`-based passes mirror `re.sub`'s semantics: scan left to right,
at each position try the pattern; on a match emit the replacement and
resume after the matched text, otherwise emit the character and advance by
one.  For each pattern the match attempt at a fixed position is
deterministic (analysed where relevant in the match functions below), so
no general backtracking engine is needed for these patterns. -/

/-- Characters the four "dangerous" character literals, kept as named
constants. -/
def dq : Char := Char.ofNat 34

def sq : Char := Char.ofNat 39

def bsl : Char := Char.ofNat 92

def lbr : Char := Char.ofNat 123

def rbr : Char := Char.ofNat 125

def lbk : Char := Char.ofNat 91

def rbk : Char := Char.ofNat 93

/-- The identifier class `[A-Za-z0-9_]` of `fix_keys` (also `\w` restricted
to ASCII, which is all our inputs contain). -/
def isIdentChar (c : Char) : Bool :=
  ('A' ≤ c ∧ c ≤ 'Z') ∨ ('a' ≤ c ∧ c ≤ 'z') ∨ ('0' ≤ c ∧ c ≤ '9') ∨ c = '_'

/-- Match attempt, at the current position, of the `fix_keys` pattern
`([{,]\s*)([A-Za-z0-9_]+)\s*:`.  The first character must be `{` or `,`;
then greedy whitespace, a nonempty identifier run, optional whitespace, and
a colon.  (Backtracking cannot produce any other match here: shortening the
identifier run leaves an identifier character where `:` is required, and
whitespace and identifier characters are disjoint.)  Returns the
replacement `prefix + quoted_key + ':'` — the replacement logic of the
source keeps a single-quote- or double-quote-wrapped key's quotes, but the
identifier class cannot match a quote, so only the bare-identifier branch
is reachable — together with the rest of the input after the match. -/
def fixKeysMatch (s : List Char) : Option (List Char × List Char) :=
  match s with
  | c :: r =>
    if c = lbr ∨ c = ',' then
      let ws := r.takeWhile isPySpace
      let r1 := r.drop ws.length
      let key := r1.takeWhile isIdentChar
      let r2 := r1.drop key.length
      if key = [] then Option.none
      else
        let ws2 := r2.takeWhile isPySpace
        let r3 := r2.drop ws2.length
        match r3 with
        | ':' :: r4 =>
          let quoted :=
            if key.head? = some sq ∧ key.getLast? = some sq then
              dq :: (key.drop 1).dropLast ++ [dq]
            else if key.head? = some dq ∧ key.getLast? = some dq then key
            else dq :: key ++ [dq]
          some (c :: ws ++ quoted ++ [':'], r4)
        | _ => Option.none
    else Option.none
  | [] => Option.none

/-- The `re.sub` scan for `fix_keys`. -/
def fixKeysGo : Nat → List Char → List Char
  | 0, s => s
  | f + 1, s =>
    match fixKeysMatch s with
    | some (repl, rest) => repl ++ fixKeysGo f rest
    | Option.none =>
      match s with
      | [] => []
      | c :: r => c :: fixKeysGo f r

/-- `JSONParser.fix_keys`. -/
def fix_keys (s : String) : String :=
  ⟨fixKeysGo (s.data.length + 1) s.data⟩

/-- `re.match(r'^(true|false|null)$', value)` on an already-stripped value. -/
def isLiteralTok (cs : List Char) : Bool :=
  cs = "true".data ∨ cs = "false".data ∨ cs = "null".data

/-- `re.match(r'^-?\d+(\.\d+)?$', value)` on an already-stripped value. -/
def isNumericTok (cs : List Char) : Bool :=
  let body := match cs with
    | '-' :: r => r
    | r => r
  let ip := body.takeWhile isAsciiDigit
  let rest := body.drop ip.length
  let fracOk : Bool :=
    match rest with
    | [] => true
    | '.' :: fr => (if fr = [] then false else fr.all isAsciiDigit)
    | _ => false
  (if ip = [] then false else fracOk)

/-- `value.strip()` (Python default strip). -/
def pyStrip (cs : List Char) : List Char :=
  (cs.dropWhile isPySpace).reverse.dropWhile isPySpace |>.reverse

/-- The value-class `[^{\[\]",}\]\s]` of the first value character in
`fix_string_values` (note `]` appears twice in the source class). -/
def svFirstChar (c : Char) : Bool :=
  ¬ (c = lbr ∨ c = lbk ∨ c = rbk ∨ c = dq ∨ c = ',' ∨ c = rbr ∨ isPySpace c)

/-- The continuation class `[^,\]}]` of `fix_string_values`. -/
def svRestChar (c : Char) : Bool :=
  ¬ (c = ',' ∨ c = rbk ∨ c = rbr)

/-- Match attempt of the `fix_string_values` pattern
`(:\s*)([^{\[\]",}\]\s][^,\]}]*)`.  Deterministic at a given position: the
first value character class excludes whitespace, so the greedy `\s*` run is
forced, and nothing follows the greedy tail class in the pattern.  Returns
the replacement (per the source's `replace`: literals and numbers kept,
single-quoted re-wrapped in double quotes, double-quoted kept, anything
else wrapped in double quotes — in each case built from the *stripped*
value) and the rest after the match. -/
def fixValsMatch (s : List Char) : Option (List Char × List Char) :=
  match s with
  | ':' :: r =>
    let ws := r.takeWhile isPySpace
    let r1 := r.drop ws.length
    match r1 with
    | c :: _ =>
      if svFirstChar c then
        let body := r1.takeWhile svRestChar
        let rest := r1.drop body.length
        let v := pyStrip body
        let pre := ':' :: ws
        let repl :=
          if isLiteralTok v ∨ isNumericTok v then pre ++ v
          else if v.head? = some sq ∧ v.getLast? = some sq then
            pre ++ dq :: (v.drop 1).dropLast ++ [dq]
          else if v.head? = some dq ∧ v.getLast? = some dq then pre ++ v
          else pre ++ dq :: v ++ [dq]
        some (repl, rest)
      else Option.none
    | [] => Option.none
  | _ => Option.none

/-- The `re.sub` scan for `fix_string_values`. -/
def fixValsGo : Nat → List Char → List Char
  | 0, s => s
  | f + 1, s =>
    match fixValsMatch s with
    | some (repl, rest) => repl ++ fixValsGo f rest
    | Option.none =>
      match s with
      | [] => []
      | c :: r => c :: fixValsGo f r

/-- `JSONParser.fix_string_values`. -/
def fix_string_values (s : String) : String :=
  ⟨fixValsGo (s.data.length + 1) s.data⟩

/-- One `str.replace` with a single-character target (Python replaces every
occurrence, left to right). -/
def replaceChar (t : Char) (repl : List Char) (cs : List Char) : List Char :=
  cs.flatMap (fun c => if c = t then repl else [c])

/-- Stage 1 of `escape_illegal_characters`: the four blanket `replace`
calls, in source order — backslashes first, so the backslashes introduced
for `\n`, `\r`, `\t` are not doubled. -/
def escapeStage1 (cs : List Char) : List Char :=
  replaceChar '\t' [bsl, 't']
    (replaceChar '\r' [bsl, 'r']
      (replaceChar '\n' [bsl, 'n']
        (replaceChar bsl [bsl, bsl] cs)))

/-- Stage 2 of `escape_illegal_characters`: the quote-aware walk.  A `"`
met inside a string is the closing quote when the next non-whitespace
character is `:`/`,`/`}`/`]` or the input ends there; otherwise it is an
embedded quote and is emitted escaped.  The lookahead does not consume. -/
def escapeStage2 (inStr : Bool) : List Char → List Char
  | [] => []
  | c :: r =>
    if c = dq then
      if ¬ inStr then dq :: escapeStage2 true r
      else
        match r.dropWhile isPySpace with
        | [] => dq :: escapeStage2 false r
        | x :: _ =>
          if x = ':' ∨ x = ',' ∨ x = rbr ∨ x = rbk then dq :: escapeStage2 false r
          else bsl :: dq :: escapeStage2 true r
    else c :: escapeStage2 inStr r

/-- `JSONParser.escape_illegal_characters`. -/
def escape_illegal_characters (s : String) : String :=
  ⟨escapeStage2 false (escapeStage1 s.data)⟩

/-- State of the `ensure_ending_brackets` walk: the stack of open brackets
(top at the head, modelling the tail of the Python list), the `in_string`
marker (`False` or the opening quote character), the `escape` flag, and the
output built so far (`result`). -/
structure EBSt where
  stack : List Char
  instr : Option Char
  esc : Bool
  result : List Char

/-- One iteration of the `ensure_ending_brackets` loop.  The character is
appended to the output first; an escaped character gets no further
processing; `\` sets the escape flag (inside or outside strings); quotes
toggle the string state; inside a string nothing else happens; outside,
openers push, a matching closer pops, and a mismatched closer is popped
back off the output (`result.pop()`). -/
def ebStep (st : EBSt) (c : Char) : EBSt :=
  let st1 : EBSt := { st with result := st.result ++ [c] }
  if st.esc then { st1 with esc := false }
  else if c = bsl then { st1 with esc := true }
  else if c = dq ∨ c = sq then
    match st.instr with
    | Option.none => { st1 with instr := some c }
    | some q => if q = c then { st1 with instr := Option.none } else st1
  else if st.instr.isSome then st1
  else if c = lbr ∨ c = lbk then { st1 with stack := c :: st.stack }
  else if c = rbr ∨ c = rbk then
    let opener := if c = rbr then lbr else lbk
    match st.stack with
    | t :: rest =>
      if t = opener then { st1 with stack := rest }
      else { st1 with result := st1.result.dropLast }
    | [] => { st1 with result := st1.result.dropLast }
  else st1

def closerOf (c : Char) : Char :=
  if c = lbr then rbr else rbk

/-- `JSONParser.ensure_ending_brackets`: run the walk, then close every
still-open bracket in LIFO order. -/
def ensure_ending_brackets (s : String) : String :=
  let st := s.data.foldl ebStep ⟨[], Option.none, false, []⟩
  ⟨st.result ++ st.stack.map closerOf⟩

/-- Scan for `re.sub(r'}\s*{', '},{', …)`. -/
def commasGo1 : Nat → List Char → List Char
  | 0, s => s
  | f + 1, s =>
    match s with
    | [] => []
    | c :: r =>
      if c = rbr then
        let ws := r.takeWhile isPySpace
        match r.drop ws.length with
        | c2 :: r2 =>
          if c2 = lbr then rbr :: ',' :: lbr :: commasGo1 f r2
          else c :: commasGo1 f r
        | [] => c :: commasGo1 f r
      else c :: commasGo1 f r

/-- Scan for `re.sub(r'\]\s*\[', '],[', …)`. -/
def commasGo2 : Nat → List Char → List Char
  | 0, s => s
  | f + 1, s =>
    match s with
    | [] => []
    | c :: r =>
      if c = rbk then
        let ws := r.takeWhile isPySpace
        match r.drop ws.length with
        | c2 :: r2 =>
          if c2 = lbk then rbk :: ',' :: lbk :: commasGo2 f r2
          else c :: commasGo2 f r
        | [] => c :: commasGo2 f r
      else c :: commasGo2 f r

/-- The class `[^",{}\[\]]` of the third comma-insertion pattern. -/
def ic3Class (c : Char) : Bool :=
  ¬ (c = dq ∨ c = ',' ∨ c = lbr ∨ c = rbr ∨ c = lbk ∨ c = rbk)

/-- Scan for `re.sub(r'(":\s*[^",{}\[\]]+)\s*"(\w+)":', r'\1, "\2":', …)`.
At `":` the `\s*` and the class run merge into one maximal run of class
characters (the class contains whitespace); the run cannot cross a `"`, so
the `"` ending it is the only one a match can use, and the greedy split
(everything in the class run, the second `\s*` empty) is the split the
engine commits to when the whole pattern matches.  The replacement
re-emits group 1, inserts `, `, and re-emits the quoted key. -/
def commasGo3 : Nat → List Char → List Char
  | 0, s => s
  | f + 1, s =>
    match s with
    | [] => []
    | c :: r =>
      if c = dq then
        match r with
        | ':' :: r1 =>
          let run := r1.takeWhile ic3Class
          let r2 := r1.drop run.length
          match r2 with
          | c2 :: r3 =>
            if run ≠ [] ∧ c2 = dq then
              let word := r3.takeWhile isIdentChar
              let r4 := r3.drop word.length
              match r4 with
              | c4 :: ':' :: r5 =>
                if word ≠ [] ∧ c4 = dq then
                  (dq :: ':' :: run ++ [',', ' ', dq] ++ word ++ [dq, ':'])
                    ++ commasGo3 f r5
                else c :: commasGo3 f r
              | _ => c :: commasGo3 f r
            else c :: commasGo3 f r
          | [] => c :: commasGo3 f r
        | _ => c :: commasGo3 f r
      else c :: commasGo3 f r

/-- `JSONParser.insert_missing_commas`: the three substitutions in source
order. -/
def insert_missing_commas (s : String) : String :=
  let s1 := commasGo1 (s.data.length + 1) s.data
  let s2 := commasGo2 (s1.length + 1) s1
  ⟨commasGo3 (s2.length + 1) s2⟩

/-- `JSONParser.fix_json`: the five repair passes in their fixed order. -/
def fix_json (s : String) : String :=
  insert_missing_commas
    (ensure_ending_brackets
      (escape_illegal_characters
        (fix_string_values
          (fix_keys s))))

/-! ### Candidate extraction: the recursive bracket regex

`BRACE_BRACKET` is the recursive pattern
`\{ (?: [^{}] | (?&BRACE_BRACKET) )* \}  |  \[ (?: [^\[\]] | (?&BRACE_BRACKET) )* \]`.
It is embedded as a backtracking matcher that returns, at a given start,
the ordered list of all rests a token match can leave (the engine's first
success is the head).  The interior star is greedy, its first alternative
is the character class, its second the recursive token; the brace
alternative of the whole token is tried before the bracket alternative —
all exactly the order a backtracking engine explores. -/

/-- All rests after matching `(?: cls | token )* closer` starting at `s`,
in backtracking order: continuations after a class character first, then
continuations after a nested token (in the token's own order), then —
the star finally yielding — the closer itself.  `g` is fuel; every
recursion strictly shortens the input, so `|s| + 1` steps always finish. -/
def scRun (tk : List Char → List (List Char)) (cl : Char) (clsOK : Char → Bool) :
    Nat → List Char → List (List Char)
  | 0, _ => []
  | g + 1, s =>
    (match s with
     | c :: r => if clsOK c then scRun tk cl clsOK g r else []
     | [] => [])
    ++ (tk s).flatMap (scRun tk cl clsOK g)
    ++ (match s with
        | c :: r => if c = cl then [r] else []
        | [] => [])

/-- All rests after matching the recursive `BRACE_BRACKET` token at `s`,
in backtracking order.  The fuel `f` bounds token nesting. -/
def tokPs : Nat → List Char → List (List Char)
  | 0, _ => []
  | f + 1, s =>
    (match s with
     | c :: r =>
       if c = lbr then scRun (tokPs f) rbr (fun x => ¬ (x = lbr ∨ x = rbr)) (r.length + 1) r
       else []
     | [] => [])
    ++ (match s with
     | c :: r =>
       if c = lbk then scRun (tokPs f) rbk (fun x => ¬ (x = lbk ∨ x = rbk)) (r.length + 1) r
       else []
     | [] => [])

/-- The `findall` scan: at each position try the token; on success take the
engine's first match, emit the matched text and continue right after it,
otherwise advance one character. -/
def findallGo : Nat → List Char → List (List Char)
  | 0, _ => []
  | f + 1, s =>
    match s with
    | [] => []
    | _ :: r =>
      match (tokPs (s.length + 1) s).head? with
      | some rest => s.take (s.length - rest.length) :: findallGo f rest
      | Option.none => findallGo f r

/-- `BRACE_BRACKET.findall(text)` (one group spanning the whole pattern, so
each element is the full matched substring). -/
def bbFindall (s : String) : List String :=
  (findallGo (s.data.length + 1) s.data).map (fun l => ⟨l⟩)

/-- `JSONParser.extract_json_candidates`. -/
def extract_json_candidates (s : String) : List String :=
  let candidates := bbFindall s
  if candidates.isEmpty then [ensure_ending_brackets s] else candidates

/-! ### The strict decoder (`json.loads`)

A faithful model of Python's strict JSON decoder on the inputs this
development evaluates: JSON whitespace is ` \t\n\r`; numbers follow the
JSON grammar (no leading zeros; a fraction or exponent makes the value a
Python float, otherwise an int); strings reject raw control characters and
accept the standard escapes (`\uXXXX` is mapped to the corresponding
scalar; the CPython quirks of lone/paired surrogates, and its acceptance of
`NaN`/`Infinity` literals, are not modelled — nothing here exercises
them); objects require double-quoted keys and build the dict left to
right, a repeated key overwriting in place. -/

def isJsonWs (c : Char) : Bool :=
  c = ' ' ∨ c = '\t' ∨ c = '\n' ∨ c = '\r'

def hexDigitVal (c : Char) : Option Nat :=
  if '0' ≤ c ∧ c ≤ '9' then some (c.toNat - '0'.toNat)
  else if 'a' ≤ c ∧ c ≤ 'f' then some (c.toNat - 'a'.toNat + 10)
  else if 'A' ≤ c ∧ c ≤ 'F' then some (c.toNat - 'A'.toNat + 10)
  else Option.none

/-- String body scanner (`py_scanstring`), after the opening quote. -/
def jsonStrGo : List Char → List Char → Except PyExc (String × List Char)
  | acc, c :: r =>
    if c = dq then .ok (⟨acc.reverse⟩, r)
    else if c = bsl then
      match r with
      | 'u' :: a :: b :: c2 :: d :: r2 =>
        (match hexDigitVal a, hexDigitVal b, hexDigitVal c2, hexDigitVal d with
         | some va, some vb, some vc, some vd =>
           jsonStrGo (Char.ofNat (((va * 16 + vb) * 16 + vc) * 16 + vd) :: acc) r2
         | _, _, _, _ => .error (.jsonDecodeError "Invalid \\uXXXX escape"))
      | e :: r2 =>
        (if e = dq then jsonStrGo (dq :: acc) r2
         else if e = bsl then jsonStrGo (bsl :: acc) r2
         else if e = '/' then jsonStrGo ('/' :: acc) r2
         else if e = 'b' then jsonStrGo ('\x08' :: acc) r2
         else if e = 'f' then jsonStrGo ('\x0c' :: acc) r2
         else if e = 'n' then jsonStrGo ('\n' :: acc) r2
         else if e = 'r' then jsonStrGo ('\r' :: acc) r2
         else if e = 't' then jsonStrGo ('\t' :: acc) r2
         else .error (.jsonDecodeError "Invalid \\escape"))
      | [] => .error (.jsonDecodeError "Unterminated string")
    else if c.toNat < 0x20 then
      .error (.jsonDecodeError "Invalid control character")
    else jsonStrGo (c :: acc) r
  | _, [] => .error (.jsonDecodeError "Unterminated string")

/-- JSON number scan: `(-?(?:0|[1-9]\d*))(\.\d+)?([eE][-+]?\d+)?`. -/
def jsonNumGo (s : List Char) : Except PyExc (PyVal × List Char) :=
  let fail : Except PyExc (PyVal × List Char) := .error (.jsonDecodeError "Expecting value")
  let sgn : Int × List Char := match s with
    | '-' :: r => (-1, r)
    | _ => (1, s)
  let body := sgn.2
  let ip := body.takeWhile isAsciiDigit
  if ip = [] then fail
  else if ip.length > 1 ∧ ip.head? = some '0' then fail
  else
    let digitsVal : List Char → Nat := fun ds =>
      ds.foldl (fun a c => a * 10 + (c.toNat - '0'.toNat)) 0
    let r1 := body.drop ip.length
    let fres : Option (List Char × List Char) :=
      match r1 with
      | '.' :: r2 =>
        let fd := r2.takeWhile isAsciiDigit
        if fd = [] then Option.none else some (fd, r2.drop fd.length)
      | _ => some ([], r1)
    match fres with
    | Option.none => fail
    | some (fd, r2) =>
      let eres : Option (Bool × Int × List Char) :=
        match r2 with
        | e :: r3 =>
          if e = 'e' ∨ e = 'E' then
            let sr : Int × List Char := match r3 with
              | '+' :: r4 => (1, r4)
              | '-' :: r4 => (-1, r4)
              | _ => (1, r3)
            let ed := sr.2.takeWhile isAsciiDigit
            if ed = [] then Option.none
            else some (true, sr.1 * (digitsVal ed : Int), sr.2.drop ed.length)
          else some (false, 0, r2)
        | [] => some (false, 0, r2)
      match eres with
      | Option.none => fail
      | some (hasExp, ex, r3) =>
        if fd = [] ∧ ¬ hasExp then
          .ok (.int (sgn.1 * (digitsVal ip : Int)), r1)
        else
          let mant : Rat :=
            (sgn.1 : Rat) * ((digitsVal ip : Rat) + (digitsVal fd : Rat) / (10 : Rat) ^ fd.length)
          .ok (.float (mant * (10 : Rat) ^ ex), r3)

mutual

/-- JSON value at the current position (leading whitespace already
skipped by the caller). -/
def jsonValue : Nat → List Char → Except PyExc (PyVal × List Char)
  | 0, _ => .error (.jsonDecodeError "Expecting value")
  | f + 1, s =>
    match s with
    | [] => .error (.jsonDecodeError "Expecting value")
    | c :: r =>
      if c = dq then (jsonStrGo [] r).map (fun p => (.str p.1, p.2))
      else if c = lbr then
        match r.dropWhile isJsonWs with
        | c2 :: r2 =>
          if c2 = rbr then .ok (.dict [], r2)
          else jsonMembers f [] (c2 :: r2)
        | [] => .error (.jsonDecodeError "Expecting property name")
      else if c = lbk then
        match r.dropWhile isJsonWs with
        | c2 :: r2 =>
          if c2 = rbk then .ok (.list [], r2)
          else jsonElems f [] (c2 :: r2)
        | [] => .error (.jsonDecodeError "Expecting value")
      else if c = 't' then
        match r with
        | 'r' :: 'u' :: 'e' :: r2 => .ok (.bool true, r2)
        | _ => .error (.jsonDecodeError "Expecting value")
      else if c = 'f' then
        match r with
        | 'a' :: 'l' :: 's' :: 'e' :: r2 => .ok (.bool false, r2)
        | _ => .error (.jsonDecodeError "Expecting value")
      else if c = 'n' then
        match r with
        | 'u' :: 'l' :: 'l' :: r2 => .ok (.none, r2)
        | _ => .error (.jsonDecodeError "Expecting value")
      else if c = '-' ∨ isAsciiDigit c then jsonNumGo s
      else .error (.jsonDecodeError "Expecting value")

/-- One-or-more object members (the empty object is handled by the
caller).  `acc` is the dict built so far. -/
def jsonMembers : Nat → List (String × PyVal) → List Char →
    Except PyExc (PyVal × List Char)
  | 0, _, _ => .error (.jsonDecodeError "Expecting property name")
  | f + 1, acc, s =>
    match s with
    | c :: r =>
      if c = dq then
        match jsonStrGo [] r with
        | .error e => .error e
        | .ok (key, r1) =>
          match r1.dropWhile isJsonWs with
          | ':' :: r2 =>
            match jsonValue f (r2.dropWhile isJsonWs) with
            | .error e => .error e
            | .ok (v, r3) =>
              let acc2 := dictSet acc key v
              match r3.dropWhile isJsonWs with
              | ',' :: r4 => jsonMembers f acc2 (r4.dropWhile isJsonWs)
              | c5 :: r5 =>
                if c5 = rbr then .ok (.dict acc2, r5)
                else .error (.jsonDecodeError "Expecting delimiter")
              | [] => .error (.jsonDecodeError "Expecting delimiter")
          | _ => .error (.jsonDecodeError "Expecting colon delimiter")
      else .error (.jsonDecodeError "Expecting property name")
    | [] => .error (.jsonDecodeError "Expecting property name")

/-- One-or-more array elements (the empty array is handled by the
caller). -/
def jsonElems : Nat → List PyVal → List Char →
    Except PyExc (PyVal × List Char)
  | 0, _, _ => .error (.jsonDecodeError "Expecting value")
  | f + 1, acc, s =>
    match jsonValue f s with
    | .error e => .error e
    | .ok (v, r) =>
      match r.dropWhile isJsonWs with
      | ',' :: r2 => jsonElems f (v :: acc) (r2.dropWhile isJsonWs)
      | c3 :: r3 =>
        if c3 = rbk then .ok (.list (v :: acc).reverse, r3)
        else .error (.jsonDecodeError "Expecting delimiter")
      | [] => .error (.jsonDecodeError "Expecting delimiter")

end

/-- `json.loads`: skip leading whitespace, decode one value, require only
whitespace after it. -/
def jsonLoads (s : String) : Except PyExc PyVal :=
  match jsonValue (s.data.length + 1) (s.data.dropWhile isJsonWs) with
  | .error e => .error e
  | .ok (v, rest) =>
    if (rest.dropWhile isJsonWs).isEmpty then .ok v
    else .error (.jsonDecodeError "Extra data")

/-! ### The parser -/

/-- `value is None`. -/
def isNoneVal : PyVal → Bool
  | .none => true
  | _ => false

/-- The candidate loop of `JSONParser.parse`: repair, skip when the repair
result is empty (falsy), decode — a `JSONDecodeError` skips to the next
candidate, any other exception propagates (the `try` only catches
`JSONDecodeError`; the `ValueError`s raised inside `validated` are not
caught) — validate, and return the first validated value that is not the
`None` sentinel.  An exhausted loop raises the no-match `ValueError`.  The
fuel handed to `validated` is a model artifact (Python needs none); it is
derived from the repaired candidate, and is ample for every schema and
value this development reasons about. -/
def parseLoop (sch : Schema) : List String → Except PyExc PyVal
  | [] => .error (.valueError "No matching JSON object found.")
  | cand :: rest =>
    let fixed := fix_json cand
    if fixed = "" then parseLoop sch rest
    else
      match jsonLoads fixed with
      | .error (.jsonDecodeError _) => parseLoop sch rest
      | .error e => .error e
      | .ok loaded =>
        match validated (fixed.data.length + 16) sch loaded with
        | .error e => .error e
        | .ok v => if isNoneVal v then parseLoop sch rest else .ok v

/-- `JSONParser.parse`. -/
def parse (sch : Schema) (text : String) : Except PyExc PyVal :=
  parseLoop sch (extract_json_candidates text)

/-! ### Concrete schemas and inputs used by the claims -/

/-- A bare `number` schema. -/
def numSch : Schema := .mk "number" [] Option.none []

/-- A bare `string` schema. -/
def strSch : Schema := .mk "string" [] Option.none []

/-- A bare `null` schema. -/
def nullSch : Schema := .mk "null" [] Option.none []

/-- `array` of `string` items. -/
def arrStrSch : Schema := .mk "array" [] (some strSch) []

/-- The schema of the repository's test-suite parser:
`object` with `name: string`, `age: number`, `emails: array of string`,
required `[name, age]`. -/
def schTest : Schema := .mk "object"
  [("name", strSch), ("age", numSch), ("emails", arrStrSch)]
  Option.none ["name", "age"]

/-- An `object` schema with one property of type `null`. -/
def nullObjSch : Schema := .mk "object" [("a", nullSch)] Option.none []

/-- Seed scenario 1's input. -/
def scen1 : String :=
  "\x7b\"name\": \"John Doe\", \"age\": 30, \"emails\": [\"john@example.com\"]\x7d"

/-- A single quote, as a string. -/
def sqs : String := String.mk [sq]

/-- A single backslash, as a string. -/
def bsls : String := String.mk [bsl]

/-- Seed scenario 5's input:
`{"name": "John Doe", "age": 22, 'emails': ["john.doe@example.com"], "test": Hello World}`. -/
def scen5 : String :=
  "\x7b\"name\": \"John Doe\", \"age\": 22, " ++ sqs ++ "emails" ++ sqs ++
  ": [\"john.doe@example.com\"], \"test\": Hello World\x7d"

/-- The C5 counterexample text: the strictly valid JSON object
`{"name": "a\\b", "age": 1}` (its `name` decodes to `a\b`). -/
def cx5 : String := "\x7b\"name\": \"a" ++ bsls ++ bsls ++ "b\", \"age\": 1\x7d"

/-- The message of the `ValueError` the no-match raise carries. -/
def noMatchErr : PyExc := .valueError "No matching JSON object found."

/-- Observation helper: the string stored under key `k` of a successfully
returned mapping.  Used to separate concrete results without a decidable
equality on `PyVal`. -/
def obsStrAt (k : String) : Except PyExc PyVal → Option String
  | .ok (.dict d) =>
    match dictGet d k with
    | some (.str s) => some s
    | _ => Option.none
  | _ => Option.none

/-- True when the text contains no brace or square-bracket character —
the condition claim C9 places on the prose prefix and suffix. -/
def noBrackets (cs : List Char) : Bool :=
  cs.all (fun c => ¬ (c = lbr ∨ c = rbr ∨ c = lbk ∨ c = rbk))

/-- Claim C8's description of the bracket-closure pass, written from the
claim's words as a direct recursion (not from the source's
append-then-maybe-pop loop): the pass is the identity on each character,
except that an escaped character is passed through with no bracket or
quote processing (escapes honoured), quotes of either kind toggle the
in-string state, and — outside any quoted region — a closing bracket whose
match is not at the top of the open-bracket stack contributes nothing to
the output; at end of input each still-open bracket is closed in LIFO
order. -/
def specBracketClosure : List Char → Option Char → Bool → List Char → List Char
  | [], _, _, stack => stack.map closerOf
  | c :: rest, instr, esc, stack =>
    if esc then c :: specBracketClosure rest instr false stack
    else if c = bsl then c :: specBracketClosure rest instr true stack
    else if c = dq ∨ c = sq then
      match instr with
      | Option.none => c :: specBracketClosure rest (some c) false stack
      | some q =>
        if q = c then c :: specBracketClosure rest Option.none false stack
        else c :: specBracketClosure rest instr false stack
    else if instr.isSome then c :: specBracketClosure rest instr false stack
    else if c = lbr ∨ c = lbk then c :: specBracketClosure rest instr false (c :: stack)
    else if c = rbr ∨ c = rbk then
      match stack with
      | t :: srest =>
        if t = (if c = rbr then lbr else lbk) then
          c :: specBracketClosure rest instr false srest
        else specBracketClosure rest instr false stack
      | [] => specBracketClosure rest instr false stack
    else c :: specBracketClosure rest instr false stack

/-- The claim-shaped bracket-closure pass on strings, starting outside any
string with an empty stack. -/
def spec_bracket_closure (s : String) : String :=
  ⟨specBracketClosure s.data Option.none false []⟩

/-! ### Canonical documents for the amended claim C5

The amended idempotence claim quantifies over canonically rendered
objects of the repository's test schema whose strings use only characters
none of the repair passes treats specially. -/

/-- Characters allowed inside the string fields of a canonical document:
printable (no control characters, which stage 1 of the escape pass would
rewrite and the strict decoder would reject) and none of the characters
the repair passes or the decoder treat specially.  Single quotes, spaces
and most punctuation remain allowed. -/
def safeChar (c : Char) : Bool :=
  0x20 ≤ c.toNat ∧
    ¬ (c = dq ∨ c = bsl ∨ c = lbr ∨ c = rbr ∨ c = lbk ∨ c = rbk ∨ c = ',' ∨ c = ':')

def safeStr (cs : List Char) : Bool := cs.all safeChar

/-- Decimal digit values of `n`, least significant first (fuel-indexed so
it reduces in the kernel; agrees with `Nat.digits 10` once the fuel
exceeds `n`). -/
def digitsRevAux : Nat → Nat → List Nat
  | 0, _ => []
  | f + 1, n => if n = 0 then [] else (n % 10) :: digitsRevAux f (n / 10)

/-- The decimal digit characters of `n`, most significant first, no sign
and no leading zeros. -/
def natDigits (n : Nat) : List Char :=
  if n = 0 then ['0'] else ((digitsRevAux (n + 1) n).reverse).map Nat.digitChar

/-- A document of the test schema's shape: a `name` string, an `age`
natural number, and a list of `emails` strings. -/
structure CanonDoc where
  name : List Char
  age : Nat
  emails : List (List Char)

/-- Well-formedness for the amended claim: the strings are safe and every
email is nonempty (the array item check is truthiness, so an empty string
element would be rejected — claim C6). -/
def wfDoc (doc : CanonDoc) : Bool :=
  safeStr doc.name ∧ doc.emails.all (fun e => safeStr e ∧ ¬ e.isEmpty)

/-- Render the emails as the comma-separated interior of a JSON array. -/
def renderEmails : List (List Char) → List Char
  | [] => []
  | [e] => dq :: e ++ [dq]
  | e :: rest => dq :: e ++ [dq, ',', ' '] ++ renderEmails rest

/-- The canonical JSON text
`{"name": "<name>", "age": <age>, "emails": [<emails>]}`. -/
def renderDoc (doc : CanonDoc) : List Char :=
  [lbr, dq] ++ "name".data ++ [dq, ':', ' ', dq] ++ doc.name ++
    [dq, ',', ' ', dq] ++ "age".data ++ [dq, ':', ' '] ++ natDigits doc.age ++
    [',', ' ', dq] ++ "emails".data ++ [dq, ':', ' ', lbk] ++
    renderEmails doc.emails ++ [rbk, rbr]

/-- The decoded value of a canonical document. -/
def docVal (doc : CanonDoc) : PyVal :=
  .dict [("name", .str ⟨doc.name⟩), ("age", .int doc.age),
         ("emails", .list (doc.emails.map (fun e => .str ⟨e⟩)))]

/-- No brace characters: the condition under which the brace token of the
recursive regex swallows text in one greedy character-class run. -/
def braceFree (cs : List Char) : Bool :=
  cs.all (fun c => ¬ (c = lbr ∨ c = rbr))

/-- The interior of `renderDoc` (everything strictly between the outer
braces). -/
def innerD (doc : CanonDoc) : List Char :=
  [dq] ++ "name".data ++ [dq, ':', ' ', dq] ++ doc.name ++
    [dq, ',', ' ', dq] ++ "age".data ++ [dq, ':', ' '] ++ natDigits doc.age ++
    [',', ' ', dq] ++ "emails".data ++ [dq, ':', ' ', lbk] ++
    renderEmails doc.emails ++ [rbk]

/-- A character that triggers none of the five textual repair scanners:
not an opening or closing brace, not a closing bracket, not a comma, not a
colon and not a double quote.  A scanner positioned at such a character
always just advances. -/
def borChar (c : Char) : Bool :=
  ¬ (c = lbr ∨ c = ',' ∨ c = ':' ∨ c = dq ∨ c = rbr ∨ c = rbk)

/-- The local shapes a non-empty suffix of a canonical rendering can take.
Each disjunct records exactly the window a repair scanner can inspect from
that position: an inert head; the opening `\x7b"`; a `, "` separator; the
`: "` / `: [` / `: <digits>,` value positions; the three key-closing
quotes (`": "<safe>",`, `": <digits>,`, `": [`); any other quote whose
next character is not a colon; and the final `]\x7d` / `\x7d`. -/
def SufShape (u : List Char) : Prop :=
  (∃ c X, u = c :: X ∧ borChar c = true) ∨
  (∃ X, u = lbr :: dq :: X) ∨
  (∃ X, u = ',' :: ' ' :: dq :: X) ∨
  (∃ X, u = ':' :: ' ' :: dq :: X) ∨
  (∃ X, u = ':' :: ' ' :: lbk :: X) ∨
  (∃ D X, D ≠ [] ∧ D.all isAsciiDigit = true ∧ u = ':' :: ' ' :: (D ++ ',' :: X)) ∨
  (∃ m X, safeStr m = true ∧ u = dq :: ':' :: ' ' :: dq :: (m ++ dq :: ',' :: X)) ∨
  (∃ D X, D ≠ [] ∧ D.all isAsciiDigit = true ∧
    u = dq :: ':' :: ' ' :: (D ++ ',' :: X)) ∨
  (∃ X, u = dq :: ':' :: ' ' :: lbk :: X) ∨
  (∃ v X, v ≠ ':' ∧ u = dq :: v :: X) ∨
  u = [rbk, rbr] ∨ u = [rbr]

/-! ## Theorems -/

/-- The fuel-indexed digit extractor agrees with `Nat.digits 10`. -/
theorem digitsRevAux_eq (f : Nat) :
    ∀ n : Nat, n < f → digitsRevAux f n = Nat.digits 10 n := by
  induction f with
  | zero => intro n h; exact absurd h (Nat.not_lt_zero _)
  | succ f ih =>
    intro n h
    rw [digitsRevAux]
    by_cases h0 : n = 0
    · subst h0; simp
    · have hrec : n / 10 < f := by
        have := Nat.div_lt_self (Nat.pos_of_ne_zero h0) (show (1:ℕ) < 10 by norm_num)
        omega
      rw [if_neg h0, Nat.digits_def' (show (1:ℕ) < 10 by norm_num) (Nat.pos_of_ne_zero h0),
        ih (n / 10) hrec]

theorem natDigits_eq (n : Nat) (h : n ≠ 0) :
    natDigits n = (Nat.digits 10 n).reverse.map Nat.digitChar := by
  rw [natDigits, if_neg h, digitsRevAux_eq (n + 1) n (by omega)]

/-- Digit characters satisfy the decoder's digit class. -/
theorem isAsciiDigit_digitChar (d : Nat) (h : d < 10) :
    isAsciiDigit (Nat.digitChar d) = true := by
  interval_cases d <;> decide

theorem natDigits_all_digit (n : Nat) :
    (natDigits n).all isAsciiDigit = true := by
  by_cases h : n = 0
  · subst h; decide
  · rw [natDigits_eq n h, List.all_eq_true]
    intro c hc
    rcases List.mem_map.1 hc with ⟨d, hd, rfl⟩
    exact isAsciiDigit_digitChar d (Nat.digits_lt_base (by norm_num) (List.mem_reverse.1 hd))

theorem natDigits_ne_nil (n : Nat) : natDigits n ≠ [] := by
  by_cases h : n = 0
  · subst h; decide
  · rw [natDigits_eq n h]
    have hnil : Nat.digits 10 n ≠ [] := Nat.digits_ne_nil_iff_ne_zero.2 h
    simp [hnil]

/-- The first digit of a nonzero number is not `'0'`. -/
theorem natDigits_head_ne_zero (n : Nat) (h : n ≠ 0) :
    (natDigits n).head? ≠ some '0' := by
  rw [natDigits_eq n h, List.head?_map, List.head?_reverse]
  have hnil : Nat.digits 10 n ≠ [] := Nat.digits_ne_nil_iff_ne_zero.2 h
  rcases hlast : (Nat.digits 10 n).getLast? with _ | d
  · simp
  · have hd10 : d < 10 :=
      Nat.digits_lt_base (by norm_num) (List.mem_of_mem_getLast? hlast)
    have hd0 : d ≠ 0 := by
      have hgl := Nat.getLast_digit_ne_zero 10 h
      have hdd : (Nat.digits 10 n).getLast hnil = d := by
        have h2 := List.getLast?_eq_getLast (Nat.digits 10 n) hnil
        rw [h2] at hlast
        exact Option.some_inj.1 hlast
      rwa [hdd] at hgl
    simp only [Option.map_some, ne_eq, Option.some_inj]
    interval_cases d
    all_goals first
      | exact absurd rfl hd0
      | decide

theorem digit_chars_foldl (ds : List Nat) (h : ∀ d ∈ ds, d < 10) :
    ∀ a : Nat, (ds.map Nat.digitChar).foldl (fun x c => x * 10 + (c.toNat - '0'.toNat)) a =
      ds.foldl (fun x d => x * 10 + d) a := by
  induction ds with
  | nil => intro a; rfl
  | cons d tail ih =>
    intro a
    have hd : d < 10 := h d (by simp)
    have hch : (Nat.digitChar d).toNat - '0'.toNat = d := by
      interval_cases d <;> decide
    simp only [List.map_cons, List.foldl_cons, hch]
    exact ih (fun x hx => h x (by simp [hx])) _

theorem foldl_reverse_ofDigits (ds : List Nat) :
    ∀ a : Nat, ds.reverse.foldl (fun x d => x * 10 + d) a =
      a * 10 ^ ds.length + Nat.ofDigits 10 ds := by
  induction ds with
  | nil => intro a; simp
  | cons d tail ih =>
    intro a
    rw [List.reverse_cons, List.foldl_append, ih a]
    simp only [List.foldl_cons, List.foldl_nil, List.length_cons]
    rw [Nat.ofDigits_cons]
    ring

/-- The decoder's digit fold recovers the rendered number. -/
theorem natDigits_val (n : Nat) :
    (natDigits n).foldl (fun a c => a * 10 + (c.toNat - '0'.toNat)) 0 = n := by
  by_cases h : n = 0
  · subst h; decide
  · rw [natDigits_eq n h,
      digit_chars_foldl (Nat.digits 10 n).reverse
        (fun d hd => Nat.digits_lt_base (by norm_num) (List.mem_reverse.1 hd)) 0,
      foldl_reverse_ofDigits (Nat.digits 10 n) 0]
    simp [Nat.ofDigits_digits]

/-- Claim C1 (code bug): the spec says a coercion failure *rejects* (returns
the failure sentinel), so the only error `parse` surfaces is the no-match
error.  The code instead raises: `int("abc")` raises `ValueError`, which
the `except TypeError` clause does not catch, so `validated` raises on a
`number` schema given `"abc"`, and `parse` — whose `try` only catches
`JSONDecodeError` — surfaces that `ValueError` to the caller instead of
the no-match error. -/
theorem C1_coercion_value_error_escapes :
    (∀ f : Nat, validated (f + 1) numSch (.str "abc") =
      .error (.valueError "invalid literal for int() with base 10: abc")) ∧
    parse schTest "\x7b\"name\": \"x\", \"age\": \"abc\"\x7d" =
      .error (.valueError "invalid literal for int() with base 10: abc") ∧
    (PyExc.valueError "invalid literal for int() with base 10: abc") ≠ noMatchErr :=
  ⟨fun _ => rfl, rfl, by decide⟩

/-- Claim C2 (code bug): the spec demands that a raw boolean never pass a
`number` schema, but `bool` is a subclass of `int` in Python, so
`isinstance(data, (int, float))` is true for booleans and `validated`
returns the boolean unchanged instead of rejecting it. -/
theorem C2_number_schema_accepts_booleans :
    ∀ (f : Nat) (b : Bool), validated (f + 1) numSch (.bool b) = .ok (.bool b) :=
  fun _ _ => rfl

/-- Claim C3 (code bug): the key-quoting pass is supposed to rewrite a
single-quoted key in delimiter–identifier–colon position into a
double-quoted key (and the repository's own test expects seed scenario 5
to parse successfully).  But the pattern's identifier class `[A-Za-z0-9_]+`
cannot match a quote character, so `'emails'` is not in the pattern's
match language at all: `fix_keys` leaves scenario 5's input unchanged, the
single quotes reach the strict decoder, and `parse` raises no-match. -/
theorem C3_single_quoted_key_not_rewritten :
    fix_keys scen5 = scen5 ∧
    parse schTest scen5 = .error noMatchErr :=
  ⟨rfl, rfl⟩

/-- Claim C4 (code bug): the spec's scalar contract returns a value only
when it has the expected native kind or is a string that coerces; the
code's `else: return data` branch instead returns *any* non-string value
unchanged, so an integer is accepted by a `string` schema. -/
theorem C4_string_schema_accepts_integer :
    ∀ f : Nat, validated (f + 1) strSch (.int 5) = .ok (.int 5) :=
  fun _ => rfl

/-- Counterexample to claim C5 as stated: `cx5` is a strictly valid JSON
object matching the test schema, whose `name` decodes to `a\b`; the escape
pass doubles the backslash, so `parse` returns a mapping whose `name` is
`a\\b` — not the canonical decode of the text. -/
theorem C5_cx_backslash_doubling :
    obsStrAt "name" (jsonLoads cx5) = some ("a" ++ bsls ++ "b") ∧
    obsStrAt "name" (parse schTest cx5) = some ("a" ++ bsls ++ bsls ++ "b") ∧
    parse schTest cx5 ≠ jsonLoads cx5 :=
  ⟨rfl, rfl, fun h => absurd (congrArg (obsStrAt "name") h) (by decide)⟩

/-- Counterexample to claim C6 as stated: the item check is Python
truthiness of the validated element, and the empty string is falsy, so a
sequence containing `""` is rejected by an array-of-strings schema, not
accepted. -/
theorem C6_cx_empty_string_rejected :
    validated 2 arrStrSch (.list [.str ""]) = .ok .none ∧
    Except.ok (PyVal.none) ≠
      (Except.ok (PyVal.list [.str ""]) : Except PyExc PyVal) :=
  ⟨rfl, by simp⟩

/-- A `string` schema maps a string to itself (the expected-native-kind
path of the basic branch). -/
theorem validated_str_id (g : Nat) (e : String) :
    validated (g + 1) strSch (.str e) = .ok (.str e) := rfl

/-- The item loop of an array-of-strings schema accepts any list of
nonempty strings (each element validates to itself, and a nonempty string
is truthy). -/
theorem validatedItems_strings (f : Nat) :
    ∀ l : List String, (∀ e ∈ l, e ≠ "") →
      validatedItems (f + l.length + 1) strSch (l.map .str) = .ok true
  | [], _ => rfl
  | e :: t, h => by
    have he : e ≠ "" := h e (by simp)
    have ht := validatedItems_strings f t (fun x hx => h x (by simp [hx]))
    show validatedItems (f + t.length + 1 + 1) strSch (.str e :: t.map .str) = .ok true
    rw [validatedItems, validated_str_id]
    have htr : pyTruthy (.str e) = true := by simp [pyTruthy, he]
    show (if pyTruthy (.str e) = true then
            validatedItems (f + t.length + 1) strSch (t.map .str)
          else .ok false) = .ok true
    rw [htr, if_pos rfl]
    exact ht

/-- Claim C6, amended: for an array schema with `string` items, `validated`
accepts every sequence of *nonempty* strings — the element check is Python
truthiness of the validated element, so the empty string (falsy) is
rejected — and returns the sequence with its elements unchanged. -/
theorem C6_array_of_nonempty_strings_accepted
    (f : Nat) (l : List String) (h : ∀ e ∈ l, e ≠ "") :
    validated (f + l.length + 2) arrStrSch (.list (l.map .str)) =
      .ok (.list (l.map .str)) := by
  have h1 := validatedItems_strings f l h
  calc validated (f + l.length + 2) arrStrSch (.list (l.map .str))
      = (match validatedItems (f + l.length + 1) strSch (l.map .str) with
         | .error e => .error e
         | .ok true => .ok (.list (l.map .str))
         | .ok false => .ok .none) := rfl
    _ = .ok (.list (l.map .str)) := by rw [h1]

/-- Witness for C6 at a concrete input. -/
theorem C6_witness :
    (∀ e ∈ (["a", "b"] : List String), e ≠ "") ∧
    validated (0 + (["a", "b"] : List String).length + 2) arrStrSch
        (.list ((["a", "b"] : List String).map .str)) =
      .ok (.list ((["a", "b"] : List String).map .str)) :=
  ⟨by decide, C6_array_of_nonempty_strings_accepted 0 ["a", "b"] (by decide)⟩

/-- Every schema maps the value `None` to the failure sentinel `None`:
the object and array branches see neither a dict nor a list, and the basic
branch returns non-string data unchanged. -/
theorem validated_none (f : Nat) (sub : Schema) :
    validated f sub .none = .ok .none := by
  cases f with
  | zero => rfl
  | succ g =>
    obtain ⟨t, props, items, req⟩ := sub
    by_cases h1 : t = "object"
    · subst h1; rfl
    · by_cases h2 : t = "array"
      · subst h2; rfl
      · rw [validated]
        simp only [Schema.type]
        rw [if_neg h1, if_neg h2]
        simp [basicValidated, isinstanceStr]
        all_goals intros; simp_all

/-- `isNoneVal` decides equality with the `None` sentinel. -/
theorem isNoneVal_eq_false {v : PyVal} (h : isNoneVal v = false) : v ≠ .none := by
  cases v <;> simp [isNoneVal] at h ⊢

/-- Updating one key leaves the lookup of a different key unchanged. -/
theorem dictGet_dictSet_ne (d : List (String × PyVal)) (kS k : String) (w : PyVal)
    (h : kS ≠ k) : dictGet (dictSet d kS w) k = dictGet d k := by
  induction d with
  | nil => simp [dictSet, dictGet, List.find?, h]
  | cons hd tl ih =>
    obtain ⟨k0, v0⟩ := hd
    by_cases h0 : k0 = kS
    · subst h0
      simp only [dictSet, if_pos rfl]
      simp [dictGet, List.find?, h]
    · simp only [dictSet, if_neg h0]
      by_cases hk : k0 = k
      · simp [dictGet, List.find?, hk]
      · simp only [dictGet, List.find?] at ih ⊢
        simp [hk, ih]

/-- Updating a key can only add to the set of present keys. -/
theorem dictHasKey_dictSet (d : List (String × PyVal)) (kS k : String) (w : PyVal)
    (h : dictHasKey d k = true) : dictHasKey (dictSet d kS w) k = true := by
  induction d with
  | nil => simp [dictHasKey] at h
  | cons hd tl ih =>
    obtain ⟨k0, v0⟩ := hd
    by_cases h0 : k0 = kS
    · subst h0
      simp only [dictSet, if_pos rfl]
      simpa [dictHasKey] using h
    · simp only [dictSet, if_neg h0]
      simp only [dictHasKey, List.any_cons] at h ⊢
      rcases Bool.or_eq_true_iff.1 h with h' | h'
      · exact Or.inl h' |> Bool.or_eq_true_iff.2
      · exact Bool.or_eq_true_iff.2 (Or.inr (ih h'))

/-- If a key whose stored value is `None` occurs among the properties, the
property loop can only end in the sentinel (or an exception): the first
occurrence of that key validates `None`, which maps to `None` under every
sub-schema, and the loop returns `None`. -/
theorem validatedProps_null_blocked :
    ∀ (f : Nat) (props : List (String × Schema)) (d : List (String × PyVal))
      (k : String) (v : PyVal),
      (∃ sub, (k, sub) ∈ props) → dictGet d k = some .none →
      validatedProps f props d = .ok v → v = .none := by
  intro f props
  induction props generalizing f with
  | nil =>
    intro d k v hmem _ _
    obtain ⟨sub, hsub⟩ := hmem
    exact absurd hsub (List.not_mem_nil _)
  | cons hd rest ih =>
    intro d k v hmem hget hok
    obtain ⟨kh, subh⟩ := hd
    cases f with
    | zero => exact (Except.ok.inj hok).symm
    | succ g =>
      rw [validatedProps] at hok
      by_cases hk : kh = k
      · subst hk
        simp only [hget, validated_none] at hok
        exact (Except.ok.inj hok).symm
      · obtain ⟨sub, hsub⟩ := hmem
        have hsub' : (k, sub) ∈ rest := by
          rcases List.mem_cons.1 hsub with h' | h'
          · exact absurd (congrArg Prod.fst h').symm hk
          · exact h'
        rcases hg : dictGet d kh with _ | v0
        · simp only [hg] at hok
          exact ih g d k v ⟨sub, hsub'⟩ hget hok
        · simp only [hg] at hok
          rcases hv : validated g subh v0 with e | w
          · simp only [hv] at hok
            exact absurd hok (by simp)
          · simp only [hv] at hok
            cases w
            · exact (Except.ok.inj hok).symm
            all_goals
              exact ih g _ k v ⟨sub, hsub'⟩
                (by rw [dictGet_dictSet_ne _ _ _ _ hk, hget]) hok

/-- A successful property loop yields either the sentinel or a dict that
still has every key the input dict had (updates replace or append, never
remove). -/
theorem validatedProps_preserves_keys :
    ∀ (f : Nat) (props : List (String × Schema)) (d : List (String × PyVal)) (v : PyVal),
      validatedProps f props d = .ok v →
      v = .none ∨ ∃ d', v = .dict d' ∧
        ∀ k, dictHasKey d k = true → dictHasKey d' k = true := by
  intro f props
  induction props generalizing f with
  | nil =>
    intro d v hok
    cases f with
    | zero => exact Or.inl (Except.ok.inj hok).symm
    | succ g => exact Or.inr ⟨d, (Except.ok.inj hok).symm, fun _ h => h⟩
  | cons hd rest ih =>
    intro d v hok
    obtain ⟨kh, subh⟩ := hd
    cases f with
    | zero => exact Or.inl (Except.ok.inj hok).symm
    | succ g =>
      rw [validatedProps] at hok
      rcases hg : dictGet d kh with _ | v0
      · simp only [hg] at hok
        exact ih g d v hok
      · simp only [hg] at hok
        rcases hv : validated g subh v0 with e | w
        · simp only [hv] at hok
          exact absurd hok (by simp)
        · simp only [hv] at hok
          cases w
          · exact Or.inl (Except.ok.inj hok).symm
          all_goals
            rcases ih g _ v hok with h | ⟨d', hv', pres⟩
          all_goals try exact Or.inl h
          all_goals
            exact Or.inr ⟨d', hv', fun k hkk => pres k (dictHasKey_dictSet _ _ _ _ hkk)⟩

/-- A non-sentinel success of `validated` under an object schema is a dict
containing every required key. -/
theorem validated_object_success (f : Nat) (sch : Schema) (x v : PyVal)
    (hobj : sch.type = "object") (hok : validated f sch x = .ok v) (hne : v ≠ .none)
    (k : String) (hk : k ∈ sch.required) :
    ∃ d', v = .dict d' ∧ dictHasKey d' k = true := by
  cases f with
  | zero => exact absurd (Except.ok.inj hok).symm hne
  | succ g =>
    obtain ⟨t, props, items, req⟩ := sch
    simp only [Schema.type] at hobj
    subst hobj
    simp only [Schema.required] at hk
    have main : ∀ d : List (String × PyVal),
        (if req ≠ [] then
           (if req.all (fun kk => dictHasKey d kk) then validatedProps g props d
            else .ok .none)
         else
           (if props.any (fun kv => dictHasKey d kv.1) then validatedProps g props d
            else .ok .none)) = .ok v →
        ∃ d', v = .dict d' ∧ dictHasKey d' k = true := by
      intro d hOK
      have hreq : req ≠ [] := List.ne_nil_of_mem hk
      rw [if_pos hreq] at hOK
      cases hall : req.all (fun kk => dictHasKey d kk) with
      | false =>
        rw [if_neg (by simp [hall])] at hOK
        exact absurd (Except.ok.inj hOK).symm hne
      | true =>
        rw [if_pos (by simp [hall])] at hOK
        rcases validatedProps_preserves_keys g props d v hOK with h | ⟨d', hv', pres⟩
        · exact absurd h hne
        · exact ⟨d', hv', pres k (List.all_eq_true.1 hall k hk)⟩
    cases x
    · exact absurd (Except.ok.inj hok).symm hne
    · exact absurd (Except.ok.inj hok).symm hne
    · exact absurd (Except.ok.inj hok).symm hne
    · exact absurd (Except.ok.inj hok).symm hne
    · exact absurd (Except.ok.inj hok).symm hne
    · rename_i l
      cases l with
      | nil => exact absurd (Except.ok.inj hok).symm hne
      | cons x0 xs =>
        cases x0
        · exact absurd (Except.ok.inj hok).symm hne
        · exact absurd (Except.ok.inj hok).symm hne
        · exact absurd (Except.ok.inj hok).symm hne
        · exact absurd (Except.ok.inj hok).symm hne
        · exact absurd (Except.ok.inj hok).symm hne
        · exact absurd (Except.ok.inj hok).symm hne
        · rename_i d
          exact main d hok
    · rename_i d
      exact main d hok

/-- Everything `parseLoop` returns successfully came out of `validated`
and is not the `None` sentinel. -/
theorem parseLoop_ok :
    ∀ (cands : List String) (sch : Schema) (v : PyVal),
      parseLoop sch cands = .ok v →
      isNoneVal v = false ∧ ∃ F loaded, validated F sch loaded = .ok v := by
  intro cands
  induction cands with
  | nil =>
    intro sch v h
    exact absurd h (by simp [parseLoop])
  | cons c rest ih =>
    intro sch v h
    rw [parseLoop] at h
    by_cases hfix : fix_json c = ""
    · rw [if_pos hfix] at h
      exact ih sch v h
    · rw [if_neg hfix] at h
      rcases hl : jsonLoads (fix_json c) with e | loaded
      · cases e with
        | jsonDecodeError m =>
          simp only [hl] at h
          exact ih sch v h
        | valueError m =>
          simp only [hl] at h
          exact absurd h (by simp)
        | typeError m =>
          simp only [hl] at h
          exact absurd h (by simp)
      · simp only [hl] at h
        rcases hv : validated ((fix_json c).data.length + 16) sch loaded with e2 | w
        · simp only [hv] at h
          exact absurd h (by simp)
        · simp only [hv] at h
          by_cases hw : isNoneVal w = true
          · rw [if_pos hw] at h
            exact ih sch v h
          · rw [if_neg hw] at h
            have hwv : w = v := Except.ok.inj h
            subst hwv
            exact ⟨by simpa using hw, _, loaded, hv⟩

/-- Claim C10 (confirmed): in the implementation the JSON value `null` *is*
the failure sentinel, so (a) under an object schema that lists a `null`
property, no mapping carrying `null` at that key can validate to anything
but the sentinel — the first occurrence of the key validates `None`, which
every sub-schema maps back to `None`, and the loop bails out; and (b)
`parse` can never successfully return the bare value `null`, because it
only returns validated values that are not the sentinel. -/
theorem C10_null_property_collides_with_sentinel :
    (∀ (f : Nat) (sch : Schema) (d : List (String × PyVal)) (k : String)
        (sub : Schema) (v : PyVal),
        sch.type = "object" → (k, sub) ∈ sch.properties → sub.type = "null" →
        dictGet d k = some .none →
        validated f sch (.dict d) = .ok v → v = .none) ∧
    (∀ (sch : Schema) (text : String) (v : PyVal),
        parse sch text = .ok v → v ≠ .none) := by
  constructor
  · intro f sch d k sub v hobj hmem hnull hget hok
    cases f with
    | zero => exact (Except.ok.inj hok).symm
    | succ g =>
      obtain ⟨t, props, items, req⟩ := sch
      simp only [Schema.type] at hobj
      subst hobj
      simp only [Schema.properties] at hmem
      have body : validated (g + 1) (.mk "object" props items req) (.dict d) =
          (if req ≠ [] then
             (if req.all (fun kk => dictHasKey d kk) then validatedProps g props d
              else .ok .none)
           else
             (if props.any (fun kv => dictHasKey d kv.1) then validatedProps g props d
              else .ok .none)) := rfl
      rw [body] at hok
      by_cases hreq : req ≠ []
      · rw [if_pos hreq] at hok
        cases hall : req.all (fun kk => dictHasKey d kk) with
        | false =>
          rw [if_neg (by simp [hall])] at hok
          exact (Except.ok.inj hok).symm
        | true =>
          rw [if_pos (by simp [hall])] at hok
          exact validatedProps_null_blocked g props d k v ⟨sub, hmem⟩ hget hok
      · rw [if_neg hreq] at hok
        cases hany : props.any (fun kv => dictHasKey d kv.1) with
        | false =>
          rw [if_neg (by simp [hany])] at hok
          exact (Except.ok.inj hok).symm
        | true =>
          rw [if_pos (by simp [hany])] at hok
          exact validatedProps_null_blocked g props d k v ⟨sub, hmem⟩ hget hok
  · intro sch text v h
    obtain ⟨hnone, _⟩ := parseLoop_ok (extract_json_candidates text) sch v h
    exact isNoneVal_eq_false hnone

/-- Witness for C10: the object schema `{a: null}` on the mapping
`{"a": null}` (validated concretely, fuel 5), and the successful parse of
`"5"` under a number schema. -/
theorem C10_witness :
    (PyVal.none = PyVal.none) ∧ (PyVal.int 5 ≠ PyVal.none) :=
  ⟨C10_null_property_collides_with_sentinel.1 5 nullObjSch [("a", .none)] "a"
      nullSch .none rfl (by simp [nullObjSch, Schema.properties]) rfl rfl rfl,
   C10_null_property_collides_with_sentinel.2 numSch "5" (.int 5) rfl⟩

/-- Claim C7 (confirmed): with an object schema whose `required` list is
nonempty, (a) every mapping a successful `parse` returns contains every
required key, and (b) `validated` rejects (returns the sentinel for) any
mapping missing a required key — the missing-fields check fires before the
property loop. -/
theorem C7_required_fields_enforced :
    (∀ (sch : Schema) (text : String) (v : PyVal) (k : String),
        parse sch text = .ok v → sch.type = "object" → k ∈ sch.required →
        ∃ d', v = .dict d' ∧ dictHasKey d' k = true) ∧
    (∀ (f : Nat) (sch : Schema) (d : List (String × PyVal)) (k : String),
        sch.type = "object" → k ∈ sch.required → dictHasKey d k = false →
        validated f sch (.dict d) = .ok .none) := by
  constructor
  · intro sch text v k hp hobj hk
    obtain ⟨hnone, F, loaded, hv⟩ := parseLoop_ok _ sch v hp
    exact validated_object_success F sch loaded v hobj hv (isNoneVal_eq_false hnone) k hk
  · intro f sch d k hobj hk hmiss
    cases f with
    | zero => rfl
    | succ g =>
      obtain ⟨t, props, items, req⟩ := sch
      simp only [Schema.type] at hobj
      subst hobj
      simp only [Schema.required] at hk
      have hreq : req ≠ [] := List.ne_nil_of_mem hk
      have body : validated (g + 1) (.mk "object" props items req) (.dict d) =
          (if req ≠ [] then
             (if req.all (fun kk => dictHasKey d kk) then validatedProps g props d
              else .ok .none)
           else
             (if props.any (fun kv => dictHasKey d kv.1) then validatedProps g props d
              else .ok .none)) := rfl
      rw [body, if_pos hreq]
      cases hall : req.all (fun kk => dictHasKey d kk) with
      | false => rw [if_neg (by simp [hall])]
      | true =>
        have := List.all_eq_true.1 hall k hk
        simp only [hmiss] at this
        exact absurd this (by simp)

/-- Witness for C7: part (a) at seed scenario 1 with key `name`, part (b)
at a mapping missing the required `age`. -/
theorem C7_witness :
    (∃ d', (PyVal.dict [("name", .str "John Doe"), ("age", .int 30),
        ("emails", .list [.str "john@example.com"])]) = .dict d' ∧
        dictHasKey d' "name" = true) ∧
    validated 3 schTest (.dict [("name", .str "x")]) = .ok .none :=
  ⟨C7_required_fields_enforced.1 schTest scen1
      (.dict [("name", .str "John Doe"), ("age", .int 30),
        ("emails", .list [.str "john@example.com"])]) "name" rfl rfl (by decide),
   C7_required_fields_enforced.2 3 schTest [("name", .str "x")] "age" rfl (by decide) rfl⟩

/-- Dropping the last element of `l ++ [a]` gives back `l`. -/
theorem dropLast_append_single (l : List Char) (a : Char) :
    (l ++ [a]).dropLast = l := by
  simp

/-- The fold of `ebStep` (with the final LIFO closing) agrees, from any
state, with the claim-shaped recursion `specBracketClosure`.  This is the
induction behind C8: the source appends each character and pops it back
off on a mismatched closer, which is the same as never emitting it. -/
theorem ebLoop_spec :
    ∀ (cs : List Char) (st : EBSt),
      (cs.foldl ebStep st).result ++ (cs.foldl ebStep st).stack.map closerOf =
        st.result ++ specBracketClosure cs st.instr st.esc st.stack := by
  intro cs
  induction cs with
  | nil => intro st; rfl
  | cons c rest ih =>
    intro st
    rw [List.foldl_cons, ih (ebStep st c)]
    obtain ⟨stack, instr, esc, result⟩ := st
    cases esc with
    | true =>
      simp [ebStep, specBracketClosure, List.append_assoc]
    | false =>
      by_cases h1 : c = bsl
      · simp [ebStep, specBracketClosure, h1, List.append_assoc]
      · by_cases h2 : c = dq ∨ c = sq
        · cases instr with
          | none => simp [ebStep, specBracketClosure, h1, h2, List.append_assoc]
          | some q =>
            by_cases h3 : q = c
            · simp [ebStep, specBracketClosure, h1, h2, h3, List.append_assoc]
            · simp [ebStep, specBracketClosure, h1, h2, h3, List.append_assoc]
        · cases instr with
          | some q =>
            simp [ebStep, specBracketClosure, h1, h2, Option.isSome, List.append_assoc]
          | none =>
            by_cases h4 : c = lbr ∨ c = lbk
            · simp [ebStep, specBracketClosure, h1, h2, h4, Option.isSome,
                List.append_assoc]
            · by_cases h5 : c = rbr ∨ c = rbk
              · cases stack with
                | nil =>
                  simp [ebStep, specBracketClosure, h1, h2, h4, h5, Option.isSome,
                    dropLast_append_single]
                | cons t srest =>
                  by_cases h6 : t = (if c = rbr then lbr else lbk)
                  · simp [ebStep, specBracketClosure, h1, h2, h4, h5, h6,
                      Option.isSome, List.append_assoc]
                  · simp [ebStep, specBracketClosure, h1, h2, h4, h5, h6,
                      Option.isSome, dropLast_append_single]
              · simp [ebStep, specBracketClosure, h1, h2, h4, h5, Option.isSome,
                  List.append_assoc]

/-- Claim C8 (confirmed): the source's bracket-closure pass coincides, on
every input, with the claim's description — identity on each character,
except that outside any single- or double-quoted region (escapes honoured:
an escaped character gets no bracket or quote processing) a closing
bracket whose match is not at the top of the open-bracket stack is deleted
from the output, and at end of input each still-open bracket is closed by
its matching closer in LIFO order. -/
theorem C8_bracket_closure_matches_claim (s : String) :
    ensure_ending_brackets s = spec_bracket_closure s := by
  have h := ebLoop_spec s.data ⟨[], Option.none, false, []⟩
  simp only [List.nil_append] at h
  unfold ensure_ending_brackets spec_bracket_closure
  exact congrArg String.mk h

/-- `flatMap` only depends on the function's values on members. -/
theorem flatMap_congr_mem {α β : Type} :
    ∀ (l : List α) (f g : α → List β), (∀ a ∈ l, f a = g a) →
      l.flatMap f = l.flatMap g
  | [], _, _, _ => rfl
  | a :: l, f, g, h => by
    simp only [List.flatMap_cons]
    rw [h a (by simp), flatMap_congr_mem l f g (fun x hx => h x (by simp [hx]))]

/-- The token matcher finds nothing on empty input. -/
theorem tokPs_nil (f : Nat) : tokPs f [] = [] := by
  cases f <;> rfl

/-- The token matcher finds nothing unless the input starts with an
opening brace or bracket. -/
theorem tokPs_not_open (f : Nat) (s : List Char)
    (h : ∀ c, s.head? = some c → ¬ (c = lbr ∨ c = lbk)) : tokPs f s = [] := by
  cases f with
  | zero => rfl
  | succ g =>
    cases s with
    | nil => rfl
    | cons c r =>
      have hc := h c rfl
      rw [tokPs]
      rw [if_neg (fun hh => hc (Or.inl hh)), if_neg (fun hh => hc (Or.inr hh))]
      rfl

/-- Every rest a star-and-close run can leave is at least one character
shorter than its input (the closer is consumed), provided the nested
token matcher consumes at least two characters. -/
theorem scRun_len (tk : List Char → List (List Char)) (cl : Char) (cls : Char → Bool)
    (htk : ∀ u r, r ∈ tk u → r.length + 2 ≤ u.length) :
    ∀ (g : Nat) (s : List Char) (r : List Char),
      r ∈ scRun tk cl cls g s → r.length + 1 ≤ s.length := by
  intro g
  induction g with
  | zero => intro s r hr; simp [scRun] at hr
  | succ g ih =>
    intro s r hr
    cases s with
    | nil =>
      simp only [scRun] at hr
      rcases List.mem_append.1 hr with hr1 | hr2
      · rcases List.mem_append.1 hr1 with hch | htok
        · simp at hch
        · rcases List.mem_flatMap.1 htok with ⟨u, hu, hru⟩
          have h1 := htk [] u hu
          simp at h1
      · simp at hr2
    | cons c rest =>
      simp only [scRun] at hr
      rcases List.mem_append.1 hr with hr1 | hr2
      · rcases List.mem_append.1 hr1 with hch | htok
        · by_cases hc : cls c = true
          · rw [if_pos hc] at hch
            have := ih rest r hch
            simp only [List.length_cons]
            omega
          · rw [if_neg hc] at hch
            simp at hch
        · rcases List.mem_flatMap.1 htok with ⟨u, hu, hru⟩
          have h1 := htk _ u hu
          have h2 := ih u r hru
          simp only [List.length_cons] at h1 ⊢
          omega
      · by_cases hc : c = cl
        · rw [if_pos hc] at hr2
          simp at hr2
          subst hr2
          simp
        · rw [if_neg hc] at hr2
          simp at hr2

/-- A matched token consumes at least its opener and closer. -/
theorem tokPs_len :
    ∀ (f : Nat) (s : List Char) (r : List Char),
      r ∈ tokPs f s → r.length + 2 ≤ s.length := by
  intro f
  induction f with
  | zero => intro s r hr; simp [tokPs] at hr
  | succ f ih =>
    intro s r hr
    cases s with
    | nil => simp [tokPs] at hr
    | cons c rest =>
      simp only [tokPs] at hr
      rcases List.mem_append.1 hr with h1 | h1
      · by_cases hc : c = lbr
        · rw [if_pos hc] at h1
          have := scRun_len (tokPs f) rbr _ ih (rest.length + 1) rest r h1
          simp only [List.length_cons]
          omega
        · rw [if_neg hc] at h1
          simp at h1
      · by_cases hc : c = lbk
        · rw [if_pos hc] at h1
          have := scRun_len (tokPs f) rbk _ ih (rest.length + 1) rest r h1
          simp only [List.length_cons]
          omega
        · rw [if_neg hc] at h1
          simp at h1

/-- Unfolding `noBrackets` over a cons. -/
theorem noBrackets_cons {c : Char} {t : List Char} :
    noBrackets (c :: t) = true ↔
      (¬ (c = lbr ∨ c = rbr ∨ c = lbk ∨ c = rbk)) ∧ noBrackets t = true := by
  simp [noBrackets]

/-- The token matcher finds nothing on bracket-free text. -/
theorem tokPs_bfree (f : Nat) (t : List Char) (ht : noBrackets t = true) :
    tokPs f t = [] := by
  apply tokPs_not_open
  intro c hc
  cases t with
  | nil => simp at hc
  | cons c0 r =>
    simp only [List.head?] at hc
    cases hc
    have := (noBrackets_cons.1 ht).1
    tauto

/-- Once the fuel covers the input length, more fuel does not change a
star-and-close run. -/
theorem scRun_stable (tk : List Char → List (List Char)) (cl : Char) (cls : Char → Bool)
    (htk : ∀ u r, r ∈ tk u → r.length + 2 ≤ u.length) :
    ∀ (g g' : Nat) (s : List Char), s.length < g → s.length < g' →
      scRun tk cl cls g s = scRun tk cl cls g' s := by
  intro g
  induction g with
  | zero => intro g' s h _; exact absurd h (Nat.not_lt_zero _)
  | succ g ih =>
    intro g' s hg hg'
    cases g' with
    | zero => exact absurd hg' (Nat.not_lt_zero _)
    | succ g₂ =>
      have hnil : tk [] = [] := by
        rcases h : tk [] with _ | ⟨u, us⟩
        · rfl
        · have := htk [] u (by simp [h])
          simp at this
      cases s with
      | nil => simp [scRun, hnil]
      | cons c rest =>
        simp only [List.length_cons] at hg hg'
        simp only [scRun]
        have hA : (if cls c = true then scRun tk cl cls g rest else []) =
            (if cls c = true then scRun tk cl cls g₂ rest else []) := by
          by_cases hc : cls c = true
          · rw [if_pos hc, if_pos hc, ih g₂ rest (by omega) (by omega)]
          · rw [if_neg hc, if_neg hc]
        have hB : (tk (c :: rest)).flatMap (scRun tk cl cls g) =
            (tk (c :: rest)).flatMap (scRun tk cl cls g₂) := by
          apply flatMap_congr_mem
          intro u hu
          have hlen := htk _ u hu
          simp only [List.length_cons] at hlen
          exact ih g₂ u (by omega) (by omega)
        rw [hA, hB]

/-- A star-and-close run only depends on the token function's values on
inputs no longer than a bound covering its input. -/
theorem scRun_congr (tk tkB : List Char → List (List Char)) (cl : Char) (cls : Char → Bool)
    (hb : ∀ u r, r ∈ tk u → r.length ≤ u.length) (n : Nat)
    (heq : ∀ u : List Char, u.length ≤ n → tk u = tkB u) :
    ∀ (g : Nat) (s : List Char), s.length ≤ n →
      scRun tk cl cls g s = scRun tkB cl cls g s := by
  intro g
  induction g with
  | zero => intro s _; rfl
  | succ g ih =>
    intro s hs
    cases s with
    | nil =>
      have h0 : tk [] = tkB [] := heq [] (by simp)
      simp only [scRun]
      rw [← h0]
      have hfm : (tk []).flatMap (scRun tk cl cls g) =
          (tk []).flatMap (scRun tkB cl cls g) := by
        apply flatMap_congr_mem
        intro u hu
        have hb0 := hb [] u hu
        simp only [List.length_nil, Nat.le_zero] at hb0
        exact ih u (by omega)
      rw [hfm]
    | cons c rest =>
      simp only [scRun]
      have hA : (if cls c = true then scRun tk cl cls g rest else []) =
          (if cls c = true then scRun tkB cl cls g rest else []) := by
        by_cases hc : cls c = true
        · rw [if_pos hc, if_pos hc, ih rest (by simp at hs; omega)]
        · rw [if_neg hc, if_neg hc]
      have hB : (tk (c :: rest)).flatMap (scRun tk cl cls g) =
          (tkB (c :: rest)).flatMap (scRun tkB cl cls g) := by
        rw [← heq _ hs]
        apply flatMap_congr_mem
        intro u hu
        exact ih u (le_trans (hb _ u hu) hs)
      rw [hA, hB]

/-- Once the fuel covers the input length, more fuel does not change the
token matcher. -/
theorem tokPs_stable :
    ∀ (f fB : Nat) (s : List Char), s.length ≤ f → s.length ≤ fB →
      tokPs f s = tokPs fB s := by
  intro f
  induction f with
  | zero =>
    intro fB s h _
    have : s = [] := List.eq_nil_of_length_eq_zero (Nat.le_zero.1 h)
    subst this
    rw [tokPs_nil, tokPs_nil]
  | succ f ih =>
    intro fB s hf hfB
    cases fB with
    | zero =>
      have : s = [] := List.eq_nil_of_length_eq_zero (Nat.le_zero.1 hfB)
      subst this
      rw [tokPs_nil, tokPs_nil]
    | succ f₂ =>
      cases s with
      | nil => rw [tokPs_nil, tokPs_nil]
      | cons c rest =>
        simp only [tokPs]
        have hb : ∀ u r, r ∈ tokPs f u → r.length ≤ u.length := fun u r hr => by
          have := tokPs_len f u r hr
          omega
        have heq : ∀ u : List Char, u.length ≤ rest.length → tokPs f u = tokPs f₂ u := by
          intro u hu
          simp only [List.length_cons] at hf hfB
          exact ih f₂ u (by omega) (by omega)
        have hA : (if c = lbr then
              scRun (tokPs f) rbr (fun x => ¬ (x = lbr ∨ x = rbr)) (rest.length + 1) rest
            else []) =
            (if c = lbr then
              scRun (tokPs f₂) rbr (fun x => ¬ (x = lbr ∨ x = rbr)) (rest.length + 1) rest
            else []) := by
          by_cases hc : c = lbr
          · rw [if_pos hc, if_pos hc,
              scRun_congr (tokPs f) (tokPs f₂) rbr _ hb rest.length heq _ rest le_rfl]
          · rw [if_neg hc, if_neg hc]
        have hB : (if c = lbk then
              scRun (tokPs f) rbk (fun x => ¬ (x = lbk ∨ x = rbk)) (rest.length + 1) rest
            else []) =
            (if c = lbk then
              scRun (tokPs f₂) rbk (fun x => ¬ (x = lbk ∨ x = rbk)) (rest.length + 1) rest
            else []) := by
          by_cases hc : c = lbk
          · rw [if_pos hc, if_pos hc,
              scRun_congr (tokPs f) (tokPs f₂) rbk _ hb rest.length heq _ rest le_rfl]
          · rw [if_neg hc, if_neg hc]
        rw [hA, hB]

/-- A star-and-close run can find nothing on bracket-free text: the closer
never appears, and no token can start. -/
theorem scRun_bfree (tk : List Char → List (List Char)) (cl : Char) (cls : Char → Bool)
    (hcl : cl = rbr ∨ cl = rbk)
    (htk0 : ∀ u, noBrackets u = true → tk u = []) :
    ∀ (g : Nat) (t : List Char), noBrackets t = true → scRun tk cl cls g t = [] := by
  intro g
  induction g with
  | zero => intro t _; rfl
  | succ g ih =>
    intro t ht
    cases t with
    | nil => simp [scRun, htk0 [] rfl]
    | cons c rest =>
      obtain ⟨hc0, hrest⟩ := noBrackets_cons.1 ht
      simp only [scRun]
      rw [htk0 _ ht]
      have hc : ¬ c = cl := by
        rcases hcl with h | h <;> subst h <;> tauto
      by_cases hcc : cls c = true
      · rw [if_pos hcc, ih rest hrest, if_neg hc]
        rfl
      · rw [if_neg hcc, if_neg hc]
        rfl

/-- Appending bracket-free text to the input of a star-and-close run only
appends it to every rest the run can leave. -/
theorem scRun_append (tk1 tk2 : List Char → List (List Char)) (cl : Char)
    (cls : Char → Bool) (B : List Char)
    (hB : noBrackets B = true) (hcl : cl = rbr ∨ cl = rbk)
    (hpair : ∀ u : List Char, tk1 (u ++ B) = (tk2 u).map (· ++ B))
    (h0 : ∀ u, noBrackets u = true → tk1 u = [])
    (hnil2 : tk2 [] = []) :
    ∀ (g : Nat) (xs : List Char),
      scRun tk1 cl cls g (xs ++ B) = (scRun tk2 cl cls g xs).map (· ++ B) := by
  intro g
  induction g with
  | zero => intro xs; rfl
  | succ g ih =>
    intro xs
    cases xs with
    | nil =>
      rw [List.nil_append, scRun_bfree tk1 cl cls hcl h0 (g + 1) B hB]
      simp [scRun, hnil2]
    | cons c xs' =>
      simp only [List.cons_append, scRun, List.map_append]
      have hA : (if cls c = true then scRun tk1 cl cls g (xs' ++ B) else []) =
          (if cls c = true then scRun tk2 cl cls g xs' else []).map (· ++ B) := by
        by_cases hc : cls c = true
        · rw [if_pos hc, if_pos hc, ih xs']
        · rw [if_neg hc, if_neg hc]
          rfl
      have hBc : (tk1 (c :: (xs' ++ B))).flatMap (scRun tk1 cl cls g) =
          ((tk2 (c :: xs')).flatMap (scRun tk2 cl cls g)).map (· ++ B) := by
        rw [show (c :: (xs' ++ B)) = ((c :: xs') ++ B) from rfl, hpair (c :: xs'),
          List.flatMap_map, List.map_flatMap]
        exact flatMap_congr_mem _ _ _ (fun r _ => ih r)
      have hC : (if c = cl then [xs' ++ B] else []) =
          List.map (fun x => x ++ B) (if c = cl then [xs'] else []) := by
        by_cases hc : c = cl <;> simp [hc]
      rw [hA, hBc, hC]

/-- Appending bracket-free text to the input of the token matcher only
appends it to every rest a token match can leave. -/
theorem tokPs_append (B : List Char) (hB : noBrackets B = true) :
    ∀ (f : Nat) (xs : List Char),
      tokPs f (xs ++ B) = (tokPs f xs).map (· ++ B) := by
  intro f
  induction f with
  | zero => intro xs; rfl
  | succ f ih =>
    intro xs
    cases xs with
    | nil =>
      rw [List.nil_append, tokPs_bfree (f + 1) B hB, tokPs_nil]
      rfl
    | cons c xs' =>
      simp only [List.cons_append, tokPs, List.map_append]
      have hlen2 : ∀ u r, r ∈ tokPs f u → r.length + 2 ≤ u.length := tokPs_len f
      have hA : (if c = lbr then
            scRun (tokPs f) rbr (fun x => ¬ (x = lbr ∨ x = rbr))
              ((xs' ++ B).length + 1) (xs' ++ B)
          else []) =
          (if c = lbr then
            scRun (tokPs f) rbr (fun x => ¬ (x = lbr ∨ x = rbr)) (xs'.length + 1) xs'
          else []).map (· ++ B) := by
        by_cases hc : c = lbr
        · rw [if_pos hc, if_pos hc,
            scRun_append (tokPs f) (tokPs f) rbr _ B hB (Or.inl rfl) ih
              (fun u hu => tokPs_bfree f u hu) (tokPs_nil f) ((xs' ++ B).length + 1) xs',
            scRun_stable (tokPs f) rbr _ hlen2 ((xs' ++ B).length + 1) (xs'.length + 1) xs'
              (by simp [List.length_append]; omega) (by omega)]
        · rw [if_neg hc, if_neg hc]
          rfl
      have hBc : (if c = lbk then
            scRun (tokPs f) rbk (fun x => ¬ (x = lbk ∨ x = rbk))
              ((xs' ++ B).length + 1) (xs' ++ B)
          else []) =
          (if c = lbk then
            scRun (tokPs f) rbk (fun x => ¬ (x = lbk ∨ x = rbk)) (xs'.length + 1) xs'
          else []).map (· ++ B) := by
        by_cases hc : c = lbk
        · rw [if_pos hc, if_pos hc,
            scRun_append (tokPs f) (tokPs f) rbk _ B hB (Or.inr rfl) ih
              (fun u hu => tokPs_bfree f u hu) (tokPs_nil f) ((xs' ++ B).length + 1) xs',
            scRun_stable (tokPs f) rbk _ hlen2 ((xs' ++ B).length + 1) (xs'.length + 1) xs'
              (by simp [List.length_append]; omega) (by omega)]
        · rw [if_neg hc, if_neg hc]
          rfl
      rw [hA, hBc]

/-- The findall scan over bracket-free text yields no matches. -/
theorem findallGo_bfree :
    ∀ (f : Nat) (t : List Char), noBrackets t = true → findallGo f t = [] := by
  intro f
  induction f with
  | zero => intro t _; rfl
  | succ f ih =>
    intro t ht
    cases t with
    | nil => rfl
    | cons c r =>
      obtain ⟨_, hr⟩ := noBrackets_cons.1 ht
      simp only [findallGo]
      rw [tokPs_bfree _ _ ht]
      exact ih r hr

/-- A bracket-free prefix contributes nothing to the findall scan and
costs exactly its length in fuel. -/
theorem findallGo_prefix :
    ∀ (A : List Char), noBrackets A = true → ∀ (f : Nat) (rest : List Char),
      findallGo (f + A.length) (A ++ rest) = findallGo f rest := by
  intro A
  induction A with
  | nil => intro _ f rest; rfl
  | cons a A' ih =>
    intro hA f rest
    obtain ⟨ha, hA'⟩ := noBrackets_cons.1 hA
    show findallGo (f + A'.length + 1) (a :: (A' ++ rest)) = findallGo f rest
    simp only [findallGo]
    rw [tokPs_not_open _ _ (fun c hc => by
      simp only [List.head?] at hc
      cases hc
      tauto)]
    exact ih hA' f rest

/-- The findall scan ignores a bracket-free suffix: the matches (as
substrings) are the same as on the payload alone, for any sufficient
fuels. -/
theorem findallGo_append (B : List Char) (hB : noBrackets B = true) :
    ∀ (f fB : Nat) (P : List Char), P.length < f → P.length < fB →
      findallGo f (P ++ B) = findallGo fB P := by
  intro f
  induction f with
  | zero => intro fB P h _; exact absurd h (Nat.not_lt_zero _)
  | succ f ih =>
    intro fB P hf hfB
    cases fB with
    | zero => exact absurd hfB (Nat.not_lt_zero _)
    | succ f₂ =>
      cases P with
      | nil =>
        rw [List.nil_append, findallGo_bfree _ B hB]
        rfl
      | cons c P' =>
        simp only [List.length_cons] at hf hfB
        simp only [List.cons_append, findallGo]
        have htok : tokPs ((c :: (P' ++ B)).length + 1) (c :: (P' ++ B)) =
            (tokPs ((c :: P').length + 1) (c :: P')).map (· ++ B) := by
          rw [show (c :: (P' ++ B)) = ((c :: P') ++ B) from rfl, tokPs_append B hB,
            tokPs_stable (((c :: P') ++ B).length + 1) ((c :: P').length + 1) (c :: P')
              (by simp [List.length_append]; omega) (by omega)]
        rw [htok]
        rcases hcase : tokPs ((c :: P').length + 1) (c :: P') with _ | ⟨r0, rs⟩
        · simp only [List.map_nil, List.head?]
          exact ih f₂ P' (by omega) (by omega)
        · have hr0 : r0.length + 2 ≤ (c :: P').length :=
            tokPs_len _ _ r0 (by rw [hcase]; exact List.mem_cons_self r0 rs)
          simp only [List.length_cons] at hr0
          simp only [List.map_cons, List.head?]
          have htake : (c :: (P' ++ B)).take ((c :: (P' ++ B)).length - (r0 ++ B).length) =
              (c :: P').take ((c :: P').length - r0.length) := by
            have hlen : (c :: (P' ++ B)).length - (r0 ++ B).length =
                (c :: P').length - r0.length := by
              simp [List.length_append]
              omega
            rw [hlen, show (c :: (P' ++ B)) = ((c :: P') ++ B) from rfl,
              List.take_append_of_le_length (Nat.sub_le _ _)]
          rw [htake]
          congr 1
          exact ih f₂ r0 (by omega) (by omega)

/-- `BRACE_BRACKET.findall` on prose + payload + prose equals `findall` on
the payload, whenever the prose carries no bracket characters. -/
theorem bbFindall_embed (A P B : String)
    (hA : noBrackets A.data = true) (hB : noBrackets B.data = true) :
    bbFindall (A ++ P ++ B) = bbFindall P := by
  unfold bbFindall
  have hdata : (A ++ P ++ B).data = A.data ++ (P.data ++ B.data) := by
    simp [String.data_append]
  rw [hdata]
  have hfuel : (A.data ++ (P.data ++ B.data)).length + 1 =
      (P.data.length + B.data.length + 1) + A.data.length := by
    simp [List.length_append]
    omega
  rw [hfuel, findallGo_prefix A.data hA (P.data.length + B.data.length + 1) (P.data ++ B.data),
    findallGo_append B.data hB (P.data.length + B.data.length + 1) (P.data.length + 1) P.data
      (by omega) (by omega)]

/-- Claim C9, amended: prose tolerance holds for every payload on which
the extractor finds at least one bracketed candidate.  (As stated the
claim fails for payloads with no brackets — see the counterexample — since
those are handled by the whole-text fallback, which keeps the prose.)
For any such payload `P` and any prefix `A` and suffix `B` free of brace
and square-bracket characters, `parse(A + P + B)` and `parse(P)` are the
same computation: the extractor returns identical candidate lists, and
everything downstream depends only on the candidates. -/
theorem C9_prose_tolerance_amended (sch : Schema) (A P B : String)
    (hA : noBrackets A.data = true) (hB : noBrackets B.data = true)
    (hP : bbFindall P ≠ []) :
    parse sch (A ++ P ++ B) = parse sch P := by
  unfold parse extract_json_candidates
  rw [bbFindall_embed A P B hA hB]
  have hne : (bbFindall P).isEmpty = false := by
    rcases h : bbFindall P with _ | _
    · exact absurd h hP
    · rfl
  simp only [hne, Bool.false_eq_true, if_false]

/-- Witness for C9 at seed scenario 3's shape: prose around scenario 1's
object, with the test schema. -/
theorem C9_witness :
    noBrackets ("Here is the data: " : String).data = true ∧
    noBrackets (" Thanks!" : String).data = true ∧
    bbFindall scen1 ≠ [] ∧
    parse schTest ("Here is the data: " ++ scen1 ++ " Thanks!") = parse schTest scen1 :=
  ⟨by decide, by decide, by decide,
    C9_prose_tolerance_amended schTest "Here is the data: " scen1 " Thanks!"
      (by decide) (by decide) (by decide)⟩

/-- Counterexample to claim C9 as stated: `"5"` is a valid JSON payload
(`json.loads` accepts it), `"x "` is a prose prefix with no brackets, yet
`parse` on the payload alone succeeds via the whole-text fallback while
`parse` on the prefixed text raises no-match — prose tolerance fails for
payloads in which the extractor finds no bracketed candidate. -/
theorem C9_cx_bare_scalar_payload :
    jsonLoads "5" = .ok (.int 5) ∧
    parse numSch "5" = .ok (.int 5) ∧
    parse numSch ("x " ++ "5" ++ "") = .error noMatchErr :=
  ⟨rfl, rfl, rfl⟩

theorem renderDoc_eq (doc : CanonDoc) :
    renderDoc doc = lbr :: innerD doc ++ [rbr] := by
  simp [renderDoc, innerD]

theorem braceFree_iff (l : List Char) :
    braceFree l = true ↔ ∀ c ∈ l, c ≠ lbr ∧ c ≠ rbr := by
  simp [braceFree, not_or]

theorem braceFree_append (a b : List Char) :
    braceFree (a ++ b) = (braceFree a && braceFree b) := by
  simp [braceFree]

theorem braceFree_cons_iff (c : Char) (t : List Char) :
    braceFree (c :: t) = true ↔ (c ≠ lbr ∧ c ≠ rbr) ∧ braceFree t = true := by
  simp [braceFree, not_or]

theorem safeChar_not_brace {c : Char} (h : safeChar c = true) :
    c ≠ lbr ∧ c ≠ rbr := by
  simp only [safeChar, Bool.and_eq_true, decide_eq_true_eq, not_or] at h
  tauto

theorem safeStr_braceFree {e : List Char} (h : safeStr e = true) :
    braceFree e = true := by
  rw [braceFree_iff]
  intro c hc
  have hcs : safeChar c = true := by
    simp only [safeStr, List.all_eq_true] at h
    exact h c hc
  exact safeChar_not_brace hcs

theorem braceFree_renderEmails (es : List (List Char))
    (hs : es.all (fun e => safeStr e ∧ ¬ e.isEmpty) = true) :
    braceFree (renderEmails es) = true := by
  induction es with
  | nil => decide
  | cons e tail ih =>
    have hsplit := hs
    simp only [List.all_cons, Bool.and_eq_true, decide_eq_true_eq] at hsplit
    cases tail with
    | nil =>
      show braceFree (dq :: e ++ [dq]) = true
      rw [braceFree_append, Bool.and_eq_true]
      constructor
      · rw [braceFree_cons_iff]
        exact ⟨by decide, safeStr_braceFree hsplit.1.1⟩
      · decide
    | cons e2 t2 =>
      show braceFree (dq :: e ++ [dq, ',', ' '] ++ renderEmails (e2 :: t2)) = true
      rw [braceFree_append, braceFree_append, Bool.and_eq_true, Bool.and_eq_true]
      refine ⟨⟨?_, by decide⟩, ih hsplit.2⟩
      rw [braceFree_cons_iff]
      exact ⟨by decide, safeStr_braceFree hsplit.1.1⟩

theorem natDigits_braceFree (n : Nat) : braceFree (natDigits n) = true := by
  rw [braceFree_iff]
  intro c hc
  have h := natDigits_all_digit n
  simp only [List.all_eq_true] at h
  have hd := h c hc
  constructor
  · rintro rfl; exact absurd hd (by decide)
  · rintro rfl; exact absurd hd (by decide)

theorem braceFree_innerD (doc : CanonDoc) (h : wfDoc doc = true) :
    braceFree (innerD doc) = true := by
  have hw := h
  simp only [wfDoc, decide_eq_true_eq] at hw
  simp only [innerD, braceFree_append, Bool.and_eq_true]
  repeat' apply And.intro
  all_goals first
    | decide
    | exact safeStr_braceFree hw.1
    | exact natDigits_braceFree doc.age
    | exact braceFree_renderEmails doc.emails hw.2

/-- On a brace-free interior followed by the closing brace, the greedy
character-class path of the brace token reaches the closer directly: the
engine's first parse consumes everything (leaves the empty rest). -/
theorem scRun_canon (f : Nat) :
    ∀ (s : List Char) (g : Nat), braceFree s = true → s.length + 1 ≤ g →
      ∃ tl, scRun (tokPs f) rbr (fun x => ¬ (x = lbr ∨ x = rbr)) g (s ++ [rbr]) =
        [] :: tl := by
  intro s
  induction s with
  | nil =>
    intro g _ hg
    cases g with
    | zero => omega
    | succ gB =>
      have h : scRun (tokPs f) rbr (fun x => ¬ (x = lbr ∨ x = rbr)) (gB + 1)
          ([] ++ [rbr]) = [] :: [] := by
        simp only [List.nil_append, scRun]
        rw [tokPs_not_open f [rbr] (fun c hc => by
          simp only [List.head?, Option.some.injEq] at hc
          subst hc
          decide)]
        rfl
      exact ⟨[], h⟩
  | cons c sB ih =>
    intro g hbf hg
    have hparts : (c ≠ lbr ∧ c ≠ rbr) ∧ braceFree sB = true :=
      (braceFree_cons_iff c sB).1 hbf
    cases g with
    | zero => simp only [List.length_cons] at hg; omega
    | succ gB =>
      obtain ⟨tl, htl⟩ := ih gB hparts.2 (by
        simp only [List.length_cons] at hg
        omega)
      have hcls : (decide ¬ (c = lbr ∨ c = rbr)) = true := by
        simp [hparts.1.1, hparts.1.2]
      have h : scRun (tokPs f) rbr (fun x => ¬ (x = lbr ∨ x = rbr)) (gB + 1)
          ((c :: sB) ++ [rbr]) =
            [] :: (tl ++ (tokPs f (c :: (sB ++ [rbr]))).flatMap
              (scRun (tokPs f) rbr (fun x => ¬ (x = lbr ∨ x = rbr)) gB) ++
              (if c = rbr then [sB ++ [rbr]] else [])) := by
        simp only [List.cons_append, scRun]
        rw [if_pos hcls, htl]
        rfl
      exact ⟨_, h⟩

/-- The token matcher's first parse of `{interior}` with a brace-free
interior is the whole text (empty rest). -/
theorem tokPs_canon (F : Nat) (inner : List Char) (hbf : braceFree inner = true) :
    ∃ tl, tokPs (F + 1) (lbr :: inner ++ [rbr]) = [] :: tl := by
  obtain ⟨tl, htl⟩ := scRun_canon F inner ((inner ++ [rbr]).length + 1) hbf (by
    simp only [List.length_append, List.length_cons, List.length_nil]
    omega)
  have h : tokPs (F + 1) (lbr :: inner ++ [rbr]) = [] :: (tl ++ []) := by
    simp only [List.cons_append, tokPs]
    rw [htl]
    rfl
  exact ⟨_, h⟩

theorem findallGo_nil (f : Nat) : findallGo f [] = [] := by
  cases f <;> rfl

/-- When the token matcher's first parse at the start of the input consumes
everything, the scan returns exactly the whole input. -/
theorem findallGo_head_full (f : Nat) (s : List Char) (hne : s ≠ [])
    (h : (tokPs (s.length + 1) s).head? = some []) :
    findallGo (f + 1) s = [s] := by
  cases s with
  | nil => exact absurd rfl hne
  | cons c r =>
    simp only [findallGo]
    rw [h]
    show (c :: r).take ((c :: r).length - ([] : List Char).length) ::
      findallGo f [] = [c :: r]
    rw [findallGo_nil]
    simp

/-- `findall` on a canonical `{...}` text with brace-free interior returns
exactly that text. -/
theorem bbFindall_canon (inner : List Char) (hbf : braceFree inner = true) :
    bbFindall ⟨lbr :: inner ++ [rbr]⟩ = [⟨lbr :: inner ++ [rbr]⟩] := by
  obtain ⟨tl, htl⟩ := tokPs_canon (lbr :: inner ++ [rbr]).length inner hbf
  have hh : (tokPs ((lbr :: inner ++ [rbr]).length + 1)
      (lbr :: inner ++ [rbr])).head? = some ([] : List Char) := by
    rw [htl]; rfl
  show (findallGo ((lbr :: inner ++ [rbr]).length + 1)
      (lbr :: inner ++ [rbr])).map (fun l => (⟨l⟩ : String)) =
    [⟨lbr :: inner ++ [rbr]⟩]
  rw [findallGo_head_full (lbr :: inner ++ [rbr]).length (lbr :: inner ++ [rbr])
    (by simp) hh]
  rfl

/-! ### Suffix-shape toolkit for the canonical rendering -/

theorem shape_bor {c : Char} {X : List Char} (h : borChar c = true) :
    SufShape (c :: X) := Or.inl ⟨c, X, rfl, h⟩

theorem shape_open {X : List Char} : SufShape (lbr :: dq :: X) :=
  Or.inr (Or.inl ⟨X, rfl⟩)

theorem shape_comma {X : List Char} : SufShape (',' :: ' ' :: dq :: X) :=
  Or.inr (Or.inr (Or.inl ⟨X, rfl⟩))

theorem shape_colon_dq {X : List Char} : SufShape (':' :: ' ' :: dq :: X) :=
  Or.inr (Or.inr (Or.inr (Or.inl ⟨X, rfl⟩)))

theorem shape_colon_bk {X : List Char} : SufShape (':' :: ' ' :: lbk :: X) :=
  Or.inr (Or.inr (Or.inr (Or.inr (Or.inl ⟨X, rfl⟩))))

theorem shape_colon_num {D X : List Char} (h1 : D ≠ [])
    (h2 : D.all isAsciiDigit = true) :
    SufShape (':' :: ' ' :: (D ++ ',' :: X)) :=
  Or.inr (Or.inr (Or.inr (Or.inr (Or.inr (Or.inl ⟨D, X, h1, h2, rfl⟩)))))

theorem shape_keyclose_str {m X : List Char} (h : safeStr m = true) :
    SufShape (dq :: ':' :: ' ' :: dq :: (m ++ dq :: ',' :: X)) :=
  Or.inr (Or.inr (Or.inr (Or.inr (Or.inr (Or.inr (Or.inl ⟨m, X, h, rfl⟩))))))

theorem shape_keyclose_num {D X : List Char} (h1 : D ≠ [])
    (h2 : D.all isAsciiDigit = true) :
    SufShape (dq :: ':' :: ' ' :: (D ++ ',' :: X)) :=
  Or.inr (Or.inr (Or.inr (Or.inr (Or.inr (Or.inr (Or.inr (Or.inl
    ⟨D, X, h1, h2, rfl⟩)))))))

theorem shape_keyclose_bk {X : List Char} :
    SufShape (dq :: ':' :: ' ' :: lbk :: X) :=
  Or.inr (Or.inr (Or.inr (Or.inr (Or.inr (Or.inr (Or.inr (Or.inr (Or.inl
    ⟨X, rfl⟩))))))))

theorem shape_dq_other {v : Char} {X : List Char} (h : v ≠ ':') :
    SufShape (dq :: v :: X) :=
  Or.inr (Or.inr (Or.inr (Or.inr (Or.inr (Or.inr (Or.inr (Or.inr (Or.inr
    (Or.inl ⟨v, X, h, rfl⟩)))))))))

theorem shape_end2 : SufShape [rbk, rbr] :=
  Or.inr (Or.inr (Or.inr (Or.inr (Or.inr (Or.inr (Or.inr (Or.inr (Or.inr
    (Or.inr (Or.inl rfl))))))))))

theorem shape_end1 : SufShape [rbr] :=
  Or.inr (Or.inr (Or.inr (Or.inr (Or.inr (Or.inr (Or.inr (Or.inr (Or.inr
    (Or.inr (Or.inr rfl))))))))))

/-- A safe character triggers no scanner. -/
theorem safeChar_bor {c : Char} (h : safeChar c = true) : borChar c = true := by
  simp only [safeChar, decide_eq_true_eq, Bool.and_eq_true, not_or] at h
  simp only [borChar, decide_eq_true_eq, not_or]
  tauto

/-- A digit character triggers no scanner. -/
theorem digit_bor {c : Char} (h : isAsciiDigit c = true) : borChar c = true := by
  simp only [borChar, decide_eq_true_eq, not_or]
  refine ⟨?_, ?_, ?_, ?_, ?_, ?_⟩ <;> rintro rfl <;> exact absurd h (by decide)

theorem digit_not_pyspace {c : Char} (h : isAsciiDigit c = true) :
    isPySpace c = false := by
  simp only [isPySpace, decide_eq_false_iff_not, not_or]
  refine ⟨?_, ?_, ?_, ?_, ?_, ?_⟩ <;> rintro rfl <;> exact absurd h (by decide)

theorem digit_not_jsonws {c : Char} (h : isAsciiDigit c = true) :
    isJsonWs c = false := by
  simp only [isJsonWs, decide_eq_false_iff_not, not_or]
  refine ⟨?_, ?_, ?_, ?_⟩ <;> rintro rfl <;> exact absurd h (by decide)

theorem digit_svRest {c : Char} (h : isAsciiDigit c = true) :
    svRestChar c = true := by
  simp only [svRestChar, decide_eq_true_eq, not_or]
  refine ⟨?_, ?_, ?_⟩ <;> rintro rfl <;> exact absurd h (by decide)

/-- Suffixes of an append: either a suffix of the right part, or a
non-empty suffix of the left part glued to the whole right part. -/
theorem suffix_append_cases {u b : List Char} :
    ∀ {a : List Char}, u <:+ a ++ b →
      u <:+ b ∨ ∃ m, m <:+ a ∧ m ≠ [] ∧ u = m ++ b := by
  intro a
  induction a with
  | nil => intro h; exact Or.inl (by simpa using h)
  | cons c t ih =>
    intro h
    rcases List.suffix_cons_iff.mp (by simpa using h) with rfl | h2
    · exact Or.inr ⟨c :: t, List.suffix_refl _, by simp, by simp⟩
    · rcases ih h2 with h3 | ⟨m, hm, hne, rfl⟩
      · exact Or.inl h3
      · exact Or.inr ⟨m, hm.trans (List.suffix_cons c t), hne, rfl⟩

theorem takeWhile_append_all {p : Char → Bool} :
    ∀ (a b : List Char), (∀ c ∈ a, p c = true) →
      (a ++ b).takeWhile p = a ++ b.takeWhile p := by
  intro a
  induction a with
  | nil => intro b _; rfl
  | cons c t ih =>
    intro b h
    rw [List.cons_append, List.takeWhile_cons_of_pos (h c (by simp)),
      ih b (fun x hx => h x (by simp [hx])), List.cons_append]

/-- A suffix of a safe string is safe. -/
theorem safeStr_suffix {m e : List Char} (hsuf : m <:+ e)
    (hsafe : safeStr e = true) : safeStr m = true := by
  simp only [safeStr, List.all_eq_true] at *
  intro c hc
  exact hsafe c (hsuf.subset hc)

/-- `strip()` does nothing to a string with no whitespace. -/
theorem pyStrip_nospace {D : List Char} (h : ∀ c ∈ D, isPySpace c = false) :
    pyStrip D = D := by
  have h1 : D.dropWhile isPySpace = D := by
    cases D with
    | nil => rfl
    | cons c t => exact List.dropWhile_cons_of_neg (by simp [h c (by simp)])
  have h2 : D.reverse.dropWhile isPySpace = D.reverse := by
    rcases hD : D.reverse with _ | ⟨c, t⟩
    · rfl
    · have hc : c ∈ D := by
        have : c ∈ D.reverse := by rw [hD]; exact List.mem_cons_self c t
        simpa using this
      exact List.dropWhile_cons_of_neg (by simp [h c hc])
  simp only [pyStrip, h1, h2, List.reverse_reverse]

theorem borChar_ne_colon {c : Char} (h : borChar c = true) : c ≠ ':' := by
  simp only [borChar, decide_eq_true_eq, not_or] at h
  tauto

theorem safeStr_head {c : Char} {t : List Char} (h : safeStr (c :: t) = true) :
    safeChar c = true := by
  simp only [safeStr, List.all_cons, Bool.and_eq_true] at h
  exact h.1

/-- The rendering of a non-empty email list starts with a quote. -/
theorem renderEmails_cons_shape (e : List Char) (t : List (List Char)) :
    ∃ Y, renderEmails (e :: t) = dq :: Y := by
  cases t with
  | nil => exact ⟨e ++ [dq], rfl⟩
  | cons e2 t2 => exact ⟨(e ++ [dq, ',', ' ']) ++ renderEmails (e2 :: t2), rfl⟩

/-- Every non-empty suffix of the rendered email-array interior, glued to
the closing `]` and beyond, has one of the scanner-window shapes. -/
theorem renderEmails_suffix_shape :
    ∀ (es : List (List Char)),
      es.all (fun e => safeStr e ∧ ¬ e.isEmpty) = true →
      ∀ (Z : List Char) (m : List Char), m <:+ renderEmails es → m ≠ [] →
        SufShape (m ++ rbk :: Z) := by
  intro es
  induction es with
  | nil =>
    intro _ Z m hm hne
    exact absurd (List.suffix_nil.mp hm) hne
  | cons e t ih =>
    intro hall Z m hm hne
    have hsp := hall
    simp only [List.all_cons, Bool.and_eq_true, decide_eq_true_eq] at hsp
    obtain ⟨⟨hse, hee⟩, ht⟩ := hsp
    have hene : e ≠ [] := by simpa [List.isEmpty_iff] using hee
    cases t with
    | nil =>
      have hm' : m <:+ dq :: (e ++ [dq]) := by
        simpa [renderEmails] using hm
      rcases List.suffix_cons_iff.mp hm' with rfl | hm2
      · obtain ⟨e0, e', rfl⟩ := List.exists_cons_of_ne_nil hene
        exact shape_dq_other (borChar_ne_colon (safeChar_bor (safeStr_head hse)))
      · rcases suffix_append_cases hm2 with h3 | ⟨m', hm'e, hne', rfl⟩
        · have hmd : m = [dq] := by
            rcases List.suffix_cons_iff.mp h3 with rfl | h4
            · rfl
            · exact absurd (List.suffix_nil.mp h4) hne
          subst hmd
          exact shape_dq_other (by decide)
        · obtain ⟨c0, m'', rfl⟩ := List.exists_cons_of_ne_nil hne'
          exact shape_bor (safeChar_bor (safeStr_head (safeStr_suffix hm'e hse)))
    | cons e2 t2 =>
      have hm' : m <:+ dq :: (e ++ ([dq, ',', ' '] ++ renderEmails (e2 :: t2))) := by
        have hr : renderEmails (e :: e2 :: t2) =
            dq :: (e ++ ([dq, ',', ' '] ++ renderEmails (e2 :: t2))) := by
          show dq :: e ++ [dq, ',', ' '] ++ renderEmails (e2 :: t2) = _
          simp [List.append_assoc]
        rwa [hr] at hm
      rcases List.suffix_cons_iff.mp hm' with rfl | hm2
      · obtain ⟨e0, e', rfl⟩ := List.exists_cons_of_ne_nil hene
        exact shape_dq_other (borChar_ne_colon (safeChar_bor (safeStr_head hse)))
      · rcases suffix_append_cases hm2 with h3 | ⟨m', hm'e, hne', rfl⟩
        · rcases suffix_append_cases h3 with h4 | ⟨w, hw, hwne, rfl⟩
          · exact ih ht Z m h4 hne
          · obtain ⟨Y, hY⟩ := renderEmails_cons_shape e2 t2
            rcases List.suffix_cons_iff.mp hw with rfl | hw2
            · exact shape_dq_other (by decide)
            · rcases List.suffix_cons_iff.mp hw2 with rfl | hw3
              · rw [hY]
                exact shape_comma
              · rcases List.suffix_cons_iff.mp hw3 with rfl | hw4
                · exact shape_bor (by decide)
                · exact absurd (List.suffix_nil.mp hw4) hwne
        · obtain ⟨c0, m'', rfl⟩ := List.exists_cons_of_ne_nil hne'
          exact shape_bor (safeChar_bor (safeStr_head (safeStr_suffix hm'e hse)))

/-- The canonical rendering, right-nested for suffix analysis. -/
theorem renderDoc_chunks (doc : CanonDoc) :
    renderDoc doc =
      [lbr, dq, 'n', 'a', 'm', 'e', dq, ':', ' ', dq] ++
        (doc.name ++ ([dq, ',', ' ', dq, 'a', 'g', 'e', dq, ':', ' '] ++
          (natDigits doc.age ++
            ([',', ' ', dq, 'e', 'm', 'a', 'i', 'l', 's', dq, ':', ' ', lbk] ++
              (renderEmails doc.emails ++ [rbk, rbr]))))) := by
  rw [renderDoc, show ("name".data : List Char) = ['n', 'a', 'm', 'e'] from rfl,
    show ("age".data : List Char) = ['a', 'g', 'e'] from rfl,
    show ("emails".data : List Char) = ['e', 'm', 'a', 'i', 'l', 's'] from rfl]
  simp [List.append_assoc]

/-- Every suffix of the canonical rendering of a well-formed document is
empty or has one of the scanner-window shapes. -/
theorem renderDoc_suffix_shape (doc : CanonDoc) (hwf : wfDoc doc = true) :
    ∀ u, u <:+ renderDoc doc → u = [] ∨ SufShape u := by
  obtain ⟨nm, age, em⟩ := doc
  have hw := hwf
  simp only [wfDoc, decide_eq_true_eq] at hw
  obtain ⟨hnm, hem⟩ := hw
  intro u hu
  rw [renderDoc_chunks] at hu
  dsimp only at hu hnm hem
  have hD1 : natDigits age ≠ [] := natDigits_ne_nil age
  have hD2 : (natDigits age).all isAsciiDigit = true := natDigits_all_digit age
  rcases suffix_append_cases hu with hu1 | ⟨m, hm, hmne, rfl⟩
  · -- inside name and beyond
    rcases suffix_append_cases hu1 with hu2 | ⟨m, hm, hmne, rfl⟩
    · -- inside the age chunk and beyond
      rcases suffix_append_cases hu2 with hu3 | ⟨m, hm, hmne, rfl⟩
      · -- inside the digits and beyond
        rcases suffix_append_cases hu3 with hu4 | ⟨m, hm, hmne, rfl⟩
        · -- inside the emails chunk and beyond
          rcases suffix_append_cases hu4 with hu5 | ⟨m, hm, hmne, rfl⟩
          · -- inside the rendered emails and the closing brackets
            rcases suffix_append_cases hu5 with hu6 | ⟨m, hm, hmne, rfl⟩
            · -- inside [rbk, rbr]
              rcases List.suffix_cons_iff.mp hu6 with rfl | h7
              · exact Or.inr shape_end2
              · rcases List.suffix_cons_iff.mp h7 with rfl | h8
                · exact Or.inr shape_end1
                · exact Or.inl (List.suffix_nil.mp h8)
            · exact Or.inr (renderEmails_suffix_shape em hem [rbr] m hm hmne)
          · -- m non-empty suffix of the `, "emails": [` chunk
            rcases List.suffix_cons_iff.mp hm with rfl | hm
            · exact Or.inr shape_comma
            rcases List.suffix_cons_iff.mp hm with rfl | hm
            · exact Or.inr (shape_bor (by decide))
            rcases List.suffix_cons_iff.mp hm with rfl | hm
            · exact Or.inr (shape_dq_other (by decide))
            rcases List.suffix_cons_iff.mp hm with rfl | hm
            · exact Or.inr (shape_bor (by decide))
            rcases List.suffix_cons_iff.mp hm with rfl | hm
            · exact Or.inr (shape_bor (by decide))
            rcases List.suffix_cons_iff.mp hm with rfl | hm
            · exact Or.inr (shape_bor (by decide))
            rcases List.suffix_cons_iff.mp hm with rfl | hm
            · exact Or.inr (shape_bor (by decide))
            rcases List.suffix_cons_iff.mp hm with rfl | hm
            · exact Or.inr (shape_bor (by decide))
            rcases List.suffix_cons_iff.mp hm with rfl | hm
            · exact Or.inr (shape_bor (by decide))
            rcases List.suffix_cons_iff.mp hm with rfl | hm
            · exact Or.inr shape_keyclose_bk
            rcases List.suffix_cons_iff.mp hm with rfl | hm
            · exact Or.inr shape_colon_bk
            rcases List.suffix_cons_iff.mp hm with rfl | hm
            · exact Or.inr (shape_bor (by decide))
            rcases List.suffix_cons_iff.mp hm with rfl | hm
            · exact Or.inr (shape_bor (by decide))
            exact absurd (List.suffix_nil.mp hm) hmne
        · -- m non-empty suffix of the digits
          obtain ⟨c0, m', rfl⟩ := List.exists_cons_of_ne_nil hmne
          have hd : isAsciiDigit c0 = true := by
            have hmem : c0 ∈ natDigits age := hm.subset (by simp)
            exact List.all_eq_true.mp hD2 c0 hmem
          exact Or.inr (shape_bor (digit_bor hd))
      · -- m non-empty suffix of the `", "age": ` chunk
        rcases List.suffix_cons_iff.mp hm with rfl | hm
        · exact Or.inr (shape_dq_other (by decide))
        rcases List.suffix_cons_iff.mp hm with rfl | hm
        · exact Or.inr shape_comma
        rcases List.suffix_cons_iff.mp hm with rfl | hm
        · exact Or.inr (shape_bor (by decide))
        rcases List.suffix_cons_iff.mp hm with rfl | hm
        · exact Or.inr (shape_dq_other (by decide))
        rcases List.suffix_cons_iff.mp hm with rfl | hm
        · exact Or.inr (shape_bor (by decide))
        rcases List.suffix_cons_iff.mp hm with rfl | hm
        · exact Or.inr (shape_bor (by decide))
        rcases List.suffix_cons_iff.mp hm with rfl | hm
        · exact Or.inr (shape_bor (by decide))
        rcases List.suffix_cons_iff.mp hm with rfl | hm
        · exact Or.inr (shape_keyclose_num hD1 hD2)
        rcases List.suffix_cons_iff.mp hm with rfl | hm
        · exact Or.inr (shape_colon_num hD1 hD2)
        rcases List.suffix_cons_iff.mp hm with rfl | hm
        · exact Or.inr (shape_bor (by decide))
        exact absurd (List.suffix_nil.mp hm) hmne
    · -- m non-empty suffix of the name
      obtain ⟨c0, m', rfl⟩ := List.exists_cons_of_ne_nil hmne
      exact Or.inr (shape_bor (safeChar_bor (safeStr_head (safeStr_suffix hm hnm))))
  · -- m non-empty suffix of the `{"name": "` chunk
    rcases List.suffix_cons_iff.mp hm with rfl | hm
    · exact Or.inr shape_open
    rcases List.suffix_cons_iff.mp hm with rfl | hm
    · exact Or.inr (shape_dq_other (by decide))
    rcases List.suffix_cons_iff.mp hm with rfl | hm
    · exact Or.inr (shape_bor (by decide))
    rcases List.suffix_cons_iff.mp hm with rfl | hm
    · exact Or.inr (shape_bor (by decide))
    rcases List.suffix_cons_iff.mp hm with rfl | hm
    · exact Or.inr (shape_bor (by decide))
    rcases List.suffix_cons_iff.mp hm with rfl | hm
    · exact Or.inr (shape_bor (by decide))
    rcases List.suffix_cons_iff.mp hm with rfl | hm
    · exact Or.inr (shape_keyclose_str hnm)
    rcases List.suffix_cons_iff.mp hm with rfl | hm
    · exact Or.inr shape_colon_dq
    rcases List.suffix_cons_iff.mp hm with rfl | hm
    · exact Or.inr (shape_bor (by decide))
    rcases List.suffix_cons_iff.mp hm with rfl | hm
    · -- m = [dq]: the opening quote of the name value
      cases hnn : nm with
      | nil => exact Or.inr (shape_dq_other (by decide))
      | cons n0 nr =>
        rw [hnn] at hnm
        exact Or.inr (shape_dq_other (borChar_ne_colon (safeChar_bor (safeStr_head hnm))))
    exact absurd (List.suffix_nil.mp hm) hmne

/-! ### No repair pass changes the canonical rendering -/

theorem borChar_ne {c : Char} (h : borChar c = true) :
    c ≠ lbr ∧ c ≠ ',' ∧ c ≠ ':' ∧ c ≠ dq ∧ c ≠ rbr ∧ c ≠ rbk := by
  simp only [borChar, decide_eq_true_eq, not_or] at h
  exact h

theorem fixKeysGo_succ (f : Nat) (s : List Char) :
    fixKeysGo (f + 1) s =
      match fixKeysMatch s with
      | some (repl, rest) => repl ++ fixKeysGo f rest
      | Option.none => match s with | [] => [] | c :: r => c :: fixKeysGo f r := rfl

theorem fixKeysMatch_not_trigger {c : Char} {r : List Char}
    (h : ¬ (c = lbr ∨ c = ',')) : fixKeysMatch (c :: r) = Option.none := by
  simp only [fixKeysMatch]
  rw [if_neg h]

theorem fixKeysMatch_open (X : List Char) :
    fixKeysMatch (lbr :: dq :: X) = Option.none := rfl

theorem fixKeysMatch_comma (X : List Char) :
    fixKeysMatch (',' :: ' ' :: dq :: X) = Option.none := rfl

/-- `fix_keys`' scan is the identity on text all of whose suffixes have
scanner-window shapes. -/
theorem fixKeysGo_id (f : Nat) :
    ∀ s, (∀ u, u <:+ s → u = [] ∨ SufShape u) → fixKeysGo f s = s := by
  induction f with
  | zero => intro s _; rfl
  | succ f ih =>
    intro s hs
    have hnom : fixKeysMatch s = Option.none := by
      rcases hs s (List.suffix_refl s) with rfl | hsh
      · rfl
      · rcases hsh with ⟨c, X, rfl, hb⟩ | ⟨X, rfl⟩ | ⟨X, rfl⟩ | ⟨X, rfl⟩ | ⟨X, rfl⟩ |
          ⟨D, X, h1, h2, rfl⟩ | ⟨m, X, hm, rfl⟩ | ⟨D, X, h1, h2, rfl⟩ | ⟨X, rfl⟩ |
          ⟨v, X, hv, rfl⟩ | rfl | rfl
        · exact fixKeysMatch_not_trigger (by
            have := borChar_ne hb
            tauto)
        · exact fixKeysMatch_open X
        · exact fixKeysMatch_comma X
        · exact fixKeysMatch_not_trigger (by decide)
        · exact fixKeysMatch_not_trigger (by decide)
        · exact fixKeysMatch_not_trigger (by decide)
        · exact fixKeysMatch_not_trigger (by decide)
        · exact fixKeysMatch_not_trigger (by decide)
        · exact fixKeysMatch_not_trigger (by decide)
        · exact fixKeysMatch_not_trigger (by decide)
        · exact fixKeysMatch_not_trigger (by decide)
        · exact fixKeysMatch_not_trigger (by decide)
    rw [fixKeysGo_succ, hnom]
    cases s with
    | nil => rfl
    | cons c r =>
      show c :: fixKeysGo f r = c :: r
      rw [ih r (fun u hu => hs u (hu.trans (List.suffix_cons c r)))]

theorem commasGo1_nil (f : Nat) : commasGo1 f [] = [] := by cases f <;> rfl

theorem commasGo2_nil (f : Nat) : commasGo2 f [] = [] := by cases f <;> rfl

theorem commasGo3_nil (f : Nat) : commasGo3 f [] = [] := by cases f <;> rfl

theorem commasGo1_skip (f : Nat) (c : Char) (r : List Char) (h : c ≠ rbr) :
    commasGo1 (f + 1) (c :: r) = c :: commasGo1 f r := by
  rw [commasGo1]
  show (if c = rbr then _ else c :: commasGo1 f r) = _
  rw [if_neg h]

theorem commasGo2_skip (f : Nat) (c : Char) (r : List Char) (h : c ≠ rbk) :
    commasGo2 (f + 1) (c :: r) = c :: commasGo2 f r := by
  rw [commasGo2]
  show (if c = rbk then _ else c :: commasGo2 f r) = _
  rw [if_neg h]

/-- The first comma-insertion substitution is the identity on text all of
whose suffixes have scanner-window shapes: its pattern needs a brace pair,
and the only closing brace is the final character. -/
theorem commasGo1_id (f : Nat) :
    ∀ s, (∀ u, u <:+ s → u = [] ∨ SufShape u) → commasGo1 f s = s := by
  induction f with
  | zero => intro s _; rfl
  | succ f ih =>
    intro s hs
    have hstep : ∀ c r, c ≠ rbr → s = c :: r → commasGo1 (f + 1) s = s := by
      rintro c r hc rfl
      rw [commasGo1_skip f c r hc,
        ih r (fun u hu => hs u (hu.trans (List.suffix_cons c r)))]
    rcases hs s (List.suffix_refl s) with rfl | hsh
    · exact commasGo1_nil _
    · rcases hsh with ⟨c, X, rfl, hb⟩ | ⟨X, rfl⟩ | ⟨X, rfl⟩ | ⟨X, rfl⟩ | ⟨X, rfl⟩ |
        ⟨D, X, h1, h2, rfl⟩ | ⟨m, X, hm, rfl⟩ | ⟨D, X, h1, h2, rfl⟩ | ⟨X, rfl⟩ |
        ⟨v, X, hv, rfl⟩ | rfl | rfl
      · exact hstep c X (borChar_ne hb).2.2.2.2.1 rfl
      · exact hstep lbr (dq :: X) (by decide) rfl
      · exact hstep ',' (' ' :: dq :: X) (by decide) rfl
      · exact hstep ':' (' ' :: dq :: X) (by decide) rfl
      · exact hstep ':' (' ' :: lbk :: X) (by decide) rfl
      · exact hstep ':' (' ' :: (D ++ ',' :: X)) (by decide) rfl
      · exact hstep dq (':' :: ' ' :: dq :: (m ++ dq :: ',' :: X)) (by decide) rfl
      · exact hstep dq (':' :: ' ' :: (D ++ ',' :: X)) (by decide) rfl
      · exact hstep dq (':' :: ' ' :: lbk :: X) (by decide) rfl
      · exact hstep dq (v :: X) (by decide) rfl
      · exact hstep rbk [rbr] (by decide) rfl
      · rw [show commasGo1 (f + 1) [rbr] = rbr :: commasGo1 f [] from rfl,
          commasGo1_nil]

/-- The second comma-insertion substitution is the identity likewise: its
pattern needs a bracket pair, and the only closing bracket is followed by
the final brace. -/
theorem commasGo2_id (f : Nat) :
    ∀ s, (∀ u, u <:+ s → u = [] ∨ SufShape u) → commasGo2 f s = s := by
  induction f with
  | zero => intro s _; rfl
  | succ f ih =>
    intro s hs
    have hstep : ∀ c r, c ≠ rbk → s = c :: r → commasGo2 (f + 1) s = s := by
      rintro c r hc rfl
      rw [commasGo2_skip f c r hc,
        ih r (fun u hu => hs u (hu.trans (List.suffix_cons c r)))]
    rcases hs s (List.suffix_refl s) with rfl | hsh
    · exact commasGo2_nil _
    · rcases hsh with ⟨c, X, rfl, hb⟩ | ⟨X, rfl⟩ | ⟨X, rfl⟩ | ⟨X, rfl⟩ | ⟨X, rfl⟩ |
        ⟨D, X, h1, h2, rfl⟩ | ⟨m, X, hm, rfl⟩ | ⟨D, X, h1, h2, rfl⟩ | ⟨X, rfl⟩ |
        ⟨v, X, hv, rfl⟩ | rfl | rfl
      · exact hstep c X (borChar_ne hb).2.2.2.2.2 rfl
      · exact hstep lbr (dq :: X) (by decide) rfl
      · exact hstep ',' (' ' :: dq :: X) (by decide) rfl
      · exact hstep ':' (' ' :: dq :: X) (by decide) rfl
      · exact hstep ':' (' ' :: lbk :: X) (by decide) rfl
      · exact hstep ':' (' ' :: (D ++ ',' :: X)) (by decide) rfl
      · exact hstep dq (':' :: ' ' :: dq :: (m ++ dq :: ',' :: X)) (by decide) rfl
      · exact hstep dq (':' :: ' ' :: (D ++ ',' :: X)) (by decide) rfl
      · exact hstep dq (':' :: ' ' :: lbk :: X) (by decide) rfl
      · exact hstep dq (v :: X) (by decide) rfl
      · rw [show commasGo2 (f + 1) [rbk, rbr] = rbk :: commasGo2 f [rbr] from rfl,
          ih [rbr] (fun u hu => hs u (hu.trans ⟨[rbk], rfl⟩))]
      · exact hstep rbr [] (by decide) rfl

theorem digit_ic3 {c : Char} (h : isAsciiDigit c = true) : ic3Class c = true := by
  simp only [ic3Class, decide_eq_true_eq, not_or]
  refine ⟨?_, ?_, ?_, ?_, ?_, ?_⟩ <;> rintro rfl <;> exact absurd h (by decide)

theorem takeWhile_drop_eq_dropWhile (p : Char → Bool) (l : List Char) :
    l.drop (l.takeWhile p).length = l.dropWhile p := by
  have h := congrArg (fun t => List.drop (l.takeWhile p).length t)
    (List.takeWhile_append_dropWhile p l)
  simp only at h
  rw [← h, List.drop_left]

theorem dropWhile_append_split (p : Char → Bool) :
    ∀ (a b : List Char), (a ++ b).dropWhile p =
      if a.all p = true then b.dropWhile p else a.dropWhile p ++ b := by
  intro a
  induction a with
  | nil => intro b; simp
  | cons c t ih =>
    intro b
    by_cases hc : p c = true
    · rw [List.cons_append, List.dropWhile_cons_of_pos hc, ih b,
        show ((c :: t).all p) = (t.all p) from by simp [List.all_cons, hc],
        List.dropWhile_cons_of_pos hc]
    · have hc' : p c = false := by simpa using hc
      rw [List.cons_append, List.dropWhile_cons_of_neg hc,
        show ((c :: t).all p) = false from by simp [List.all_cons, hc'],
        if_neg (by simp), List.dropWhile_cons_of_neg hc]
      simp

theorem all_of_dropWhile_nil (p : Char → Bool) (m : List Char)
    (h : m.dropWhile p = []) : m.all p = true := by
  have ht : m.takeWhile p = m := by
    have h2 := List.takeWhile_append_dropWhile p m
    rw [h, List.append_nil] at h2
    exact h2
  rw [← ht]
  exact List.all_eq_true.2 (fun x hx => List.mem_takeWhile_imp hx)

/-- The third comma-insertion scanner skips a quote not followed by a
colon. -/
theorem c3_skip_not_dq (f : Nat) (c : Char) (r : List Char) (h : c ≠ dq) :
    commasGo3 (f + 1) (c :: r) = c :: commasGo3 f r := by
  simp only [commasGo3]
  rw [if_neg h]

theorem c3_skip_dq_not_colon (f : Nat) (v : Char) (X : List Char) (h : v ≠ ':') :
    commasGo3 (f + 1) (dq :: v :: X) = dq :: commasGo3 f (v :: X) := by
  simp only [commasGo3, if_true]
  split
  · rename_i r1 heq
    rw [List.cons.injEq] at heq
    exact absurd heq.1 h
  · rfl

/-- At the `": "` closing a key whose value is a (safe) string, the third
comma-insertion pattern cannot complete: after the candidate run `[' ']`
and the value's opening quote, either the identifier run stops inside the
value (the following character is safe, hence not the required quote-colon),
or it swallows the whole value and meets `",` where `":` is required. -/
theorem c3_keyclose_str (f : Nat) (m X : List Char) (hm : safeStr m = true) :
    commasGo3 (f + 1) (dq :: ':' :: ' ' :: dq :: (m ++ dq :: ',' :: X)) =
      dq :: commasGo3 f (':' :: ' ' :: dq :: (m ++ dq :: ',' :: X)) := by
  have e1 : (' ' :: dq :: (m ++ dq :: ',' :: X)).takeWhile ic3Class = [' '] := by
    rw [List.takeWhile_cons_of_pos (by decide), List.takeWhile_cons_of_neg (by decide)]
  simp only [commasGo3, if_true, e1, List.length_cons, List.length_nil,
    List.drop_succ_cons, List.drop_zero]
  rw [if_pos (by simp)]
  rw [takeWhile_drop_eq_dropWhile]
  by_cases hall : (m.all isIdentChar) = true
  · have e3 : (m ++ dq :: ',' :: X).dropWhile isIdentChar = dq :: ',' :: X := by
      rw [dropWhile_append_split, if_pos hall, List.dropWhile_cons_of_neg (by decide)]
    rw [e3]
    split
    · rename_i c4 r5 heq
      rw [List.cons.injEq, List.cons.injEq] at heq
      exact absurd heq.2.1 (by decide)
    · rfl
  · have e3 : (m ++ dq :: ',' :: X).dropWhile isIdentChar =
        m.dropWhile isIdentChar ++ dq :: ',' :: X := by
      rw [dropWhile_append_split, if_neg hall]
    rw [e3]
    rcases hdw : m.dropWhile isIdentChar with _ | ⟨d0, m''⟩
    · exact absurd (all_of_dropWhile_nil _ m hdw) hall
    · rw [List.cons_append]
      split
      · rename_i c4 r5 heq
        rw [List.cons.injEq] at heq
        have h2 := heq.2
        cases hm'' : m'' with
        | nil =>
          rw [hm'', List.nil_append, List.cons.injEq] at h2
          exact absurd h2.1 (by decide)
        | cons s0 m3 =>
          rw [hm'', List.cons_append, List.cons.injEq] at h2
          have hsuf : m.dropWhile isIdentChar <:+ m := List.dropWhile_suffix _
          rw [hdw, hm''] at hsuf
          have hs0 : s0 ∈ m := hsuf.subset (by simp)
          have hsafe : safeChar s0 = true := by
            simp only [safeStr, List.all_eq_true] at hm
            exact hm s0 hs0
          exact absurd h2.1 (borChar_ne_colon (safeChar_bor hsafe))
      · rfl

/-- At the `": "` closing the `age` key, the candidate run swallows the
digits and stops at the comma, which is not the quote the pattern needs. -/
theorem c3_keyclose_num (f : Nat) (D X : List Char)
    (h2 : D.all isAsciiDigit = true) :
    commasGo3 (f + 1) (dq :: ':' :: ' ' :: (D ++ ',' :: X)) =
      dq :: commasGo3 f (':' :: ' ' :: (D ++ ',' :: X)) := by
  have e1 : (' ' :: (D ++ ',' :: X)).takeWhile ic3Class = ' ' :: D := by
    rw [List.takeWhile_cons_of_pos (by decide),
      takeWhile_append_all D (',' :: X) (fun c hc =>
        digit_ic3 (List.all_eq_true.mp h2 c hc)),
      List.takeWhile_cons_of_neg (by decide), List.append_nil]
  simp only [commasGo3, if_true, e1, List.length_cons, List.drop_succ_cons]
  rw [List.drop_left]
  rfl

theorem c3_keyclose_bk (f : Nat) (X : List Char) :
    commasGo3 (f + 1) (dq :: ':' :: ' ' :: lbk :: X) =
      dq :: commasGo3 f (':' :: ' ' :: lbk :: X) := rfl

/-- The third comma-insertion substitution is the identity on text all of
whose suffixes have scanner-window shapes. -/
theorem commasGo3_id (f : Nat) :
    ∀ s, (∀ u, u <:+ s → u = [] ∨ SufShape u) → commasGo3 f s = s := by
  induction f with
  | zero => intro s _; rfl
  | succ f ih =>
    intro s hs
    have htail : ∀ c (r : List Char), s = c :: r → commasGo3 f r = r := by
      rintro c r rfl
      exact ih r (fun u hu => hs u (hu.trans (List.suffix_cons c r)))
    have hstep : ∀ c r, c ≠ dq → s = c :: r → commasGo3 (f + 1) s = s := by
      rintro c r hc rfl
      rw [c3_skip_not_dq f c r hc, htail c r rfl]
    rcases hs s (List.suffix_refl s) with rfl | hsh
    · exact commasGo3_nil _
    · rcases hsh with ⟨c, X, rfl, hb⟩ | ⟨X, rfl⟩ | ⟨X, rfl⟩ | ⟨X, rfl⟩ | ⟨X, rfl⟩ |
        ⟨D, X, h1, h2, rfl⟩ | ⟨m, X, hm, rfl⟩ | ⟨D, X, h1, h2, rfl⟩ | ⟨X, rfl⟩ |
        ⟨v, X, hv, rfl⟩ | rfl | rfl
      · exact hstep c X (borChar_ne hb).2.2.2.1 rfl
      · exact hstep lbr (dq :: X) (by decide) rfl
      · exact hstep ',' (' ' :: dq :: X) (by decide) rfl
      · exact hstep ':' (' ' :: dq :: X) (by decide) rfl
      · exact hstep ':' (' ' :: lbk :: X) (by decide) rfl
      · exact hstep ':' (' ' :: (D ++ ',' :: X)) (by decide) rfl
      · rw [c3_keyclose_str f m X hm, htail dq _ rfl]
      · rw [c3_keyclose_num f D X h2, htail dq _ rfl]
      · rw [c3_keyclose_bk f X, htail dq _ rfl]
      · rw [c3_skip_dq_not_colon f v X hv, htail dq _ rfl]
      · exact hstep rbk [rbr] (by decide) rfl
      · exact hstep rbr [] (by decide) rfl

theorem digit_svFirst {c : Char} (h : isAsciiDigit c = true) :
    svFirstChar c = true := by
  simp only [svFirstChar, decide_eq_true_eq, not_or]
  refine ⟨?_, ?_, ?_, ?_, ?_, ?_, ?_⟩
  · rintro rfl; exact absurd h (by decide)
  · rintro rfl; exact absurd h (by decide)
  · rintro rfl; exact absurd h (by decide)
  · rintro rfl; exact absurd h (by decide)
  · rintro rfl; exact absurd h (by decide)
  · rintro rfl; exact absurd h (by decide)
  · simp [digit_not_pyspace h]

/-- A nonempty all-digit token matches the numeric-literal pattern. -/
theorem isNumericTok_digits (D : List Char) (h1 : D ≠ [])
    (h2 : D.all isAsciiDigit = true) : isNumericTok D = true := by
  obtain ⟨d, ds, rfl⟩ := List.exists_cons_of_ne_nil h1
  have hd : isAsciiDigit d = true := by
    simp only [List.all_cons, Bool.and_eq_true] at h2; exact h2.1
  have hip : (d :: ds).takeWhile isAsciiDigit = d :: ds := by
    have := takeWhile_append_all (d :: ds) [] (List.all_eq_true.mp h2)
    simpa using this
  have hbody : (match d :: ds with | '-' :: r => r | r => r) = d :: ds := by
    split
    · rename_i r heq
      rw [List.cons.injEq] at heq
      exact absurd (heq.1 ▸ hd) (by decide)
    · rfl
  simp only [isNumericTok, hbody, hip]
  rw [if_neg (by simp), List.drop_length]

theorem fixValsMatch_not_colon {c : Char} {r : List Char} (h : c ≠ ':') :
    fixValsMatch (c :: r) = Option.none := by
  simp only [fixValsMatch]
  split
  · rename_i heq
    rw [List.cons.injEq] at heq
    exact absurd heq.1 h
  · rfl

theorem fixValsMatch_colon_dq (X : List Char) :
    fixValsMatch (':' :: ' ' :: dq :: X) = Option.none := rfl

theorem fixValsMatch_colon_bk (X : List Char) :
    fixValsMatch (':' :: ' ' :: lbk :: X) = Option.none := rfl

/-- At `": <digits>,` the value pattern matches, and the replacement is the
matched text itself: the stripped value is a numeric literal and is kept. -/
theorem fixValsMatch_num (D X : List Char) (h1 : D ≠ [])
    (h2 : D.all isAsciiDigit = true) :
    fixValsMatch (':' :: ' ' :: (D ++ ',' :: X)) =
      some (':' :: ' ' :: D, ',' :: X) := by
  obtain ⟨d, ds, rfl⟩ := List.exists_cons_of_ne_nil h1
  have hd : isAsciiDigit d = true := by
    simp only [List.all_cons, Bool.and_eq_true] at h2; exact h2.1
  have hds := List.all_eq_true.mp h2
  have hnum : isNumericTok (d :: ds) = true := isNumericTok_digits _ (by simp) h2
  simp only [List.cons_append]
  have hws : (' ' :: d :: (ds ++ ',' :: X)).takeWhile isPySpace = [' '] := by
    rw [List.takeWhile_cons_of_pos (by decide),
      List.takeWhile_cons_of_neg (by simp [digit_not_pyspace hd])]
  have hbody : (d :: (ds ++ ',' :: X)).takeWhile svRestChar = d :: ds := by
    have := takeWhile_append_all (d :: ds) (',' :: X)
      (fun c hc => digit_svRest (hds c hc))
    rw [List.takeWhile_cons_of_neg (by decide), List.append_nil] at this
    simpa [List.cons_append] using this
  have hstrip : pyStrip (d :: ds) = d :: ds :=
    pyStrip_nospace (fun c hc => digit_not_pyspace (hds c hc))
  simp only [fixValsMatch, hws, List.length_cons, List.length_nil,
    List.drop_succ_cons, List.drop_zero, hbody, hstrip]
  rw [if_pos (digit_svFirst hd), if_pos (Or.inr hnum), List.drop_left]
  rfl

theorem fixValsGo_succ (f : Nat) (s : List Char) :
    fixValsGo (f + 1) s =
      match fixValsMatch s with
      | some (repl, rest) => repl ++ fixValsGo f rest
      | Option.none => match s with | [] => [] | c :: r => c :: fixValsGo f r := rfl

/-- `fix_string_values`' scan is the identity on text all of whose suffixes
have scanner-window shapes: quote- and bracket-headed values do not match
the pattern, and the one matching position — the numeric `age` value —
replaces the match with itself. -/
theorem fixValsGo_id (f : Nat) :
    ∀ s, (∀ u, u <:+ s → u = [] ∨ SufShape u) → fixValsGo f s = s := by
  induction f with
  | zero => intro s _; rfl
  | succ f ih =>
    intro s hs
    have hnone : fixValsMatch s = Option.none → fixValsGo (f + 1) s = s := by
      intro h
      rw [fixValsGo_succ, h]
      cases s with
      | nil => rfl
      | cons c r =>
        show c :: fixValsGo f r = c :: r
        rw [ih r (fun u hu => hs u (hu.trans (List.suffix_cons c r)))]
    rcases hs s (List.suffix_refl s) with rfl | hsh
    · rfl
    · rcases hsh with ⟨c, X, rfl, hb⟩ | ⟨X, rfl⟩ | ⟨X, rfl⟩ | ⟨X, rfl⟩ | ⟨X, rfl⟩ |
        ⟨D, X, h1, h2, rfl⟩ | ⟨m, X, hm, rfl⟩ | ⟨D, X, h1, h2, rfl⟩ | ⟨X, rfl⟩ |
        ⟨v, X, hv, rfl⟩ | rfl | rfl
      · exact hnone (fixValsMatch_not_colon (borChar_ne hb).2.2.1)
      · exact hnone (fixValsMatch_not_colon (by decide))
      · exact hnone (fixValsMatch_not_colon (by decide))
      · exact hnone (fixValsMatch_colon_dq X)
      · exact hnone (fixValsMatch_colon_bk X)
      · rw [fixValsGo_succ, fixValsMatch_num D X h1 h2]
        show (':' :: ' ' :: D) ++ fixValsGo f (',' :: X) = ':' :: ' ' :: (D ++ ',' :: X)
        rw [ih (',' :: X) (fun u hu => hs u (hu.trans ⟨':' :: ' ' :: D, by simp⟩))]
        simp
      · exact hnone (fixValsMatch_not_colon (by decide))
      · exact hnone (fixValsMatch_not_colon (by decide))
      · exact hnone (fixValsMatch_not_colon (by decide))
      · exact hnone (fixValsMatch_not_colon (by decide))
      · exact hnone (fixValsMatch_not_colon (by decide))
      · exact hnone (fixValsMatch_not_colon (by decide))

theorem safeChar_ne_dq_bsl {c : Char} (h : safeChar c = true) :
    c ≠ bsl ∧ c ≠ dq := by
  simp only [safeChar, decide_eq_true_eq, Bool.and_eq_true, not_or] at h
  exact ⟨h.2.2.1, h.2.1⟩

theorem safeStr_ne_dq_bsl {e : List Char} (h : safeStr e = true) :
    ∀ c ∈ e, c ≠ bsl ∧ c ≠ dq := by
  intro c hc
  simp only [safeStr, List.all_eq_true] at h
  exact safeChar_ne_dq_bsl (h c hc)

theorem safeChar_noEsc {c : Char} (h : safeChar c = true) :
    ¬ (c = bsl ∨ c = '\n' ∨ c = '\r' ∨ c = '\t') := by
  rintro (rfl | rfl | rfl | rfl) <;> exact absurd h (by decide)

theorem digit_noEsc {c : Char} (h : isAsciiDigit c = true) :
    ¬ (c = bsl ∨ c = '\n' ∨ c = '\r' ∨ c = '\t') := by
  rintro (rfl | rfl | rfl | rfl) <;> exact absurd h (by decide)

/-- Characters of a rendered email array: the quotes, the separators, or a
character of one of the emails. -/
theorem mem_renderEmails {c : Char} :
    ∀ {es : List (List Char)}, c ∈ renderEmails es →
      c = dq ∨ c = ',' ∨ c = ' ' ∨ ∃ e ∈ es, c ∈ e := by
  intro es
  induction es with
  | nil => intro h; simp [renderEmails] at h
  | cons e t ih =>
    intro h
    cases t with
    | nil =>
      have h' : c ∈ dq :: (e ++ [dq]) := by simpa [renderEmails] using h
      rcases List.mem_cons.mp h' with rfl | h2
      · exact Or.inl rfl
      · rcases List.mem_append.mp h2 with h3 | h3
        · exact Or.inr (Or.inr (Or.inr ⟨e, by simp, h3⟩))
        · simp only [List.mem_singleton] at h3
          exact Or.inl h3
    | cons e2 t2 =>
      have h' : c ∈ dq :: (e ++ ([dq, ',', ' '] ++ renderEmails (e2 :: t2))) := by
        have hr : renderEmails (e :: e2 :: t2) =
            dq :: (e ++ ([dq, ',', ' '] ++ renderEmails (e2 :: t2))) := by
          show dq :: e ++ [dq, ',', ' '] ++ renderEmails (e2 :: t2) = _
          simp [List.append_assoc]
        rwa [hr] at h
      rcases List.mem_cons.mp h' with rfl | h2
      · exact Or.inl rfl
      · rcases List.mem_append.mp h2 with h3 | h3
        · exact Or.inr (Or.inr (Or.inr ⟨e, by simp, h3⟩))
        · rcases List.mem_append.mp h3 with h4 | h4
          · simp only [List.mem_cons, List.not_mem_nil, or_false] at h4
            rcases h4 with rfl | rfl | rfl
            · exact Or.inl rfl
            · exact Or.inr (Or.inl rfl)
            · exact Or.inr (Or.inr (Or.inl rfl))
          · rcases ih h4 with h5 | h5 | h5 | ⟨e', he', hc'⟩
            · exact Or.inl h5
            · exact Or.inr (Or.inl h5)
            · exact Or.inr (Or.inr (Or.inl h5))
            · exact Or.inr (Or.inr (Or.inr ⟨e', by simp [he'], hc'⟩))

/-- No character of the canonical rendering is a backslash or a raw
control character: stage 1 of the escape pass has nothing to replace. -/
theorem renderDoc_noEsc (doc : CanonDoc) (hwf : wfDoc doc = true) :
    ∀ c ∈ renderDoc doc, ¬ (c = bsl ∨ c = '\n' ∨ c = '\r' ∨ c = '\t') := by
  obtain ⟨nm, age, em⟩ := doc
  have hw := hwf
  simp only [wfDoc, decide_eq_true_eq] at hw
  obtain ⟨hnm, hem⟩ := hw
  intro c hc
  rw [renderDoc_chunks] at hc
  dsimp only at hc hnm hem
  simp only [List.mem_append] at hc
  rcases hc with h | h | h | h | h | h | h
  · simp only [List.mem_cons, List.not_mem_nil, or_false] at h
    rcases h with rfl | rfl | rfl | rfl | rfl | rfl | rfl | rfl | rfl | rfl <;> decide
  · have : safeChar c = true := by
      simp only [safeStr, List.all_eq_true] at hnm
      exact hnm c h
    exact safeChar_noEsc this
  · simp only [List.mem_cons, List.not_mem_nil, or_false] at h
    rcases h with rfl | rfl | rfl | rfl | rfl | rfl | rfl | rfl | rfl | rfl <;> decide
  · exact digit_noEsc (List.all_eq_true.mp (natDigits_all_digit age) c h)
  · simp only [List.mem_cons, List.not_mem_nil, or_false] at h
    rcases h with rfl | rfl | rfl | rfl | rfl | rfl | rfl | rfl | rfl | rfl | rfl | rfl | rfl <;>
      decide
  · rcases mem_renderEmails h with rfl | rfl | rfl | ⟨e, he, hc'⟩
    · decide
    · decide
    · decide
    · have hsafe : safeStr e = true := by
        simp only [List.all_eq_true] at hem
        have := hem e he
        simp only [decide_eq_true_eq] at this
        exact this.1
      have : safeChar c = true := by
        simp only [safeStr, List.all_eq_true] at hsafe
        exact hsafe c hc'
      exact safeChar_noEsc this
  · simp only [List.mem_cons, List.not_mem_nil, or_false] at h
    rcases h with rfl | rfl <;> decide

theorem replaceChar_id (t : Char) (repl : List Char) :
    ∀ (cs : List Char), (∀ c ∈ cs, c ≠ t) → replaceChar t repl cs = cs := by
  intro cs
  induction cs with
  | nil => intro _; rfl
  | cons c r ih =>
    intro h
    show (if c = t then repl else [c]) ++ replaceChar t repl r = c :: r
    rw [if_neg (h c (by simp)), ih (fun x hx => h x (by simp [hx]))]
    rfl

theorem escapeStage1_id (cs : List Char)
    (h : ∀ c ∈ cs, ¬ (c = bsl ∨ c = '\n' ∨ c = '\r' ∨ c = '\t')) :
    escapeStage1 cs = cs := by
  unfold escapeStage1
  rw [replaceChar_id bsl _ cs (fun c hc hcc => h c hc (Or.inl hcc)),
    replaceChar_id '\n' _ cs (fun c hc hcc => h c hc (Or.inr (Or.inl hcc))),
    replaceChar_id '\r' _ cs (fun c hc hcc => h c hc (Or.inr (Or.inr (Or.inl hcc)))),
    replaceChar_id '\t' _ cs (fun c hc hcc => h c hc (Or.inr (Or.inr (Or.inr hcc))))]

theorem esc2_nodq (b : Bool) :
    ∀ (a rest : List Char), (∀ c ∈ a, c ≠ dq) →
      escapeStage2 b (a ++ rest) = a ++ escapeStage2 b rest := by
  intro a
  induction a with
  | nil => intro rest _; rfl
  | cons c t ih =>
    intro rest h
    rw [List.cons_append]
    simp only [escapeStage2]
    rw [if_neg (h c (by simp)), ih rest (fun x hx => h x (by simp [hx])),
      List.cons_append]

theorem esc2_s1 (W : List Char) :
    escapeStage2 false ([lbr, dq, 'n', 'a', 'm', 'e', dq, ':', ' ', dq] ++ W) =
      [lbr, dq, 'n', 'a', 'm', 'e', dq, ':', ' ', dq] ++ escapeStage2 true W := rfl

theorem esc2_s2 (W : List Char) :
    escapeStage2 true ([dq, ',', ' ', dq, 'a', 'g', 'e', dq, ':', ' '] ++ W) =
      [dq, ',', ' ', dq, 'a', 'g', 'e', dq, ':', ' '] ++ escapeStage2 false W := rfl

theorem esc2_s3 (W : List Char) :
    escapeStage2 false
        ([',', ' ', dq, 'e', 'm', 'a', 'i', 'l', 's', dq, ':', ' ', lbk] ++ W) =
      [',', ' ', dq, 'e', 'm', 'a', 'i', 'l', 's', dq, ':', ' ', lbk] ++
        escapeStage2 false W := rfl

/-- The quote-aware escape walk leaves a rendered email array unchanged:
every closing quote is followed by `,` or `]`, so no quote is treated as
embedded. -/
theorem esc2_emails :
    ∀ (es : List (List Char)),
      es.all (fun e => safeStr e ∧ ¬ e.isEmpty) = true →
      ∀ Z : List Char,
        escapeStage2 false (renderEmails es ++ rbk :: Z) =
          renderEmails es ++ escapeStage2 false (rbk :: Z) := by
  intro es
  induction es with
  | nil => intro _ Z; rfl
  | cons e t ih =>
    intro hall Z
    have hsp := hall
    simp only [List.all_cons, Bool.and_eq_true, decide_eq_true_eq] at hsp
    obtain ⟨⟨hse, _⟩, ht⟩ := hsp
    have hnd : ∀ c ∈ e, c ≠ dq := fun c hc => (safeStr_ne_dq_bsl hse c hc).2
    cases t with
    | nil =>
      have hshape : renderEmails [e] ++ rbk :: Z = dq :: (e ++ (dq :: rbk :: Z)) := by
        show dq :: e ++ [dq] ++ rbk :: Z = _
        simp [List.append_assoc]
      rw [hshape,
        show escapeStage2 false (dq :: (e ++ (dq :: rbk :: Z))) =
          dq :: escapeStage2 true (e ++ (dq :: rbk :: Z)) from rfl,
        esc2_nodq true e (dq :: rbk :: Z) hnd,
        show escapeStage2 true (dq :: rbk :: Z) =
          dq :: escapeStage2 false (rbk :: Z) from rfl]
      show dq :: (e ++ (dq :: escapeStage2 false (rbk :: Z))) =
        (dq :: e ++ [dq]) ++ escapeStage2 false (rbk :: Z)
      simp [List.append_assoc]
    | cons e2 t2 =>
      have hshape : renderEmails (e :: e2 :: t2) ++ rbk :: Z =
          dq :: (e ++ (dq :: ',' :: ' ' ::
            (renderEmails (e2 :: t2) ++ rbk :: Z))) := by
        show dq :: e ++ [dq, ',', ' '] ++ renderEmails (e2 :: t2) ++ rbk :: Z = _
        simp [List.append_assoc]
      rw [hshape,
        show escapeStage2 false (dq :: (e ++ (dq :: ',' :: ' ' ::
            (renderEmails (e2 :: t2) ++ rbk :: Z)))) =
          dq :: escapeStage2 true (e ++ (dq :: ',' :: ' ' ::
            (renderEmails (e2 :: t2) ++ rbk :: Z))) from rfl,
        esc2_nodq true e _ hnd,
        show escapeStage2 true (dq :: ',' :: ' ' ::
            (renderEmails (e2 :: t2) ++ rbk :: Z)) =
          dq :: ',' :: ' ' ::
            escapeStage2 false (renderEmails (e2 :: t2) ++ rbk :: Z) from rfl,
        ih ht Z]
      show dq :: (e ++ (dq :: ',' :: ' ' ::
          (renderEmails (e2 :: t2) ++ escapeStage2 false (rbk :: Z)))) =
        (dq :: e ++ [dq, ',', ' '] ++ renderEmails (e2 :: t2)) ++
          escapeStage2 false (rbk :: Z)
      simp [List.append_assoc]

/-- The escape pass is the identity on the canonical rendering. -/
theorem escape_renderDoc (doc : CanonDoc) (hwf : wfDoc doc = true) :
    escape_illegal_characters ⟨renderDoc doc⟩ = ⟨renderDoc doc⟩ := by
  have hw := hwf
  simp only [wfDoc, decide_eq_true_eq] at hw
  obtain ⟨hnm, hem⟩ := hw
  show (⟨escapeStage2 false (escapeStage1 (renderDoc doc))⟩ : String) = _
  rw [escapeStage1_id _ (renderDoc_noEsc doc hwf)]
  have main : escapeStage2 false (renderDoc doc) = renderDoc doc := by
    rw [renderDoc_chunks]
    rw [esc2_s1,
      esc2_nodq true doc.name _ (fun c hc => (safeStr_ne_dq_bsl hnm c hc).2),
      esc2_s2,
      esc2_nodq false (natDigits doc.age) _
        (fun c hc => (borChar_ne (digit_bor
          (List.all_eq_true.mp (natDigits_all_digit doc.age) c hc))).2.2.2.1),
      esc2_s3,
      esc2_emails doc.emails hem [rbr],
      show escapeStage2 false (rbk :: [rbr]) = [rbk, rbr] from rfl]
  rw [main]

theorem ebF_open (stk res W : List Char) :
    List.foldl ebStep ⟨stk, Option.none, false, res⟩ (dq :: W) =
      List.foldl ebStep ⟨stk, some dq, false, res ++ [dq]⟩ W := by
  rw [List.foldl_cons]
  congr 1

theorem ebF_close (stk res W : List Char) :
    List.foldl ebStep ⟨stk, some dq, false, res⟩ (dq :: W) =
      List.foldl ebStep ⟨stk, Option.none, false, res ++ [dq]⟩ W := by
  rw [List.foldl_cons]
  congr 1

theorem ebF_lbr (stk res W : List Char) :
    List.foldl ebStep ⟨stk, Option.none, false, res⟩ (lbr :: W) =
      List.foldl ebStep ⟨lbr :: stk, Option.none, false, res ++ [lbr]⟩ W := by
  rw [List.foldl_cons]
  congr 1

theorem ebF_lbk (stk res W : List Char) :
    List.foldl ebStep ⟨stk, Option.none, false, res⟩ (lbk :: W) =
      List.foldl ebStep ⟨lbk :: stk, Option.none, false, res ++ [lbk]⟩ W := by
  rw [List.foldl_cons]
  congr 1

theorem ebF_rbk (stk res W : List Char) :
    List.foldl ebStep ⟨lbk :: stk, Option.none, false, res⟩ (rbk :: W) =
      List.foldl ebStep ⟨stk, Option.none, false, res ++ [rbk]⟩ W := by
  rw [List.foldl_cons]
  congr 1

theorem ebF_rbr (stk res W : List Char) :
    List.foldl ebStep ⟨lbr :: stk, Option.none, false, res⟩ (rbr :: W) =
      List.foldl ebStep ⟨stk, Option.none, false, res ++ [rbr]⟩ W := by
  rw [List.foldl_cons]
  congr 1

theorem ebStep_instr_dq (stk res : List Char) (c : Char)
    (h3 : c ≠ bsl) (h4 : c ≠ dq) :
    ebStep ⟨stk, some dq, false, res⟩ c = ⟨stk, some dq, false, res ++ [c]⟩ := by
  simp only [ebStep]
  rw [if_neg (by simp), if_neg h3]
  by_cases hsq : c = sq
  · subst hsq
    rw [if_pos (Or.inr rfl)]
    rfl
  · rw [if_neg (fun hor => hor.elim h4 hsq),
      if_pos (show (some dq : Option Char).isSome = true from rfl)]

theorem ebStep_plain (stk res : List Char) (c : Char)
    (h : ¬ (c = bsl ∨ c = dq ∨ c = sq ∨ c = lbr ∨ c = lbk ∨ c = rbr ∨ c = rbk)) :
    ebStep ⟨stk, Option.none, false, res⟩ c =
      ⟨stk, Option.none, false, res ++ [c]⟩ := by
  simp only [ebStep]
  rw [if_neg (by simp), if_neg (fun hh => h (Or.inl hh)),
    if_neg (fun hor => hor.elim (fun hh => h (Or.inr (Or.inl hh)))
      (fun hh => h (Or.inr (Or.inr (Or.inl hh))))),
    if_neg (by simp),
    if_neg (fun hor => hor.elim (fun hh => h (Or.inr (Or.inr (Or.inr (Or.inl hh)))))
      (fun hh => h (Or.inr (Or.inr (Or.inr (Or.inr (Or.inl hh))))))),
    if_neg (fun hor => hor.elim
      (fun hh => h (Or.inr (Or.inr (Or.inr (Or.inr (Or.inr (Or.inl hh)))))))
      (fun hh => h (Or.inr (Or.inr (Or.inr (Or.inr (Or.inr (Or.inr hh))))))))]

theorem ebRun_instr :
    ∀ (a : List Char), (∀ c ∈ a, c ≠ bsl ∧ c ≠ dq) →
      ∀ (stk res W : List Char),
        List.foldl ebStep ⟨stk, some dq, false, res⟩ (a ++ W) =
          List.foldl ebStep ⟨stk, some dq, false, res ++ a⟩ W := by
  intro a
  induction a with
  | nil => intro _ stk res W; simp
  | cons c t ih =>
    intro h stk res W
    rw [List.cons_append, List.foldl_cons,
      ebStep_instr_dq stk res c (h c (by simp)).1 (h c (by simp)).2,
      ih (fun x hx => h x (by simp [hx])) stk (res ++ [c]) W]
    have : (res ++ [c]) ++ t = res ++ c :: t := by simp
    rw [this]

theorem ebRun_plain :
    ∀ (a : List Char),
      (∀ c ∈ a, ¬ (c = bsl ∨ c = dq ∨ c = sq ∨ c = lbr ∨ c = lbk ∨ c = rbr ∨ c = rbk)) →
      ∀ (stk res W : List Char),
        List.foldl ebStep ⟨stk, Option.none, false, res⟩ (a ++ W) =
          List.foldl ebStep ⟨stk, Option.none, false, res ++ a⟩ W := by
  intro a
  induction a with
  | nil => intro _ stk res W; simp
  | cons c t ih =>
    intro h stk res W
    rw [List.cons_append, List.foldl_cons, ebStep_plain stk res c (h c (by simp)),
      ih (fun x hx => h x (by simp [hx])) stk (res ++ [c]) W]
    have : (res ++ [c]) ++ t = res ++ c :: t := by simp
    rw [this]

/-- The bracket-closure walk crosses a rendered email array without
touching the stack: the quotes pair up and no bracket occurs inside. -/
theorem eb_emails :
    ∀ (es : List (List Char)),
      es.all (fun e => safeStr e ∧ ¬ e.isEmpty) = true →
      ∀ (stk res W : List Char),
        List.foldl ebStep ⟨stk, Option.none, false, res⟩ (renderEmails es ++ W) =
          List.foldl ebStep ⟨stk, Option.none, false, res ++ renderEmails es⟩ W := by
  intro es
  induction es with
  | nil => intro _ stk res W; simp [renderEmails]
  | cons e t ih =>
    intro hall stk res W
    have hsp := hall
    simp only [List.all_cons, Bool.and_eq_true, decide_eq_true_eq] at hsp
    obtain ⟨⟨hse, _⟩, ht⟩ := hsp
    have hnd : ∀ c ∈ e, c ≠ bsl ∧ c ≠ dq := safeStr_ne_dq_bsl hse
    cases t with
    | nil =>
      have hshape : renderEmails [e] ++ W = dq :: (e ++ (dq :: W)) := by
        show dq :: e ++ [dq] ++ W = _
        simp [List.append_assoc]
      rw [hshape, ebF_open, ebRun_instr e hnd stk (res ++ [dq]) (dq :: W), ebF_close]
      have : ((res ++ [dq]) ++ e) ++ [dq] = res ++ renderEmails [e] := by
        show _ = res ++ (dq :: e ++ [dq])
        simp [List.append_assoc]
      rw [this]
    | cons e2 t2 =>
      have hshape : renderEmails (e :: e2 :: t2) ++ W =
          dq :: (e ++ (dq :: ([',', ' '] ++ (renderEmails (e2 :: t2) ++ W)))) := by
        show dq :: e ++ [dq, ',', ' '] ++ renderEmails (e2 :: t2) ++ W = _
        simp [List.append_assoc]
      rw [hshape, ebF_open, ebRun_instr e hnd stk (res ++ [dq]) _, ebF_close,
        ebRun_plain [',', ' '] (by decide) stk _ _, ih ht stk _ W]
      have : ((((res ++ [dq]) ++ e) ++ [dq]) ++ [',', ' ']) ++ renderEmails (e2 :: t2) =
          res ++ renderEmails (e :: e2 :: t2) := by
        show _ = res ++ (dq :: e ++ [dq, ',', ' '] ++ renderEmails (e2 :: t2))
        simp [List.append_assoc]
      rw [this]

/-- The bracket-closure pass is the identity on the canonical rendering:
the walk ends with an empty stack and an untouched output. -/
theorem ensure_renderDoc (doc : CanonDoc) (hwf : wfDoc doc = true) :
    ensure_ending_brackets ⟨renderDoc doc⟩ = ⟨renderDoc doc⟩ := by
  have hw := hwf
  simp only [wfDoc, decide_eq_true_eq] at hw
  obtain ⟨hnm, hem⟩ := hw
  have hnmr : ∀ c ∈ doc.name, c ≠ bsl ∧ c ≠ dq := safeStr_ne_dq_bsl hnm
  have hDr : ∀ c ∈ natDigits doc.age,
      ¬ (c = bsl ∨ c = dq ∨ c = sq ∨ c = lbr ∨ c = lbk ∨ c = rbr ∨ c = rbk) := by
    intro c hc
    have hd := List.all_eq_true.mp (natDigits_all_digit doc.age) c hc
    rintro (rfl | rfl | rfl | rfl | rfl | rfl | rfl) <;> exact absurd hd (by decide)
  have htext : renderDoc doc =
      lbr :: (dq :: (['n', 'a', 'm', 'e'] ++ (dq :: ([':', ' '] ++ (dq :: (doc.name ++ (dq :: ([',', ' '] ++ (dq :: (['a', 'g', 'e'] ++ (dq :: ([':', ' '] ++ (natDigits doc.age ++ ([',', ' '] ++ (dq :: (['e', 'm', 'a', 'i', 'l', 's'] ++ (dq :: ([':', ' '] ++ (lbk :: (renderEmails doc.emails ++ (rbk :: ([rbr])))))))))))))))))))))) := by
    rw [renderDoc_chunks]
    simp [List.append_assoc]
  have main : List.foldl ebStep ⟨[], Option.none, false, []⟩ (renderDoc doc) =
      ⟨[], Option.none, false, renderDoc doc⟩ := by
    conv_lhs => rw [htext]
    rw [ebF_lbr]
    rw [ebF_open]
    rw [ebRun_instr ['n', 'a', 'm', 'e'] (by decide)]
    rw [ebF_close]
    rw [ebRun_plain [':', ' '] (by decide)]
    rw [ebF_open]
    rw [ebRun_instr doc.name hnmr]
    rw [ebF_close]
    rw [ebRun_plain [',', ' '] (by decide)]
    rw [ebF_open]
    rw [ebRun_instr ['a', 'g', 'e'] (by decide)]
    rw [ebF_close]
    rw [ebRun_plain [':', ' '] (by decide)]
    rw [ebRun_plain (natDigits doc.age) hDr]
    rw [ebRun_plain [',', ' '] (by decide)]
    rw [ebF_open]
    rw [ebRun_instr ['e', 'm', 'a', 'i', 'l', 's'] (by decide)]
    rw [ebF_close]
    rw [ebRun_plain [':', ' '] (by decide)]
    rw [ebF_lbk]
    rw [eb_emails doc.emails hem]
    rw [ebF_rbk]
    rw [ebF_rbr]
    rw [List.foldl_nil, EBSt.mk.injEq]
    refine ⟨rfl, rfl, rfl, ?_⟩
    rw [htext]
    simp [List.append_assoc]
  show (⟨(List.foldl ebStep ⟨[], Option.none, false, []⟩ (renderDoc doc)).result ++
    ((List.foldl ebStep ⟨[], Option.none, false, []⟩ (renderDoc doc)).stack.map
      closerOf)⟩ : String) = _
  rw [main]
  simp

theorem fix_keys_renderDoc (doc : CanonDoc) (hwf : wfDoc doc = true) :
    fix_keys ⟨renderDoc doc⟩ = ⟨renderDoc doc⟩ := by
  show (⟨fixKeysGo ((renderDoc doc).length + 1) (renderDoc doc)⟩ : String) = _
  rw [fixKeysGo_id _ _ (renderDoc_suffix_shape doc hwf)]

theorem fix_string_values_renderDoc (doc : CanonDoc) (hwf : wfDoc doc = true) :
    fix_string_values ⟨renderDoc doc⟩ = ⟨renderDoc doc⟩ := by
  show (⟨fixValsGo ((renderDoc doc).length + 1) (renderDoc doc)⟩ : String) = _
  rw [fixValsGo_id _ _ (renderDoc_suffix_shape doc hwf)]

theorem commas_renderDoc (doc : CanonDoc) (hwf : wfDoc doc = true) :
    insert_missing_commas ⟨renderDoc doc⟩ = ⟨renderDoc doc⟩ := by
  have hsh := renderDoc_suffix_shape doc hwf
  show (⟨commasGo3
      ((commasGo2 ((commasGo1 ((renderDoc doc).length + 1) (renderDoc doc)).length + 1)
        (commasGo1 ((renderDoc doc).length + 1) (renderDoc doc))).length + 1)
      (commasGo2 ((commasGo1 ((renderDoc doc).length + 1) (renderDoc doc)).length + 1)
        (commasGo1 ((renderDoc doc).length + 1) (renderDoc doc)))⟩ : String) = _
  rw [commasGo1_id _ _ hsh, commasGo2_id _ _ hsh, commasGo3_id _ _ hsh]

/-- The entire repair pipeline is the identity on the canonical rendering
of a well-formed document. -/
theorem fix_json_renderDoc (doc : CanonDoc) (hwf : wfDoc doc = true) :
    fix_json ⟨renderDoc doc⟩ = ⟨renderDoc doc⟩ := by
  unfold fix_json
  rw [fix_keys_renderDoc doc hwf, fix_string_values_renderDoc doc hwf,
    escape_renderDoc doc hwf, ensure_renderDoc doc hwf, commas_renderDoc doc hwf]

/-! ### The strict decoder on the canonical rendering -/

/-- The string scanner consumes a safe body up to the closing quote. -/
theorem jsonStrGo_safe :
    ∀ (e : List Char), safeStr e = true → ∀ (acc r : List Char),
      jsonStrGo acc (e ++ dq :: r) = .ok (⟨acc.reverse ++ e⟩, r) := by
  intro e
  induction e with
  | nil =>
    intro _ acc r
    show jsonStrGo acc (dq :: r) = .ok (⟨acc.reverse ++ []⟩, r)
    rw [List.append_nil, jsonStrGo.eq_def]
    dsimp only
    rw [if_pos rfl]
  | cons c t ih =>
    intro hse acc r
    have hc : safeChar c = true := safeStr_head hse
    have hct : safeStr t = true := by
      simp only [safeStr, List.all_cons, Bool.and_eq_true] at hse
      exact hse.2
    have h1 : c ≠ dq := (safeChar_ne_dq_bsl hc).2
    have h2 : c ≠ bsl := (safeChar_ne_dq_bsl hc).1
    have h3 : ¬ (c.toNat < 0x20) := by
      simp only [safeChar, decide_eq_true_eq, Bool.and_eq_true] at hc
      omega
    show jsonStrGo acc (c :: (t ++ dq :: r)) = _
    rw [jsonStrGo.eq_def]
    dsimp only
    rw [if_neg h1, if_neg h2, if_neg h3, ih hct (c :: acc) r]
    simp [List.append_assoc]

/-- The number scanner on a nonzero-headed (or single-zero) digit run
followed by a comma: a plain integer. -/
theorem jsonNumGo_digits (D X : List Char) (h1 : D ≠ [])
    (h2 : D.all isAsciiDigit = true) (h0 : D.head? ≠ some '0' ∨ D = ['0']) :
    jsonNumGo (D ++ ',' :: X) =
      .ok (.int ((D.foldl (fun a c => a * 10 + (c.toNat - '0'.toNat)) 0 : Nat) : Int),
        ',' :: X) := by
  obtain ⟨d, ds, rfl⟩ := List.exists_cons_of_ne_nil h1
  have hd : isAsciiDigit d = true := by
    simp only [List.all_cons, Bool.and_eq_true] at h2; exact h2.1
  have hds := List.all_eq_true.mp h2
  simp only [List.cons_append]
  have hsgn : (match d :: (ds ++ ',' :: X) with
      | '-' :: r => ((-1 : Int), r)
      | _ => ((1 : Int), d :: (ds ++ ',' :: X))) =
        ((1 : Int), d :: (ds ++ ',' :: X)) := by
    split
    · rename_i r heq
      rw [List.cons.injEq] at heq
      exact absurd (heq.1 ▸ hd) (by decide)
    · rfl
  have hip : (d :: (ds ++ ',' :: X)).takeWhile isAsciiDigit = d :: ds := by
    have := takeWhile_append_all (d :: ds) (',' :: X) hds
    rw [List.takeWhile_cons_of_neg (by decide), List.append_nil] at this
    simpa [List.cons_append] using this
  have hnz : ¬ ((d :: ds).length > 1 ∧ (d :: ds).head? = some '0') := by
    rcases h0 with h0 | h0
    · exact fun hand => h0 hand.2
    · rw [List.cons.injEq] at h0
      intro hand
      rw [h0.2] at hand
      simp at hand
  simp only [jsonNumGo, hsgn, hip]
  rw [if_neg (by simp), if_neg hnz, List.length_cons, List.drop_succ_cons,
    List.drop_left]
  simp

/-- `jsonValue` routes a digit-headed input to the number scanner. -/
theorem jsonValue_digit (g : Nat) (c : Char) (r : List Char)
    (hd : isAsciiDigit c = true) :
    jsonValue (g + 1) (c :: r) = jsonNumGo (c :: r) := by
  simp only [jsonValue]
  rw [if_neg (fun hh => absurd (hh ▸ hd) (by decide)),
    if_neg (fun hh => absurd (hh ▸ hd) (by decide)),
    if_neg (fun hh => absurd (hh ▸ hd) (by decide)),
    if_neg (fun hh => absurd (hh ▸ hd) (by decide)),
    if_neg (fun hh => absurd (hh ▸ hd) (by decide)),
    if_neg (fun hh => absurd (hh ▸ hd) (by decide)),
    if_pos (Or.inr hd)]

theorem jsonValue_str (g : Nat) (r : List Char) :
    jsonValue (g + 1) (dq :: r) =
      (jsonStrGo [] r).map (fun p => (.str p.1, p.2)) := rfl

/-- The element loop decodes a rendered email array. -/
theorem jsonElems_emails :
    ∀ (es : List (List Char)) (f : Nat) (acc : List PyVal) (Z : List Char),
      es ≠ [] → es.all (fun e => safeStr e ∧ ¬ e.isEmpty) = true →
      jsonElems (f + es.length + 1) acc (renderEmails es ++ rbk :: Z) =
        .ok (.list (acc.reverse ++ es.map (fun e => .str ⟨e⟩)), Z) := by
  intro es
  induction es with
  | nil => intro f acc Z hne _; exact absurd rfl hne
  | cons e t ih =>
    intro f acc Z _ hall
    have hsp := hall
    simp only [List.all_cons, Bool.and_eq_true, decide_eq_true_eq] at hsp
    obtain ⟨⟨hse, _⟩, ht⟩ := hsp
    cases t with
    | nil =>
      have hshape : renderEmails [e] ++ rbk :: Z = dq :: (e ++ dq :: rbk :: Z) := by
        show dq :: e ++ [dq] ++ rbk :: Z = _
        simp [List.append_assoc]
      rw [hshape]
      have hv : jsonValue (f + 1) (dq :: (e ++ dq :: rbk :: Z)) =
          .ok (.str ⟨e⟩, rbk :: Z) := by
        rw [jsonValue_str, jsonStrGo_safe e hse []]
        simp [Except.map]
      show jsonElems (f + 1 + 1) acc (dq :: (e ++ dq :: rbk :: Z)) = _
      rw [jsonElems, hv]
      dsimp only
      rw [List.dropWhile_cons_of_neg (by decide)]
      rw [show rbk = ']' from rfl]
      simp
    | cons e2 t2 =>
      have hshape : renderEmails (e :: e2 :: t2) ++ rbk :: Z =
          dq :: (e ++ dq :: ',' :: ' ' :: (renderEmails (e2 :: t2) ++ rbk :: Z)) := by
        show dq :: e ++ [dq, ',', ' '] ++ renderEmails (e2 :: t2) ++ rbk :: Z = _
        simp [List.append_assoc]
      rw [hshape]
      have hv : jsonValue (f + (e2 :: t2).length + 1)
          (dq :: (e ++ dq :: ',' :: ' ' :: (renderEmails (e2 :: t2) ++ rbk :: Z))) =
          .ok (.str ⟨e⟩, ',' :: ' ' :: (renderEmails (e2 :: t2) ++ rbk :: Z)) := by
        rw [jsonValue_str, jsonStrGo_safe e hse []]
        simp [Except.map]
      show jsonElems ((f + (e2 :: t2).length + 1) + 1) acc _ = _
      rw [jsonElems, hv]
      dsimp only
      rw [List.dropWhile_cons_of_neg (by decide)]
      show jsonElems (f + (e2 :: t2).length + 1) (PyVal.str ⟨e⟩ :: acc)
        (List.dropWhile isJsonWs (' ' :: (renderEmails (e2 :: t2) ++ rbk :: Z))) = _
      rw [List.dropWhile_cons_of_pos (by decide)]
      obtain ⟨Y, hY⟩ := renderEmails_cons_shape e2 t2
      rw [hY, List.cons_append, List.dropWhile_cons_of_neg (by decide), ← List.cons_append,
        ← hY, ih f (.str ⟨e⟩ :: acc) Z (by simp) ht]
      simp [List.append_assoc]

/-- One object member with a safe key and a comma after its value. -/
theorem jm_step_comma (g : Nat) (acc : List (String × PyVal)) (key : List Char)
    (hk : safeStr key = true) (v : PyVal) (V R : List Char)
    (hv : jsonValue g (List.dropWhile isJsonWs V) = .ok (v, ',' :: R)) :
    jsonMembers (g + 1) acc (dq :: (key ++ dq :: ':' :: V)) =
      jsonMembers g (dictSet acc ⟨key⟩ v) (List.dropWhile isJsonWs R) := by
  show (match jsonStrGo [] (key ++ dq :: ':' :: V) with
    | Except.error e => Except.error e
    | Except.ok (key2, r1) =>
      match List.dropWhile isJsonWs r1 with
      | ':' :: r2 =>
        match jsonValue g (List.dropWhile isJsonWs r2) with
        | Except.error e => Except.error e
        | Except.ok (v2, r3) =>
          let acc2 := dictSet acc key2 v2;
          match List.dropWhile isJsonWs r3 with
          | ',' :: r4 => jsonMembers g acc2 (List.dropWhile isJsonWs r4)
          | c5 :: r5 =>
            if c5 = rbr then Except.ok (PyVal.dict acc2, r5)
            else Except.error (PyExc.jsonDecodeError "Expecting delimiter")
          | [] => Except.error (PyExc.jsonDecodeError "Expecting delimiter")
      | x => Except.error (PyExc.jsonDecodeError "Expecting colon delimiter")) = _
  rw [jsonStrGo_safe key hk []]
  dsimp only
  rw [List.dropWhile_cons_of_neg (by decide)]
  show (match jsonValue g (List.dropWhile isJsonWs V) with
    | Except.error e => Except.error e
    | Except.ok (v2, r3) =>
      match List.dropWhile isJsonWs r3 with
      | ',' :: r4 =>
        jsonMembers g (dictSet acc ⟨[].reverse ++ key⟩ v2) (List.dropWhile isJsonWs r4)
      | c5 :: r5 =>
        if c5 = rbr then Except.ok (PyVal.dict (dictSet acc ⟨[].reverse ++ key⟩ v2), r5)
        else Except.error (PyExc.jsonDecodeError "Expecting delimiter")
      | [] => Except.error (PyExc.jsonDecodeError "Expecting delimiter")) = _
  rw [hv]
  dsimp only
  rw [List.dropWhile_cons_of_neg (by decide)]
  rfl

/-- The last object member: a safe key, then the closing brace. -/
theorem jm_step_last (g : Nat) (acc : List (String × PyVal)) (key : List Char)
    (hk : safeStr key = true) (v : PyVal) (V Z : List Char)
    (hv : jsonValue g (List.dropWhile isJsonWs V) = .ok (v, rbr :: Z)) :
    jsonMembers (g + 1) acc (dq :: (key ++ dq :: ':' :: V)) =
      .ok (.dict (dictSet acc ⟨key⟩ v), Z) := by
  show (match jsonStrGo [] (key ++ dq :: ':' :: V) with
    | Except.error e => Except.error e
    | Except.ok (key2, r1) =>
      match List.dropWhile isJsonWs r1 with
      | ':' :: r2 =>
        match jsonValue g (List.dropWhile isJsonWs r2) with
        | Except.error e => Except.error e
        | Except.ok (v2, r3) =>
          let acc2 := dictSet acc key2 v2;
          match List.dropWhile isJsonWs r3 with
          | ',' :: r4 => jsonMembers g acc2 (List.dropWhile isJsonWs r4)
          | c5 :: r5 =>
            if c5 = rbr then Except.ok (PyVal.dict acc2, r5)
            else Except.error (PyExc.jsonDecodeError "Expecting delimiter")
          | [] => Except.error (PyExc.jsonDecodeError "Expecting delimiter")
      | x => Except.error (PyExc.jsonDecodeError "Expecting colon delimiter")) = _
  rw [jsonStrGo_safe key hk []]
  dsimp only
  rw [List.dropWhile_cons_of_neg (by decide)]
  show (match jsonValue g (List.dropWhile isJsonWs V) with
    | Except.error e => Except.error e
    | Except.ok (v2, r3) =>
      match List.dropWhile isJsonWs r3 with
      | ',' :: r4 =>
        jsonMembers g (dictSet acc ⟨[].reverse ++ key⟩ v2) (List.dropWhile isJsonWs r4)
      | c5 :: r5 =>
        if c5 = rbr then Except.ok (PyVal.dict (dictSet acc ⟨[].reverse ++ key⟩ v2), r5)
        else Except.error (PyExc.jsonDecodeError "Expecting delimiter")
      | [] => Except.error (PyExc.jsonDecodeError "Expecting delimiter")) = _
  rw [hv]
  dsimp only
  rw [List.dropWhile_cons_of_neg (by decide)]
  rfl

/-- `jsonValue` on the rendered email array. -/
theorem jsonValue_array_emails (g : Nat) (em : List (List Char))
    (hem : em.all (fun e => safeStr e ∧ ¬ e.isEmpty) = true) (Z : List Char) :
    jsonValue (g + em.length + 2) (lbk :: (renderEmails em ++ rbk :: Z)) =
      .ok (.list (em.map (fun e => .str ⟨e⟩)), Z) := by
  show (match (renderEmails em ++ rbk :: Z).dropWhile isJsonWs with
      | c2 :: r2 =>
        if c2 = rbk then Except.ok (PyVal.list [], r2)
        else jsonElems (g + em.length + 1) [] (c2 :: r2)
      | [] => Except.error (PyExc.jsonDecodeError "Expecting value")) = _
  cases em with
  | nil =>
    rw [show renderEmails [] ++ rbk :: Z = rbk :: Z from rfl,
      List.dropWhile_cons_of_neg (by decide), show rbk = ']' from rfl]
    dsimp only
    rw [if_pos rfl]
    rfl
  | cons e t =>
    obtain ⟨Y, hY⟩ := renderEmails_cons_shape e t
    rw [hY, List.cons_append, List.dropWhile_cons_of_neg (by decide)]
    dsimp only
    rw [if_neg (by decide), ← List.cons_append, ← hY,
      jsonElems_emails (e :: t) g [] Z (by simp) hem]
    simp

/-- The member loop decodes the full interior of a canonical document. -/
theorem jsonMembers_doc (g : Nat) (doc : CanonDoc) (h : wfDoc doc = true)
    (Z : List Char) :
    jsonMembers (g + doc.emails.length + 5) []
      (dq :: ("name".data ++ dq :: ':' :: (' ' :: dq :: (doc.name ++ dq :: ',' ::
        (' ' :: dq :: ("age".data ++ dq :: ':' :: (' ' :: (natDigits doc.age ++ ',' ::
        (' ' :: dq :: ("emails".data ++ dq :: ':' :: (' ' :: lbk ::
        (renderEmails doc.emails ++ rbk :: rbr :: Z)))))))))))) =
      .ok (docVal doc, Z) := by
  have hw := h
  simp only [wfDoc, decide_eq_true_eq] at hw
  obtain ⟨hname, hems⟩ := hw
  have hv1 : jsonValue (g + doc.emails.length + 4)
      (List.dropWhile isJsonWs (' ' :: dq :: (doc.name ++ dq :: ',' ::
        (' ' :: dq :: ("age".data ++ dq :: ':' :: (' ' :: (natDigits doc.age ++ ',' ::
        (' ' :: dq :: ("emails".data ++ dq :: ':' :: (' ' :: lbk ::
        (renderEmails doc.emails ++ rbk :: rbr :: Z))))))))))) =
      .ok (.str ⟨doc.name⟩, ',' :: (' ' :: dq :: ("age".data ++ dq :: ':' ::
        (' ' :: (natDigits doc.age ++ ',' :: (' ' :: dq :: ("emails".data ++ dq :: ':' ::
        (' ' :: lbk :: (renderEmails doc.emails ++ rbk :: rbr :: Z))))))))) := by
    rw [List.dropWhile_cons_of_pos (by decide), List.dropWhile_cons_of_neg (by decide)]
    show jsonValue ((g + doc.emails.length + 3) + 1) _ = _
    rw [jsonValue_str, jsonStrGo_safe doc.name hname []]
    simp [Except.map]
  have h0 : (natDigits doc.age).head? ≠ some '0' ∨ natDigits doc.age = ['0'] := by
    by_cases hz : doc.age = 0
    · right; rw [hz]; rfl
    · left; exact natDigits_head_ne_zero doc.age hz
  have hv2 : jsonValue (g + doc.emails.length + 3)
      (List.dropWhile isJsonWs (' ' :: (natDigits doc.age ++ ',' ::
        (' ' :: dq :: ("emails".data ++ dq :: ':' :: (' ' :: lbk ::
        (renderEmails doc.emails ++ rbk :: rbr :: Z))))))) =
      .ok (.int doc.age, ',' :: (' ' :: dq :: ("emails".data ++ dq :: ':' ::
        (' ' :: lbk :: (renderEmails doc.emails ++ rbk :: rbr :: Z))))) := by
    rw [List.dropWhile_cons_of_pos (by decide)]
    obtain ⟨d, ds, hD⟩ := List.exists_cons_of_ne_nil (natDigits_ne_nil doc.age)
    have hall := natDigits_all_digit doc.age
    rw [hD, List.all_cons, Bool.and_eq_true] at hall
    rw [hD, List.cons_append,
      List.dropWhile_cons_of_neg (by simp [digit_not_jsonws hall.1]),
      show g + doc.emails.length + 3 = (g + doc.emails.length + 2) + 1 from rfl,
      jsonValue_digit _ _ _ hall.1, ← List.cons_append, ← hD,
      jsonNumGo_digits (natDigits doc.age) _ (natDigits_ne_nil doc.age)
        (natDigits_all_digit doc.age) h0, natDigits_val]
  have hv3 : jsonValue (g + doc.emails.length + 2)
      (List.dropWhile isJsonWs (' ' :: lbk ::
        (renderEmails doc.emails ++ rbk :: rbr :: Z))) =
      .ok (.list (doc.emails.map (fun e => PyVal.str ⟨e⟩)), rbr :: Z) := by
    rw [List.dropWhile_cons_of_pos (by decide), List.dropWhile_cons_of_neg (by decide)]
    exact jsonValue_array_emails g doc.emails hems (rbr :: Z)
  rw [show g + doc.emails.length + 5 = (g + doc.emails.length + 4) + 1 from rfl,
    jm_step_comma (g + doc.emails.length + 4) [] ("name".data) (by decide) _ _ _ hv1,
    List.dropWhile_cons_of_pos (by decide), List.dropWhile_cons_of_neg (by decide),
    show g + doc.emails.length + 4 = (g + doc.emails.length + 3) + 1 from rfl,
    jm_step_comma (g + doc.emails.length + 3) _ ("age".data) (by decide) _ _ _ hv2,
    List.dropWhile_cons_of_pos (by decide), List.dropWhile_cons_of_neg (by decide),
    show g + doc.emails.length + 3 = (g + doc.emails.length + 2) + 1 from rfl,
    jm_step_last (g + doc.emails.length + 2) _ ("emails".data) (by decide) _ _ _ hv3]
  rfl

theorem renderEmails_length_ge (es : List (List Char)) :
    es.length ≤ (renderEmails es).length := by
  induction es with
  | nil => simp [renderEmails]
  | cons e t ih =>
    cases t with
    | nil =>
      show 1 ≤ (dq :: e ++ [dq]).length
      simp
    | cons e2 t2 =>
      show (e2 :: t2).length + 1 ≤
        (dq :: e ++ [dq, ',', ' '] ++ renderEmails (e2 :: t2)).length
      simp only [List.length_cons] at ih
      simp only [List.length_append, List.length_cons, List.length_nil]
      omega

theorem renderDoc_length_ge (doc : CanonDoc) :
    doc.emails.length + 6 ≤ (renderDoc doc).length := by
  have h1 := renderEmails_length_ge doc.emails
  have h2 : ("name".data).length = 4 := rfl
  have h3 : ("age".data).length = 3 := rfl
  have h4 : ("emails".data).length = 6 := rfl
  simp only [renderDoc, List.length_append, List.length_cons, List.length_nil,
    h2, h3, h4]
  omega

/-- The interior plus closing brace, written as the decoder sees it. -/
theorem innerD_cons_form (doc : CanonDoc) :
    innerD doc ++ [rbr] =
      dq :: ("name".data ++ dq :: ':' :: (' ' :: dq :: (doc.name ++ dq :: ',' ::
        (' ' :: dq :: ("age".data ++ dq :: ':' :: (' ' :: (natDigits doc.age ++ ',' ::
        (' ' :: dq :: ("emails".data ++ dq :: ':' :: (' ' :: lbk ::
        (renderEmails doc.emails ++ rbk :: rbr :: ([] : List Char)))))))))))) := by
  simp [innerD, List.append_assoc]

/-- `json.loads` decodes the canonical rendering of a well-formed document
to its document value. -/
theorem jsonLoads_renderDoc (doc : CanonDoc) (h : wfDoc doc = true) :
    jsonLoads ⟨renderDoc doc⟩ = .ok (docVal doc) := by
  have hjm := jsonMembers_doc ((renderDoc doc).length - (doc.emails.length + 5))
    doc h []
  have hjv : jsonValue ((renderDoc doc).length + 1)
      ((renderDoc doc).dropWhile isJsonWs) = .ok (docVal doc, []) := by
    have hdrop : (renderDoc doc).dropWhile isJsonWs =
        lbr :: (innerD doc ++ [rbr]) := by
      rw [renderDoc_eq, List.cons_append]
      exact List.dropWhile_cons_of_neg (by decide)
    rw [hdrop]
    show (match (innerD doc ++ [rbr]).dropWhile isJsonWs with
      | c2 :: r2 =>
        if c2 = rbr then Except.ok (PyVal.dict [], r2)
        else jsonMembers (renderDoc doc).length [] (c2 :: r2)
      | [] => Except.error (PyExc.jsonDecodeError "Expecting property name")) = _
    rw [innerD_cons_form, List.dropWhile_cons_of_neg (by decide)]
    dsimp only
    rw [if_neg (by decide),
      show (renderDoc doc).length =
        ((renderDoc doc).length - (doc.emails.length + 5)) +
          doc.emails.length + 5 from by
        have := renderDoc_length_ge doc
        omega]
    exact hjm
  show (match jsonValue ((renderDoc doc).length + 1)
      ((renderDoc doc).dropWhile isJsonWs) with
    | Except.error e => Except.error e
    | Except.ok (v, rest) =>
      if (rest.dropWhile isJsonWs).isEmpty then Except.ok v
      else Except.error (PyExc.jsonDecodeError "Extra data")) = _
  rw [hjv]
  rfl

/-- `validated` with the test schema is the identity on the document value
of a well-formed canonical document. -/
theorem validated_docVal (f : Nat) (doc : CanonDoc) (h : wfDoc doc = true) :
    validated (f + doc.emails.length + 6) schTest (docVal doc) =
      .ok (docVal doc) := by
  have hw := h
  simp only [wfDoc, decide_eq_true_eq] at hw
  have hne : ∀ e ∈ doc.emails.map (fun e => (⟨e⟩ : String)), e ≠ "" := by
    intro e2 he2
    rcases List.mem_map.1 he2 with ⟨e, he, rfl⟩
    have hsp := List.all_eq_true.mp hw.2 e he
    rw [decide_eq_true_eq] at hsp
    intro hEq
    exact hsp.2 (by rw [show e = [] from congrArg String.data hEq]; rfl)
  have hmm : doc.emails.map (fun e => PyVal.str ⟨e⟩) =
      (doc.emails.map (fun e => (⟨e⟩ : String))).map PyVal.str := by
    rw [List.map_map]
    rfl
  have hitems : validatedItems (f + doc.emails.length + 1) strSch
      (doc.emails.map (fun e => PyVal.str ⟨e⟩)) = .ok true := by
    have h1 := validatedItems_strings f (doc.emails.map (fun e => (⟨e⟩ : String))) hne
    rw [List.length_map] at h1
    rw [hmm]
    exact h1
  have step : validated (f + doc.emails.length + 6) schTest (docVal doc) =
      (match (match validatedItems (f + doc.emails.length + 1) strSch
            (doc.emails.map (fun e => PyVal.str ⟨e⟩)) with
          | Except.error e => Except.error e
          | Except.ok true =>
            Except.ok (PyVal.list (doc.emails.map (fun e => PyVal.str ⟨e⟩)))
          | Except.ok false => Except.ok PyVal.none) with
        | Except.error e => Except.error e
        | Except.ok PyVal.none => Except.ok PyVal.none
        | Except.ok w => validatedProps (f + doc.emails.length + 2) []
            (dictSet [("name", PyVal.str ⟨doc.name⟩), ("age", PyVal.int doc.age),
              ("emails", PyVal.list (doc.emails.map (fun e => PyVal.str ⟨e⟩)))]
              "emails" w)) := rfl
  rw [step, hitems]
  rfl

/-- Claim C5, amended: on the canonical rendering of any well-formed
document of the test schema — safe printable strings, nonempty emails —
`parse` equals the canonical strict decode of the text, and both return
the document's value.  (On texts whose strings contain backslashes the
claim as stated fails: the escape pass doubles the backslash, see the
counterexample.) -/
theorem C5_idempotent_on_canonical_docs (doc : CanonDoc)
    (h : wfDoc doc = true) :
    parse schTest ⟨renderDoc doc⟩ = jsonLoads ⟨renderDoc doc⟩ ∧
    jsonLoads ⟨renderDoc doc⟩ = .ok (docVal doc) := by
  have hjl := jsonLoads_renderDoc doc h
  refine ⟨?_, hjl⟩
  have hzero : ¬ ((⟨renderDoc doc⟩ : String) = "") := by
    intro hEq
    have hlen := renderDoc_length_ge doc
    rw [show renderDoc doc = [] from congrArg String.data hEq] at hlen
    simp only [List.length_nil] at hlen
    omega
  have hcand : extract_json_candidates ⟨renderDoc doc⟩ = [⟨renderDoc doc⟩] := by
    have hbb : bbFindall ⟨renderDoc doc⟩ = [⟨renderDoc doc⟩] := by
      rw [show (⟨renderDoc doc⟩ : String) = ⟨lbr :: innerD doc ++ [rbr]⟩ from
        congrArg String.mk (renderDoc_eq doc)]
      exact bbFindall_canon (innerD doc) (braceFree_innerD doc h)
    show (if (bbFindall ⟨renderDoc doc⟩).isEmpty
        then [ensure_ending_brackets ⟨renderDoc doc⟩]
        else bbFindall ⟨renderDoc doc⟩) = _
    rw [hbb]
    rfl
  rw [hjl]
  show parseLoop schTest (extract_json_candidates ⟨renderDoc doc⟩) = _
  rw [hcand]
  show (if fix_json ⟨renderDoc doc⟩ = "" then parseLoop schTest []
    else match jsonLoads (fix_json ⟨renderDoc doc⟩) with
      | Except.error (PyExc.jsonDecodeError e) => parseLoop schTest []
      | Except.error e => Except.error e
      | Except.ok loaded =>
        match validated ((fix_json ⟨renderDoc doc⟩).data.length + 16)
            schTest loaded with
        | Except.error e => Except.error e
        | Except.ok v =>
          if isNoneVal v then parseLoop schTest [] else Except.ok v) = _
  rw [fix_json_renderDoc doc h, if_neg hzero, hjl]
  dsimp only
  rw [show (renderDoc doc).length + 16 =
      ((renderDoc doc).length + 10 - doc.emails.length) +
        doc.emails.length + 6 from by
      have := renderDoc_length_ge doc
      omega,
    validated_docVal _ doc h]
  rfl

theorem C5_witness :
    wfDoc ⟨"John Doe".data, 22, ["john.doe@example.com".data]⟩ = true ∧
    (parse schTest
        ⟨renderDoc ⟨"John Doe".data, 22, ["john.doe@example.com".data]⟩⟩ =
      jsonLoads
        ⟨renderDoc ⟨"John Doe".data, 22, ["john.doe@example.com".data]⟩⟩ ∧
    jsonLoads
        ⟨renderDoc ⟨"John Doe".data, 22, ["john.doe@example.com".data]⟩⟩ =
      .ok (docVal ⟨"John Doe".data, 22, ["john.doe@example.com".data]⟩)) :=
  ⟨by decide, C5_idempotent_on_canonical_docs
    ⟨"John Doe".data, 22, ["john.doe@example.com".data]⟩ (by decide)⟩

end JR
